import Mathlib

/-!
# Formal model of `stenella.go` (AzzurroTech/stenella)

A shallow embedding of the single-file Go RSS aggregator `stenella.go`:
the feed data model, the date-parse loop, per-item normalization of
`fetchFeed`, `aggregateFeeds` (including Go's `sort.Slice`, i.e. the
pattern-defeating quicksort of the Go standard library, embedded
faithfully), and the source-registry HTTP handlers.

Go standard-library calls that perform I/O (`http.Get`, `xml.Decode`,
`time.Parse`, `time.Now`) are modelled as explicit parameters; pure
standard-library helpers (`strings.TrimSpace`, `net/url`, `sort.Slice`)
are embedded directly, with any modelling restriction documented at the
definition.
-/

namespace Stenella

/-- Go `time.Time` values are modelled as integers (an absolute instant);
`time.Time.After` is integer `>`.  This captures exactly the ordering
structure used by the program. -/
abbrev GoTime := Int

/-- `FeedItem` (stenella.go lines 44-50): the unified feed item. -/
structure FeedItem where
  title : String
  link : String
  description : String
  published : GoTime
  source : String
  deriving DecidableEq, Repr, Inhabited

/-- `Item` of the RSS XML structures (stenella.go lines 36-41). -/
structure Item where
  title : String
  link : String
  description : String
  pubDate : String
  deriving DecidableEq, Repr, Inhabited

/-- `Channel` (stenella.go lines 32-35). -/
structure Channel where
  title : String
  items : List Item
  deriving DecidableEq, Repr, Inhabited

/-- `RSS` (stenella.go lines 29-31). -/
structure RSS where
  channel : Channel
  deriving DecidableEq, Repr, Inhabited

/-- The two hardcoded default feed sources (stenella.go lines 54-57). -/
def defaultFeedSources : List String :=
  ["https://news.ycombinator.com/rss", "https://www.reddit.com/r/golang/.rss"]

/-- Model of Go's `strings.TrimSpace`: remove leading and trailing
whitespace.  (Go trims the full Unicode white-space class; the model trims
`Char.isWhitespace` — space, tab, CR, LF — which covers every string the
claims involve.) -/
def trimSpace (s : String) : String :=
  String.mk (((s.toList.dropWhile Char.isWhitespace).reverse.dropWhile Char.isWhitespace).reverse)

/-- ASCII lower-casing of one character (Go's `strings.ToLower` restricted
to ASCII; URL schemes are ASCII). -/
def charToLower (c : Char) : Char :=
  if 65 ≤ c.toNat ∧ c.toNat ≤ 90 then Char.ofNat (c.toNat + 32) else c

/-- Model of Go's `strings.ToLower` (ASCII). -/
def strToLower (s : String) : String := String.mk (s.toList.map charToLower)

/-- Model of Go's `strings.HasPrefix` / `String.startsWith`. -/
def strStartsWith (s pre : String) : Bool := pre.toList.isPrefixOf s.toList

/-! ## Model of Go `net/url` (standard library)

Restricted to the fields the program can observe: `Scheme`, `Opaque`,
`Host` and `Path`.  Query, fragment, user info, port splitting,
percent-escaping and dot-segment cleaning are not modelled; no claim
depends on them. -/

/-- Model of Go `net/url.URL`, restricted to scheme/opaque/host/path. -/
structure GoURL where
  scheme : String
  opq : String
  host : String
  path : String
  deriving DecidableEq, Repr, Inhabited

/-- Result of Go's `getScheme`: either an error (URL starting with `:`,
"missing protocol scheme"), no scheme prefix, or a split into scheme and
remainder. -/
inductive SchemeSplit where
  | err : SchemeSplit
  | noScheme : SchemeSplit
  | found (scheme rest : String) : SchemeSplit
  deriving DecidableEq, Repr

/-- Character-level loop of Go's `getScheme`: a scheme is
`alpha (alphanum | + | - | .)*` followed by `:`. `first` is true at the
first character; `acc` holds the scheme characters read so far, reversed. -/
def getSchemeAux (first : Bool) (acc : List Char) : List Char → SchemeSplit
  | [] => .noScheme
  | c :: rest =>
    if c.isAlpha then getSchemeAux false (c :: acc) rest
    else if c.isDigit || c = '+' || c = '-' || c = '.' then
      if first then .noScheme else getSchemeAux false (c :: acc) rest
    else if c = ':' then
      if first then .err else .found (strToLower (String.mk acc.reverse)) (String.mk rest)
    else .noScheme

/-- Go's `getScheme` (net/url): splits `"scheme:rest"`. -/
def getScheme (s : String) : SchemeSplit := getSchemeAux true [] s.toList

/-- A byte Go's `net/url.Parse` rejects: an ASCII control character. -/
def isCTL (c : Char) : Bool := c.toNat < 32 || c.toNat = 127

/-- The prefix of `base` up to and including its last `/`; empty when
`base` has no `/` (this is Go's `base[:strings.LastIndex(base, "/")+1]`). -/
def upToLastSlash (base : String) : String :=
  String.mk ((base.toList.reverse.dropWhile (fun c => c ≠ '/')).reverse)

/-- Model of Go's `resolvePath` (net/url): merge a reference path with a
base path.  Dot-segment removal (`.` and `..`) is not modelled; no claim
involves dot segments. -/
def resolvePath (base ref : String) : String :=
  if ref = "" then base
  else if strStartsWith ref "/" then ref
  else upToLastSlash base ++ ref

/-- Split an authority-form remainder `"//authority/path"` into host and
path (the authority is kept whole as the host: user info and ports are
not modelled). -/
def splitHostPath (rest : String) : String × String :=
  let cs := rest.toList.drop 2
  (String.mk (cs.takeWhile (fun c => c ≠ '/')), String.mk (cs.dropWhile (fun c => c ≠ '/')))

/-- Model of Go's `url.Parse` over the modelled fields.  Returns `none`
exactly where Go returns a non-nil error in the modelled fragment: a URL
containing an ASCII control character, or one starting with `:`
("missing protocol scheme"). -/
def urlParse (rawURL : String) : Option GoURL :=
  if rawURL.toList.any isCTL then none
  else
    match getScheme rawURL with
    | .err => none
    | .noScheme =>
      if strStartsWith rawURL "//" then
        let (h, p) := splitHostPath rawURL
        some { scheme := "", opq := "", host := h, path := p }
      else
        some { scheme := "", opq := "", host := "", path := rawURL }
    | .found scheme rest =>
      if strStartsWith rest "//" then
        let (h, p) := splitHostPath rest
        some { scheme := scheme, opq := "", host := h, path := p }
      else if strStartsWith rest "/" then
        some { scheme := scheme, opq := "", host := "", path := rest }
      else
        some { scheme := scheme, opq := rest, host := "", path := "" }

/-- Go `(*URL).IsAbs`: a URL is absolute iff it has a scheme. -/
def GoURL.isAbs (u : GoURL) : Bool := u.scheme ≠ ""

/-- Model of Go `(*URL).ResolveReference` over the modelled fields. -/
def resolveReference (u ref : GoURL) : GoURL :=
  let scheme := if ref.scheme = "" then u.scheme else ref.scheme
  if ref.scheme ≠ "" || ref.host ≠ "" then
    { scheme := scheme, opq := ref.opq, host := ref.host, path := resolvePath ref.path "" }
  else if ref.opq ≠ "" then
    { scheme := scheme, opq := ref.opq, host := "", path := "" }
  else
    { scheme := scheme, opq := "", host := u.host, path := resolvePath u.path ref.path }

/-- Model of Go `(*URL).String` over the modelled fields. -/
def urlString (u : GoURL) : String :=
  (if u.scheme ≠ "" then u.scheme ++ ":" else "") ++
  (if u.opq ≠ "" then u.opq
   else
    (if (u.scheme ≠ "" || u.host ≠ "") && (u.host ≠ "" || u.path ≠ "") then "//" else "") ++
    (if u.scheme ≠ "" || u.host ≠ "" then u.host else "") ++
    (if u.path ≠ "" && ¬ strStartsWith u.path "/" && u.host ≠ "" then "/" else "") ++
    u.path)

/-! ## Date parser (stenella.go lines 98-119)

`time.Parse` is Go standard library and is modelled as the parameter
`tparse : layout → input → Option GoTime`; `now` models `time.Now()`. -/

/-- `time.RFC1123Z`. -/
def goRFC1123Z : String := "Mon, 02 Jan 2006 15:04:05 -0700"
/-- `time.RFC1123`. -/
def goRFC1123 : String := "Mon, 02 Jan 2006 15:04:05 MST"
/-- `time.RFC822Z`. -/
def goRFC822Z : String := "02 Jan 06 15:04 -0700"
/-- `time.RFC822`. -/
def goRFC822 : String := "02 Jan 06 15:04 MST"
/-- `time.RFC3339`. -/
def goRFC3339 : String := "2006-01-02T15:04:05Z07:00"
/-- The final fallback layout of `parsePubDate`, lacking timezone information. -/
def fallbackLayout : String := "Mon, 02 Jan 2006 15:04:05"

/-- The `layouts` slice of `parsePubDate`, in source order. -/
def pubDateLayouts : List String := [goRFC1123Z, goRFC1123, goRFC822Z, goRFC822, goRFC3339]

/-- The `for _, l := range layouts` loop of `parsePubDate`: the first
successful parse, if any. -/
def firstParse (tparse : String → String → Option GoTime) (v : String) :
    List String → Option GoTime
  | [] => none
  | l :: ls =>
    match tparse l v with
    | some t => some t
    | none => firstParse tparse v ls

/-- `parsePubDate` (stenella.go lines 98-119).  Returns the parsed time
together with `true` exactly when the date was unparseable (the Go
function returns a non-nil error); in that case the returned time is
`now` (Go's `time.Now()`). -/
def parsePubDate (tparse : String → String → Option GoTime) (now : GoTime) (v : String) :
    GoTime × Bool :=
  match firstParse tparse v pubDateLayouts with
  | some t => (t, false)
  | none =>
    match tparse fallbackLayout v with
    | some t => (t, false)
    | none => (now, true)

/-! ## Feed fetcher, item normalization (stenella.go lines 62-95)

`http.Get` and XML decoding are I/O; the claims quantify over
successfully decoded documents, so `fetchFeedItems` takes the decoded
`RSS` value directly and models only the normalization loop
(lines 74-94). -/

/-- Per-item link resolution (stenella.go lines 80-84).  When the item
link parses as a relative URL the Go code dereferences `base`, which is
nil if the feed URL itself failed to parse (the parse error on line 75 is
discarded); that nil dereference would panic, modelled as `none`. -/
def resolveItemLink (base : Option GoURL) (link : String) : Option String :=
  match urlParse link with
  | none => some link
  | some l =>
    if l.isAbs then some link
    else
      match base with
      | some b => some (urlString (resolveReference b l))
      | none => none

/-- One iteration of the normalization loop (stenella.go lines 77-93):
build the `FeedItem` for one channel item. -/
def normalizeItem (tparse : String → String → Option GoTime) (now : GoTime)
    (base : Option GoURL) (source : String) (it : Item) : Option FeedItem :=
  (resolveItemLink base it.link).map fun lnk =>
    { title := trimSpace it.title
      link := trimSpace lnk
      description := trimSpace it.description
      published := (parsePubDate tparse now it.pubDate).1
      source := source }

/-- The normalization part of `fetchFeed` (stenella.go lines 74-94), for a
successfully decoded document `rss` fetched from `feedURL`.  `none` only
on the nil-base panic path described at `resolveItemLink`. -/
def fetchFeedItems (tparse : String → String → Option GoTime) (now : GoTime)
    (feedURL : String) (rss : RSS) : Option (List FeedItem) :=
  let base := urlParse feedURL
  rss.channel.items.mapM (normalizeItem tparse now base rss.channel.title)

/-! ## Go `sort.Slice` (standard library, `sort/zsortfunc.go`, Go 1.19+)

`sort.Slice(x, less)` runs `pdqsort_func(lessSwap, 0, n, bits.Len(n))`,
a pattern-defeating quicksort.  It is embedded here function by function;
the only array mutation in the Go code is `data.Swap`, modelled by the
total `aswap`. -/

namespace GoSort

variable {α : Type}

/-- Total read of the sorted slice, modelled as a list (`data.Less` only
ever reads in-range indices in the Go code; out-of-range reads return
`default`). -/
def aget [Inhabited α] (xs : List α) (i : Nat) : α := xs.getD i default

/-- Total model of Go's `data.Swap(i, j)`; out-of-range indices leave the
slice unchanged (the Go code never swaps out of range). -/
def aswap (xs : List α) (i j : Nat) : List α :=
  match xs.get? i, xs.get? j with
  | some a, some b => (xs.set i b).set j a
  | _, _ => xs

/-!
Every Go `for` loop below is encoded by structural recursion on an extra
fuel argument that is exactly the loop variant at entry (e.g. `b - i` for
a loop counting `i` up to `b`).  When the fuel reaches `0` the loop guard
is necessarily false as well, so the fuelled function and the Go loop
agree at every fuel the wrappers supply; the fuel only makes the
recursion structural (and hence kernel-computable).
-/

/-- The inner loop of Go's `insertionSort_func`:
`for j := i; j > a && data.Less(j, j-1); j-- { data.Swap(j, j-1) }`. -/
def insertInner [Inhabited α] (less : α → α → Bool) (a : Nat) : List α → Nat → List α
  | xs, 0 => xs
  | xs, j+1 =>
    if a < j + 1 ∧ less (aget xs (j+1)) (aget xs j) then
      insertInner less a (aswap xs (j+1) j) j
    else xs

/-- The outer loop of Go's `insertionSort_func` (`for i := a+1; i < b; i++`),
with fuel `b - i`. -/
def insertionSortLoop [Inhabited α] (less : α → α → Bool) (a b : Nat) :
    List α → Nat → Nat → List α
  | xs, _, 0 => xs
  | xs, i, f+1 =>
    if i < b then insertionSortLoop less a b (insertInner less a xs i) (i+1) f else xs

/-- Go's `insertionSort_func(data, a, b)`: sorts `data[a:b]`. -/
def insertionSortGo [Inhabited α] (less : α → α → Bool) (xs : List α) (a b : Nat) : List α :=
  insertionSortLoop less a b xs (a+1) (b - a)

/-- The child selection inside Go's `siftDown_func`: the left child
`2*root+1`, bumped to the right child when that exists and is larger. -/
def siftChild [Inhabited α] (less : α → α → Bool) (xs : List α) (first root hi : Nat) : Nat :=
  if 2*root + 2 < hi ∧ less (aget xs (first + (2*root+1))) (aget xs (first + (2*root+2)))
  then 2*root + 2 else 2*root + 1

/-- The loop of Go's `siftDown_func`, with fuel `hi - root` (the child is
always at least `root + 1`). -/
def siftDownLoop [Inhabited α] (less : α → α → Bool) (first hi : Nat) :
    List α → Nat → Nat → List α
  | xs, _, 0 => xs
  | xs, root, f+1 =>
    if 2*root + 1 < hi then
      if less (aget xs (first + root)) (aget xs (first + siftChild less xs first root hi)) then
        siftDownLoop less first hi
          (aswap xs (first + root) (first + siftChild less xs first root hi))
          (siftChild less xs first root hi) f
      else xs
    else xs

/-- Go's `siftDown_func(data, lo, hi, first)`: sift the root at `lo` down
the implicit max-heap living in `data[first : first+hi]`. -/
def siftDownGo [Inhabited α] (less : α → α → Bool) (first : Nat)
    (xs : List α) (root hi : Nat) : List α :=
  siftDownLoop less first hi xs root (hi - root)

/-- The heap-construction loop of Go's `heapSort_func`
(`for i := (hi-1)/2; i >= 0; i--`), with `i` the current loop index. -/
def heapBuild [Inhabited α] (less : α → α → Bool) (first hi : Nat) :
    List α → Nat → List α
  | xs, 0 => siftDownGo less first xs 0 hi
  | xs, i+1 => heapBuild less first hi (siftDownGo less first xs (i+1) hi) i

/-- The pop loop of Go's `heapSort_func` (`for i := hi-1; i >= 0; i--`),
with `n` the number of remaining iterations (the next loop index is `n-1`). -/
def heapPop [Inhabited α] (less : α → α → Bool) (first : Nat) :
    List α → Nat → List α
  | xs, 0 => xs
  | xs, n+1 => heapPop less first (siftDownGo less first (aswap xs first (first + n)) 0 n) n

/-- Go's `heapSort_func(data, a, b)`. -/
def heapSortGo [Inhabited α] (less : α → α → Bool) (xs : List α) (a b : Nat) : List α :=
  heapPop less a (heapBuild less a (b - a) xs ((b - a - 1) / 2)) (b - a)

/-- Left scan of Go's `partition_func`:
`for i <= j && data.Less(i, a) { i++ }` (the pivot value `p` is `data[a]`,
which the scans never move); fuel `j + 1 - i`. -/
def scanLtLoop [Inhabited α] (less : α → α → Bool) (xs : List α) (p : α) (j : Nat) :
    Nat → Nat → Nat
  | i, 0 => i
  | i, f+1 => if i ≤ j ∧ less (aget xs i) p then scanLtLoop less xs p j (i+1) f else i

/-- Wrapper supplying the exact fuel for `scanLtLoop`. -/
def scanLt [Inhabited α] (less : α → α → Bool) (xs : List α) (p : α) (j i : Nat) : Nat :=
  scanLtLoop less xs p j i (j + 1 - i)

/-- Right scan of Go's `partition_func`:
`for i <= j && !data.Less(j, a) { j-- }`.  (For `i = 0` Go's `j` would run
to `-1`; in the program `i ≥ a+1 ≥ 1` always, where both agree.) -/
def scanGe [Inhabited α] (less : α → α → Bool) (xs : List α) (p : α) (i : Nat) : Nat → Nat
  | 0 => 0
  | j+1 => if i ≤ j + 1 ∧ ¬ less (aget xs (j+1)) p then scanGe less xs p i j else j+1

/-- The swap-and-rescan loop of Go's `partition_func` (after the first
round), with fuel `j + 1 - i`; returns the array and the final `j`.  At
fuel `0` we have `i > j`, so the loop is exactly in its exit branch. -/
def partitionAuxLoop [Inhabited α] (less : α → α → Bool) (p : α) :
    List α → Nat → Nat → Nat → List α × Nat
  | xs, i, j, 0 => (xs, scanGe less xs p (scanLt less xs p j i) j)
  | xs, i, j, f+1 =>
    if scanLt less xs p j i > scanGe less xs p (scanLt less xs p j i) j then
      (xs, scanGe less xs p (scanLt less xs p j i) j)
    else
      partitionAuxLoop less p
        (aswap xs (scanLt less xs p j i) (scanGe less xs p (scanLt less xs p j i) j))
        (scanLt less xs p j i + 1) (scanGe less xs p (scanLt less xs p j i) j - 1) f

/-- Wrapper supplying the exact fuel for `partitionAuxLoop`. -/
def partitionAux [Inhabited α] (less : α → α → Bool) (p : α) (xs : List α) (i j : Nat) :
    List α × Nat :=
  partitionAuxLoop less p xs i j (j + 1 - i)

/-- The body of Go's `partition_func` after the initial
`data.Swap(a, pivot)`, with `p` the pivot value `data[a]`. -/
def partitionCore [Inhabited α] (less : α → α → Bool) (p : α) (xs0 : List α) (a b : Nat) :
    List α × Nat × Bool :=
  let i1 := scanLt less xs0 p (b-1) (a+1)
  let j1 := scanGe less xs0 p i1 (b-1)
  if i1 > j1 then (aswap xs0 j1 a, j1, true)
  else
    let r := partitionAux less p (aswap xs0 i1 j1) (i1+1) (j1-1)
    (aswap r.1 r.2 a, r.2, false)

/-- Go's `partition_func(data, a, b, pivot)`: Hoare partition around the
value at index `pivot`; returns the array, the final pivot position, and
`alreadyPartitioned`. -/
def partitionGo [Inhabited α] (less : α → α → Bool) (xs : List α) (a b pivot : Nat) :
    List α × Nat × Bool :=
  partitionCore less (aget (aswap xs a pivot) a) (aswap xs a pivot) a b

/-- Left scan of Go's `partitionEqual_func`:
`for i <= j && !data.Less(a, i) { i++ }`; fuel `j + 1 - i`. -/
def scanEqILoop [Inhabited α] (less : α → α → Bool) (xs : List α) (p : α) (j : Nat) :
    Nat → Nat → Nat
  | i, 0 => i
  | i, f+1 => if i ≤ j ∧ ¬ less p (aget xs i) then scanEqILoop less xs p j (i+1) f else i

/-- Wrapper supplying the exact fuel for `scanEqILoop`. -/
def scanEqI [Inhabited α] (less : α → α → Bool) (xs : List α) (p : α) (j i : Nat) : Nat :=
  scanEqILoop less xs p j i (j + 1 - i)

/-- Right scan of Go's `partitionEqual_func`:
`for i <= j && data.Less(a, j) { j-- }`. -/
def scanEqJ [Inhabited α] (less : α → α → Bool) (xs : List α) (p : α) (i : Nat) : Nat → Nat
  | 0 => 0
  | j+1 => if i ≤ j + 1 ∧ less p (aget xs (j+1)) then scanEqJ less xs p i j else j+1

/-- The swap-and-rescan loop of Go's `partitionEqual_func`, with fuel
`j + 1 - i`; returns the array and the final `i` (the new pivot
position). -/
def partitionEqualAuxLoop [Inhabited α] (less : α → α → Bool) (p : α) :
    List α → Nat → Nat → Nat → List α × Nat
  | xs, i, j, 0 => (xs, scanEqI less xs p j i)
  | xs, i, j, f+1 =>
    if scanEqI less xs p j i > scanEqJ less xs p (scanEqI less xs p j i) j then
      (xs, scanEqI less xs p j i)
    else
      partitionEqualAuxLoop less p
        (aswap xs (scanEqI less xs p j i) (scanEqJ less xs p (scanEqI less xs p j i) j))
        (scanEqI less xs p j i + 1) (scanEqJ less xs p (scanEqI less xs p j i) j - 1) f

/-- Wrapper supplying the exact fuel for `partitionEqualAuxLoop`. -/
def partitionEqualAux [Inhabited α] (less : α → α → Bool) (p : α) (xs : List α) (i j : Nat) :
    List α × Nat :=
  partitionEqualAuxLoop less p xs i j (j + 1 - i)

/-- Go's `partitionEqual_func(data, a, b, pivot)`: partitions elements
equal to the pivot value to the front of `data[a:b]`. -/
def partitionEqualGo [Inhabited α] (less : α → α → Bool) (xs : List α) (a b pivot : Nat) :
    List α × Nat :=
  let xs0 := aswap xs a pivot
  let p := aget xs0 a
  partitionEqualAux less p xs0 (a+1) (b-1)

/-- The forward scan of Go's `partialInsertionSort_func`:
`for i < b && !data.Less(i, i-1) { i++ }`; fuel `b - i`. -/
def scanSortedLoop [Inhabited α] (less : α → α → Bool) (xs : List α) (b : Nat) :
    Nat → Nat → Nat
  | i, 0 => i
  | i, f+1 =>
    if i < b ∧ ¬ less (aget xs i) (aget xs (i-1)) then scanSortedLoop less xs b (i+1) f else i

/-- Wrapper supplying the exact fuel for `scanSortedLoop`. -/
def scanSortedIdx [Inhabited α] (less : α → α → Bool) (xs : List α) (b i : Nat) : Nat :=
  scanSortedLoop less xs b i (b - i)

/-- The shift-left loop of Go's `partialInsertionSort_func`
(`for j := i-1; j >= 1; j--`), with the second argument the current `j`. -/
def shiftLeftLoop [Inhabited α] (less : α → α → Bool) : List α → Nat → List α
  | xs, 0 => xs
  | xs, j+1 =>
    if less (aget xs (j+1)) (aget xs j) then shiftLeftLoop less (aswap xs (j+1) j) j
    else xs

/-- The shift-right loop of Go's `partialInsertionSort_func`
(`for j := i+1; j < b; j++`); fuel `b - j`. -/
def shiftRightLoop [Inhabited α] (less : α → α → Bool) (b : Nat) :
    List α → Nat → Nat → List α
  | xs, _, 0 => xs
  | xs, j, f+1 =>
    if j < b then
      if ¬ less (aget xs j) (aget xs (j-1)) then xs
      else shiftRightLoop less b (aswap xs j (j-1)) (j+1) f
    else xs

/-- The outer loop of Go's `partialInsertionSort_func` (at most `maxSteps = 5`
rounds; `shortestShifting = 50`), with the last argument the remaining
rounds. -/
def pInsertionSortLoop [Inhabited α] (less : α → α → Bool) (a b : Nat) :
    List α → Nat → Nat → List α × Bool
  | xs, _, 0 => (xs, false)
  | xs, i, steps+1 =>
    let i1 := scanSortedIdx less xs b i
    if i1 = b then (xs, true)
    else if b - a < 50 then (xs, false)
    else
      let xs1 := aswap xs i1 (i1-1)
      let xs2 := if i1 - a ≥ 2 then shiftLeftLoop less xs1 (i1-1) else xs1
      let xs3 := if b - i1 ≥ 2 then shiftRightLoop less b xs2 (i1+1) (b - (i1+1)) else xs2
      pInsertionSortLoop less a b xs3 i1 steps

/-- Go's `partialInsertionSort_func(data, a, b)`: partially sorts
`data[a:b]`, returning `true` iff the range ended up sorted. -/
def pInsertionSortGo [Inhabited α] (less : α → α → Bool) (xs : List α) (a b : Nat) :
    List α × Bool :=
  pInsertionSortLoop less a b xs (a+1) 5

/-- Go's `xorshift.Next` (sort package): a 64-bit xorshift step. -/
def xsNext (x : Nat) : Nat :=
  let x1 := (x ^^^ (x <<< 13)) % 2^64
  let x2 := x1 ^^^ (x1 >>> 7)
  (x2 ^^^ (x2 <<< 17)) % 2^64

/-- Go's `bits.Len`, written with fuel `n` (the number of halvings of `n`
is at most `n`): the number of bits required to represent `n`. -/
def bitsLenLoop : Nat → Nat → Nat
  | 0, _ => 0
  | _+1, 0 => 0
  | f+1, m+1 => bitsLenLoop f ((m+1) / 2) + 1

/-- Go's `bits.Len(n)`. -/
def bitsLen (n : Nat) : Nat := bitsLenLoop n n

/-- Go's `nextPowerOfTwo` (sort package): `1 << bits.Len(uint(length))`. -/
def nextPowerOfTwo (n : Nat) : Nat := 1 <<< bitsLen n

/-- Go's `breakPatterns_func(data, a, b)`: swaps three middle elements
with xorshift-chosen positions, to break up deterministic patterns. -/
def breakPatternsGo (xs : List α) (a b : Nat) : List α :=
  if b - a ≥ 8 then
    let length := b - a
    let modulus := nextPowerOfTwo length
    let idx := a + (length/4)*2 - 1
    let r1 := xsNext length
    let o1 := r1 % modulus
    let o1 := if o1 ≥ length then o1 - length else o1
    let xs1 := aswap xs idx (a + o1)
    let r2 := xsNext r1
    let o2 := r2 % modulus
    let o2 := if o2 ≥ length then o2 - length else o2
    let xs2 := aswap xs1 (idx+1) (a + o2)
    let r3 := xsNext r2
    let o3 := r3 % modulus
    let o3 := if o3 ≥ length then o3 - length else o3
    aswap xs2 (idx+2) (a + o3)
  else xs

/-- Go's `sortedHint` values. -/
inductive SortedHint where
  | unknownHint | increasingHint | decreasingHint
  deriving DecidableEq, Repr

/-- Go's `order2_func`: order two indices by the values they point at,
counting a swap. -/
def order2 [Inhabited α] (less : α → α → Bool) (xs : List α) (a b swaps : Nat) :
    Nat × Nat × Nat :=
  if less (aget xs b) (aget xs a) then (b, a, swaps+1) else (a, b, swaps)

/-- Go's `median_func`: the index of the median of three values. -/
def medianGo [Inhabited α] (less : α → α → Bool) (xs : List α) (a b c swaps : Nat) :
    Nat × Nat :=
  let r1 := order2 less xs a b swaps
  let r2 := order2 less xs r1.2.1 c r1.2.2
  let r3 := order2 less xs r1.1 r2.1 r2.2.2
  (r3.2.1, r3.2.2)

/-- Go's `medianAdjacent_func`: median of `i-1, i, i+1`. -/
def medianAdjacentGo [Inhabited α] (less : α → α → Bool) (xs : List α) (i swaps : Nat) :
    Nat × Nat :=
  medianGo less xs (i-1) i (i+1) swaps

/-- Go's `choosePivot_func(data, a, b)`: pivot index and sortedness hint
(`shortestNinther = 50`, `maxSwaps = 12`). -/
def choosePivotGo [Inhabited α] (less : α → α → Bool) (xs : List α) (a b : Nat) :
    Nat × SortedHint :=
  let l := b - a
  let i := a + l/4*1
  let j := a + l/4*2
  let k := a + l/4*3
  let jr : Nat × Nat :=
    if l ≥ 8 then
      if l ≥ 50 then
        let m1 := medianAdjacentGo less xs i 0
        let m2 := medianAdjacentGo less xs j m1.2
        let m3 := medianAdjacentGo less xs k m2.2
        medianGo less xs m1.1 m2.1 m3.1 m3.2
      else medianGo less xs i j k 0
    else (j, 0)
  if jr.2 = 0 then (jr.1, .increasingHint)
  else if jr.2 = 12 then (jr.1, .decreasingHint)
  else (jr.1, .unknownHint)

/-- The loop of Go's `reverseRange_func`
(`i, j := a, b-1; for i < j { Swap(i, j); i++; j-- }`), with fuel `j - i`. -/
def reverseRangeLoop : List α → Nat → Nat → Nat → List α
  | xs, _, _, 0 => xs
  | xs, i, j, f+1 =>
    if i < j then reverseRangeLoop (aswap xs i j) (i+1) (j-1) f else xs

/-- Go's `reverseRange_func(data, a, b)`: reverses `data[a:b]`. -/
def reverseRangeGo (xs : List α) (a b : Nat) : List α :=
  reverseRangeLoop xs a (b-1) (b - 1 - a)

/-- Go's `pdqsort_func(data, a, b, limit)` (`maxInsertion = 12`), with
fuel `b - a`.  The `for` loop is encoded by tail calls carrying the
mutated `a`, `b`, `limit`, `wasBalanced`, `wasPartitioned`; fresh
recursive calls restart with both flags `true`, exactly as the Go locals
are initialized.  At fuel `0` the range is empty and the Go code would
take (and we take) the trivial insertion-sort branch. -/
def pdqsortLoop [Inhabited α] (less : α → α → Bool) :
    List α → Nat → Nat → Nat → Bool → Bool → Nat → List α
  | xs, a, b, _, _, _, 0 => insertionSortGo less xs a b
  | xs, a, b, limit, wasBalanced, wasPartitioned, f+1 =>
    if b - a ≤ 12 then insertionSortGo less xs a b
    else if limit = 0 then heapSortGo less xs a b
    else
      let xs0 := if wasBalanced then xs else breakPatternsGo xs a b
      let limit1 := if wasBalanced then limit else limit - 1
      let pv := choosePivotGo less xs0 a b
      let xs1 := if pv.2 = SortedHint.decreasingHint then reverseRangeGo xs0 a b else xs0
      let pivot1 := if pv.2 = SortedHint.decreasingHint then (b-1) - (pv.1 - a) else pv.1
      let hint1 := if pv.2 = SortedHint.decreasingHint then SortedHint.increasingHint else pv.2
      let pis :=
        if wasBalanced ∧ wasPartitioned ∧ hint1 = SortedHint.increasingHint then
          pInsertionSortGo less xs1 a b
        else (xs1, false)
      if pis.2 then pis.1
      else
        let xs2 := pis.1
        if 0 < a ∧ ¬ less (aget xs2 (a-1)) (aget xs2 pivot1) then
          pdqsortLoop less (partitionEqualGo less xs2 a b pivot1).1
            (partitionEqualGo less xs2 a b pivot1).2 b limit1 wasBalanced wasPartitioned f
        else
          let pt := partitionGo less xs2 a b pivot1
          let wasP := pt.2.2
          let wasB := decide (min (pt.2.1 - a) (b - pt.2.1) ≥ (b - a) / 8)
          if pt.2.1 - a < b - pt.2.1 then
            pdqsortLoop less (pdqsortLoop less pt.1 a pt.2.1 limit1 true true f)
              (pt.2.1 + 1) b limit1 wasB wasP f
          else
            pdqsortLoop less (pdqsortLoop less pt.1 (pt.2.1 + 1) b limit1 true true f)
              a pt.2.1 limit1 wasB wasP f

/-- Go's `pdqsort_func(data, a, b, limit)`. -/
def pdqsortGo [Inhabited α] (less : α → α → Bool) (xs : List α)
    (a b limit : Nat) (wasBalanced wasPartitioned : Bool) : List α :=
  pdqsortLoop less xs a b limit wasBalanced wasPartitioned (b - a)

/-- Go's `sort.Slice(x, less)`: `pdqsort(data, 0, n, bits.Len(n))`. -/
def goSortSlice [Inhabited α] (less : α → α → Bool) (xs : List α) : List α :=
  pdqsortLoop less xs 0 xs.length (bitsLen xs.length) true true xs.length

end GoSort

/-! ## Aggregator and HTTP handlers -/

/-- The comparison closure of `aggregateFeeds` (stenella.go line 139):
`all[i].Published.After(all[j].Published)`. -/
def feedLess (x y : FeedItem) : Bool := decide (y.published < x.published)

/-- `aggregateFeeds` (stenella.go lines 122-142).  `fetch` models one
`fetchFeed` call per source (`none` = failed fetch, logged and skipped);
the function concatenates the successful results in source order, sorts
with Go's `sort.Slice` (newest first), and always returns a nil error. -/
def aggregateFeeds (fetch : String → Option (List FeedItem)) (sources : List String) :
    List FeedItem × Option String :=
  let all := sources.foldl
    (fun acc src =>
      match fetch src with
      | none => acc
      | some itms => acc ++ itms) []
  (GoSort.goSortSlice feedLess all, none)

/-- `apiFeedsHandler` (stenella.go lines 152-160), reduced to the HTTP
status it answers: 500 if `aggregateFeeds` returned an error, 200
otherwise. -/
def apiFeedsHandler (fetch : String → Option (List FeedItem)) (sources : List String) : Nat :=
  match (aggregateFeeds fetch sources).2 with
  | some _ => 500
  | none => 200

/-- `apiAddSourceHandler` (stenella.go lines 173-200) after JSON decoding:
given the current source list and the decoded `url` field, returns the
HTTP status (400 invalid payload/URL, 409 duplicate, 201 created) and the
updated source list. -/
def apiAddSource (sources : List String) (url : String) : Nat × List String :=
  if trimSpace url = "" then (400, sources)
  else
    let u := trimSpace url
    match urlParse u with
    | none => (400, sources)
    | some parsed =>
      if ¬ parsed.isAbs then (400, sources)
      else if sources.contains u then (409, sources)
      else (201, sources ++ [u])

/-- `apiRemoveSourceHandler` (stenella.go lines 203-230) after JSON
decoding: returns the HTTP status (400 invalid payload, 404 not found,
200 removed) and the updated source list. -/
def apiRemoveSource (sources : List String) (url : String) : Nat × List String :=
  if trimSpace url = "" then (400, sources)
  else
    let u := trimSpace url
    let newList := sources.filter (fun s => s ≠ u)
    if ¬ sources.contains u then (404, sources) else (200, newList)

/-- Registry states reachable from the initial hardcoded list through the
add/remove handlers (with any outcome, success or failure). -/
inductive Reachable : List String → Prop where
  | init : Reachable defaultFeedSources
  | add (s : List String) (url : String) (h : Reachable s) :
      Reachable (apiAddSource s url).2
  | remove (s : List String) (url : String) (h : Reachable s) :
      Reachable (apiRemoveSource s url).2

end Stenella


/-! ## Verification framework: sortedness, frame conditions, order axioms -/

namespace StenellaProofs

open Stenella GoSort

/-- The range `data[a:b]` is sorted for `less`: no later element is
strictly less than an earlier one. -/
def SortedRange {α : Type} [Inhabited α] (less : α → α → Bool) (xs : List α) (a b : Nat) : Prop :=
  ∀ i j, a ≤ i → i < j → j < b → less (aget xs j) (aget xs i) = false

/-- `ys` agrees with `xs` at every position outside `[a, b)`. -/
def UnchangedOutside {α : Type} (xs ys : List α) (a b : Nat) : Prop :=
  ∀ k, k < a ∨ b ≤ k → ys.get? k = xs.get? k

/-- The sublist `data[a:b]`. -/
def slice {α : Type} (xs : List α) (a b : Nat) : List α := (xs.drop a).take (b - a)

/-- `less` is irreflexive. -/
def LessIrrefl {α : Type} (less : α → α → Bool) : Prop := ∀ x, less x x = false

/-- `less` is transitive. -/
def LessTrans {α : Type} (less : α → α → Bool) : Prop :=
  ∀ x y z, less x y = true → less y z = true → less x z = true

/-- The negation of `less` is transitive (negative transitivity: together
with the other two properties this makes `less` a strict weak order, which
is exactly what Go's `sort.Slice` contract demands). -/
def LessNegTrans {α : Type} (less : α → α → Bool) : Prop :=
  ∀ x y z, less x y = false → less y z = false → less x z = false

/-- The spec's stable descending sort by published timestamp: Mathlib's
insertion sort is stable, so equal-timestamp items keep their original
relative order in the input. -/
def specStableSortByPublishedDesc (l : List FeedItem) : List FeedItem :=
  List.insertionSort (fun x y => y.published ≤ x.published) l

/-- 13 items (above Go's `maxInsertion = 12`, so `sort.Slice` runs a real
partition step) with three items of equal timestamp 6 and distinct
titles. -/
def ceItems : List FeedItem :=
  [⟨"t0", "", "", 6, ""⟩, ⟨"t1", "", "", 3, ""⟩, ⟨"t2", "", "", 6, ""⟩,
   ⟨"t3", "", "", 9, ""⟩, ⟨"t4", "", "", 2, ""⟩, ⟨"t5", "", "", 9, ""⟩,
   ⟨"t6", "", "", 4, ""⟩, ⟨"t7", "", "", 1, ""⟩, ⟨"t8", "", "", 8, ""⟩,
   ⟨"t9", "", "", 5, ""⟩, ⟨"t10", "", "", 7, ""⟩, ⟨"t11", "", "", 0, ""⟩,
   ⟨"t12", "", "", 6, ""⟩]

end StenellaProofs


namespace StenellaProofs

open Stenella GoSort

theorem cons_set_perm {α : Type} : ∀ (t : List α) (i : Nat) (v w : α),
    t.get? i = some v → List.Perm (v :: t.set i w) (w :: t)
  | [], i, v, w, h => by simp at h
  | y :: t, 0, v, w, h => by
    simp only [List.get?_cons_zero, Option.some.injEq] at h
    subst h
    simp only [List.set_cons_zero]
    exact List.Perm.swap _ _ _
  | y :: t, i+1, v, w, h => by
    simp only [List.get?_cons_succ] at h
    simp only [List.set_cons_succ]
    refine List.Perm.trans (List.Perm.swap _ _ _) ?_
    refine List.Perm.trans (List.Perm.cons y (cons_set_perm t i v w h)) ?_
    exact List.Perm.swap _ _ _

theorem set_set_perm {α : Type} : ∀ (l : List α) (i j : Nat) (a b : α),
    l.get? i = some a → l.get? j = some b → List.Perm ((l.set i b).set j a) l
  | [], i, j, a, b, ha, hb => by simp at ha
  | x :: t, 0, 0, a, b, ha, hb => by
    simp only [List.get?_cons_zero, Option.some.injEq] at ha hb
    subst ha
    simp only [List.set_cons_zero]
    exact List.Perm.refl _
  | x :: t, 0, j+1, a, b, ha, hb => by
    simp only [List.get?_cons_zero, Option.some.injEq] at ha
    simp only [List.get?_cons_succ] at hb
    subst ha
    simp only [List.set_cons_zero, List.set_cons_succ]
    exact cons_set_perm t j b x hb
  | x :: t, i+1, 0, a, b, ha, hb => by
    simp only [List.get?_cons_zero, Option.some.injEq] at hb
    simp only [List.get?_cons_succ] at ha
    subst hb
    simp only [List.set_cons_zero, List.set_cons_succ]
    exact cons_set_perm t i a x ha
  | x :: t, i+1, j+1, a, b, ha, hb => by
    simp only [List.get?_cons_succ] at ha hb
    simp only [List.set_cons_succ]
    exact List.Perm.cons x (set_set_perm t i j a b ha hb)

theorem aswap_perm {α : Type} (xs : List α) (i j : Nat) : List.Perm (aswap xs i j) xs := by
  unfold aswap
  cases ha : xs.get? i with
  | none => cases xs.get? j <;> exact List.Perm.refl _
  | some a =>
    cases hb : xs.get? j with
    | none => exact List.Perm.refl _
    | some b => exact set_set_perm xs i j a b ha hb

theorem insertInner_perm {α : Type} [Inhabited α] (less : α → α → Bool) (a : Nat) :
    ∀ (j : Nat) (xs : List α), List.Perm (insertInner less a xs j) xs
  | 0, xs => List.Perm.refl _
  | j+1, xs => by
    rw [insertInner]
    split
    · exact (insertInner_perm less a j _).trans (aswap_perm xs (j+1) j)
    · exact List.Perm.refl _

theorem insertionSortLoop_perm {α : Type} [Inhabited α] (less : α → α → Bool) (a b : Nat) :
    ∀ (f i : Nat) (xs : List α), List.Perm (insertionSortLoop less a b xs i f) xs
  | 0, _, xs => List.Perm.refl _
  | f+1, i, xs => by
    rw [insertionSortLoop]
    split
    · exact (insertionSortLoop_perm less a b f (i+1) _).trans (insertInner_perm less a i xs)
    · exact List.Perm.refl _

theorem insertionSortGo_perm {α : Type} [Inhabited α] (less : α → α → Bool)
    (xs : List α) (a b : Nat) : List.Perm (insertionSortGo less xs a b) xs :=
  insertionSortLoop_perm less a b (b - a) (a+1) xs

theorem siftDownLoop_perm {α : Type} [Inhabited α] (less : α → α → Bool) (first hi : Nat) :
    ∀ (f root : Nat) (xs : List α), List.Perm (siftDownLoop less first hi xs root f) xs
  | 0, _, xs => List.Perm.refl _
  | f+1, root, xs => by
    rw [siftDownLoop]
    split
    · split
      · exact (siftDownLoop_perm less first hi f _ _).trans (aswap_perm xs _ _)
      · exact List.Perm.refl _
    · exact List.Perm.refl _

theorem siftDownGo_perm {α : Type} [Inhabited α] (less : α → α → Bool) (first : Nat)
    (xs : List α) (root hi : Nat) : List.Perm (siftDownGo less first xs root hi) xs :=
  siftDownLoop_perm less first hi (hi - root) root xs

theorem heapBuild_perm {α : Type} [Inhabited α] (less : α → α → Bool) (first hi : Nat) :
    ∀ (i : Nat) (xs : List α), List.Perm (heapBuild less first hi xs i) xs
  | 0, xs => siftDownGo_perm less first xs 0 hi
  | i+1, xs => by
    rw [heapBuild]
    exact (heapBuild_perm less first hi i _).trans (siftDownGo_perm less first xs (i+1) hi)

theorem heapPop_perm {α : Type} [Inhabited α] (less : α → α → Bool) (first : Nat) :
    ∀ (n : Nat) (xs : List α), List.Perm (heapPop less first xs n) xs
  | 0, xs => List.Perm.refl _
  | n+1, xs => by
    rw [heapPop]
    exact (heapPop_perm less first n _).trans
      ((siftDownGo_perm less first _ 0 n).trans (aswap_perm xs first (first + n)))

theorem heapSortGo_perm {α : Type} [Inhabited α] (less : α → α → Bool)
    (xs : List α) (a b : Nat) : List.Perm (heapSortGo less xs a b) xs :=
  (heapPop_perm less a (b - a) _).trans (heapBuild_perm less a (b - a) ((b - a - 1) / 2) xs)

theorem partitionAuxLoop_perm {α : Type} [Inhabited α] (less : α → α → Bool) (p : α) :
    ∀ (f : Nat) (xs : List α) (i j : Nat),
      List.Perm (partitionAuxLoop less p xs i j f).1 xs
  | 0, xs, i, j => List.Perm.refl _
  | f+1, xs, i, j => by
    rw [partitionAuxLoop]
    split
    · exact List.Perm.refl _
    · exact (partitionAuxLoop_perm less p f _ _ _).trans (aswap_perm xs _ _)

theorem partitionCore_perm {α : Type} [Inhabited α] (less : α → α → Bool) (p : α)
    (xs0 : List α) (a b : Nat) : List.Perm (partitionCore less p xs0 a b).1 xs0 := by
  simp only [partitionCore]
  split
  · exact aswap_perm xs0 _ _
  · exact (aswap_perm _ _ _).trans
      ((partitionAuxLoop_perm less p _ _ _ _).trans (aswap_perm xs0 _ _))

theorem partitionGo_perm {α : Type} [Inhabited α] (less : α → α → Bool)
    (xs : List α) (a b pivot : Nat) : List.Perm (partitionGo less xs a b pivot).1 xs :=
  (partitionCore_perm less _ _ a b).trans (aswap_perm xs a pivot)

theorem partitionEqualAuxLoop_perm {α : Type} [Inhabited α] (less : α → α → Bool) (p : α) :
    ∀ (f : Nat) (xs : List α) (i j : Nat),
      List.Perm (partitionEqualAuxLoop less p xs i j f).1 xs
  | 0, xs, i, j => List.Perm.refl _
  | f+1, xs, i, j => by
    rw [partitionEqualAuxLoop]
    split
    · exact List.Perm.refl _
    · exact (partitionEqualAuxLoop_perm less p f _ _ _).trans (aswap_perm xs _ _)

theorem partitionEqualGo_perm {α : Type} [Inhabited α] (less : α → α → Bool)
    (xs : List α) (a b pivot : Nat) : List.Perm (partitionEqualGo less xs a b pivot).1 xs :=
  (partitionEqualAuxLoop_perm less _ _ _ _ _).trans (aswap_perm xs a pivot)

theorem shiftLeftLoop_perm {α : Type} [Inhabited α] (less : α → α → Bool) :
    ∀ (j : Nat) (xs : List α), List.Perm (shiftLeftLoop less xs j) xs
  | 0, xs => List.Perm.refl _
  | j+1, xs => by
    rw [shiftLeftLoop]
    split
    · exact (shiftLeftLoop_perm less j _).trans (aswap_perm xs (j+1) j)
    · exact List.Perm.refl _

theorem shiftRightLoop_perm {α : Type} [Inhabited α] (less : α → α → Bool) (b : Nat) :
    ∀ (f j : Nat) (xs : List α), List.Perm (shiftRightLoop less b xs j f) xs
  | 0, _, xs => List.Perm.refl _
  | f+1, j, xs => by
    rw [shiftRightLoop]
    split
    · split
      · exact List.Perm.refl _
      · exact (shiftRightLoop_perm less b f (j+1) _).trans (aswap_perm xs j (j-1))
    · exact List.Perm.refl _

theorem pInsertionSortLoop_perm {α : Type} [Inhabited α] (less : α → α → Bool) (a b : Nat) :
    ∀ (steps i : Nat) (xs : List α), List.Perm (pInsertionSortLoop less a b xs i steps).1 xs
  | 0, _, xs => List.Perm.refl _
  | steps+1, i, xs => by
    rw [pInsertionSortLoop]
    split
    · exact List.Perm.refl _
    · split
      · exact List.Perm.refl _
      · refine (pInsertionSortLoop_perm less a b steps _ _).trans ?_
        refine List.Perm.trans ?_
          (aswap_perm xs (scanSortedIdx less xs b i) (scanSortedIdx less xs b i - 1))
        split
        · refine (shiftRightLoop_perm less b _ _ _).trans ?_
          split
          · exact shiftLeftLoop_perm less _ _
          · exact List.Perm.refl _
        · split
          · exact shiftLeftLoop_perm less _ _
          · exact List.Perm.refl _

theorem pInsertionSortGo_perm {α : Type} [Inhabited α] (less : α → α → Bool)
    (xs : List α) (a b : Nat) : List.Perm (pInsertionSortGo less xs a b).1 xs :=
  pInsertionSortLoop_perm less a b 5 (a+1) xs

theorem breakPatternsGo_perm {α : Type} (xs : List α) (a b : Nat) :
    List.Perm (breakPatternsGo xs a b) xs := by
  unfold breakPatternsGo
  split
  · exact (aswap_perm _ _ _).trans ((aswap_perm _ _ _).trans (aswap_perm xs _ _))
  · exact List.Perm.refl _

theorem reverseRangeLoop_perm {α : Type} :
    ∀ (f : Nat) (xs : List α) (i j : Nat), List.Perm (reverseRangeLoop xs i j f) xs
  | 0, xs, _, _ => List.Perm.refl _
  | f+1, xs, i, j => by
    rw [reverseRangeLoop]
    split
    · exact (reverseRangeLoop_perm f _ _ _).trans (aswap_perm xs i j)
    · exact List.Perm.refl _

theorem reverseRangeGo_perm {α : Type} (xs : List α) (a b : Nat) :
    List.Perm (reverseRangeGo xs a b) xs :=
  reverseRangeLoop_perm (b - 1 - a) xs a (b-1)

set_option maxHeartbeats 4000000 in
theorem pdqsortLoop_perm {α : Type} [Inhabited α] (less : α → α → Bool) :
    ∀ (f : Nat) (xs : List α) (a b limit : Nat) (wb wp : Bool),
      List.Perm (pdqsortLoop less xs a b limit wb wp f) xs
  | 0, xs, a, b, _, _, _ => insertionSortGo_perm less xs a b
  | f+1, xs, a, b, limit, wb, wp => by
    rw [pdqsortLoop]
    dsimp only
    split
    · exact insertionSortGo_perm less xs a b
    · split
      · exact heapSortGo_perm less xs a b
      · generalize hX0 : (if wb = true then xs else breakPatternsGo xs a b) = X0
        have h0 : List.Perm X0 xs := by
          rw [← hX0]
          split
          · exact List.Perm.refl _
          · exact breakPatternsGo_perm xs a b
        generalize (if wb = true then limit else limit - 1) = L1
        generalize choosePivotGo less X0 a b = PV
        generalize hX1 :
            (if PV.2 = SortedHint.decreasingHint then reverseRangeGo X0 a b else X0) = X1
        have h1 : List.Perm X1 X0 := by
          rw [← hX1]
          split
          · exact reverseRangeGo_perm X0 a b
          · exact List.Perm.refl _
        generalize (if PV.2 = SortedHint.decreasingHint then b - 1 - (PV.1 - a) else PV.1) = P1
        generalize hH1 :
            (if PV.2 = SortedHint.decreasingHint then SortedHint.increasingHint else PV.2) = H1
        generalize hPIS :
            (if wb = true ∧ wp = true ∧ H1 = SortedHint.increasingHint then
              pInsertionSortGo less X1 a b else (X1, false)) = PIS
        have h2 : List.Perm PIS.1 xs := by
          rw [← hPIS]
          refine List.Perm.trans ?_ (h1.trans h0)
          split
          · exact pInsertionSortGo_perm less X1 a b
          · exact List.Perm.refl _
        split
        · exact h2
        · split
          · exact (pdqsortLoop_perm less f _ _ _ _ _ _).trans
              ((partitionEqualGo_perm less PIS.1 a b P1).trans h2)
          · generalize hPT : partitionGo less PIS.1 a b P1 = PT
            have h3 : List.Perm PT.1 xs := by
              rw [← hPT]
              exact (partitionGo_perm less PIS.1 a b P1).trans h2
            split
            · exact (pdqsortLoop_perm less f _ _ _ _ _ _).trans
                ((pdqsortLoop_perm less f _ _ _ _ _ _).trans h3)
            · exact (pdqsortLoop_perm less f _ _ _ _ _ _).trans
                ((pdqsortLoop_perm less f _ _ _ _ _ _).trans h3)

theorem goSortSlice_perm {α : Type} [Inhabited α] (less : α → α → Bool) (xs : List α) :
    List.Perm (goSortSlice less xs) xs :=
  pdqsortLoop_perm less xs.length xs 0 xs.length (bitsLen xs.length) true true

end StenellaProofs

namespace StenellaProofs

open Stenella GoSort

theorem unchangedOutside_refl {α : Type} (xs : List α) (a b : Nat) :
    UnchangedOutside xs xs a b := fun _ _ => rfl

theorem unchangedOutside_trans {α : Type} {xs ys zs : List α} {a b : Nat}
    (h1 : UnchangedOutside xs ys a b) (h2 : UnchangedOutside ys zs a b) :
    UnchangedOutside xs zs a b := fun k hk => (h2 k hk).trans (h1 k hk)

theorem unchangedOutside_mono {α : Type} {xs ys : List α} {a b a' b' : Nat}
    (ha : a' ≤ a) (hb : b ≤ b') (h : UnchangedOutside xs ys a b) :
    UnchangedOutside xs ys a' b' := by
  intro k hk
  refine h k ?_
  rcases hk with hk | hk
  · exact Or.inl (lt_of_lt_of_le hk ha)
  · exact Or.inr (le_trans hb hk)

theorem aget_eq_get? {α : Type} [Inhabited α] (xs : List α) (k : Nat) :
    aget xs k = (xs.get? k).getD default := by
  simp [aget, List.getD_eq_getD_get?]

theorem aget_of_get? {α : Type} [Inhabited α] {xs : List α} {k : Nat} {x : α}
    (h : xs.get? k = some x) : aget xs k = x := by
  rw [aget_eq_get?, h]
  rfl

theorem get?_of_lt_length {α : Type} [Inhabited α] {xs : List α} {k : Nat}
    (h : k < xs.length) : xs.get? k = some (aget xs k) := by
  rw [aget_eq_get?]
  rcases List.get?_eq_some.2 ⟨h, rfl⟩ with h'
  rw [h']
  rfl

theorem aget_congr_of_get? {α : Type} [Inhabited α] {xs ys : List α} {k : Nat}
    (h : ys.get? k = xs.get? k) : aget ys k = aget xs k := by
  rw [aget_eq_get?, aget_eq_get?, h]

theorem aswap_length {α : Type} (xs : List α) (i j : Nat) :
    (aswap xs i j).length = xs.length := by
  unfold aswap
  cases xs.get? i <;> cases xs.get? j <;> simp

theorem aswap_get?_ne {α : Type} (xs : List α) (i j k : Nat)
    (hik : k ≠ i) (hjk : k ≠ j) : (aswap xs i j).get? k = xs.get? k := by
  unfold aswap
  cases hi : xs.get? i with
  | none => rfl
  | some a =>
    cases hj : xs.get? j with
    | none => rfl
    | some b =>
      rw [List.get?_set_ne _ _ (fun h => hjk h.symm), List.get?_set_ne _ _ (fun h => hik h.symm)]

theorem aswap_eq {α : Type} [Inhabited α] {xs : List α} {i j : Nat}
    (hi : i < xs.length) (hj : j < xs.length) :
    aswap xs i j = (xs.set i (aget xs j)).set j (aget xs i) := by
  unfold aswap
  rw [get?_of_lt_length hi, get?_of_lt_length hj]

theorem aswap_get?_fst {α : Type} [Inhabited α] {xs : List α} {i j : Nat}
    (hi : i < xs.length) (hj : j < xs.length) :
    (aswap xs i j).get? i = xs.get? j := by
  rw [aswap_eq hi hj]
  by_cases hij : i = j
  · subst hij
    rw [List.get?_set_eq_of_lt _ (by simpa using hi)]
    exact (get?_of_lt_length hi).symm
  · rw [List.get?_set_ne _ _ (fun h => hij h.symm), List.get?_set_eq_of_lt _ hi]
    exact (get?_of_lt_length hj).symm

theorem aswap_get?_snd {α : Type} [Inhabited α] {xs : List α} {i j : Nat}
    (hi : i < xs.length) (hj : j < xs.length) :
    (aswap xs i j).get? j = xs.get? i := by
  rw [aswap_eq hi hj, List.get?_set_eq_of_lt _ (by simpa using hj)]
  exact (get?_of_lt_length hi).symm

theorem aget_aswap_fst {α : Type} [Inhabited α] {xs : List α} {i j : Nat}
    (hi : i < xs.length) (hj : j < xs.length) :
    aget (aswap xs i j) i = aget xs j := by
  rw [aget_eq_get?, aget_eq_get?, aswap_get?_fst hi hj]

theorem aget_aswap_snd {α : Type} [Inhabited α] {xs : List α} {i j : Nat}
    (hi : i < xs.length) (hj : j < xs.length) :
    aget (aswap xs i j) j = aget xs i := by
  rw [aget_eq_get?, aget_eq_get?, aswap_get?_snd hi hj]

theorem aget_aswap_ne {α : Type} [Inhabited α] (xs : List α) {i j k : Nat}
    (hik : k ≠ i) (hjk : k ≠ j) : aget (aswap xs i j) k = aget xs k :=
  aget_congr_of_get? (aswap_get?_ne xs i j k hik hjk)

theorem aswap_unchangedOutside {α : Type} {xs : List α} {i j a b : Nat}
    (hia : a ≤ i) (hib : i < b) (hja : a ≤ j) (hjb : j < b) :
    UnchangedOutside xs (aswap xs i j) a b := by
  intro k hk
  refine aswap_get?_ne xs i j k ?_ ?_ <;> rintro rfl <;> omega

end StenellaProofs

namespace StenellaProofs

open Stenella GoSort

theorem slice_nil_of_le {α : Type} (xs : List α) {a b : Nat} (h : b ≤ a) :
    slice xs a b = [] := by
  unfold slice
  rw [Nat.sub_eq_zero_of_le h]
  rfl

theorem slice_get?_lt {α : Type} (xs : List α) {a b n : Nat} (h : n < b - a) :
    (slice xs a b).get? n = xs.get? (a + n) := by
  unfold slice
  rw [List.get?_take h, List.get?_drop]

theorem slice_perm {α : Type} {xs ys : List α} {a b : Nat}
    (hp : List.Perm ys xs) (ho : UnchangedOutside xs ys a b) :
    List.Perm (slice ys a b) (slice xs a b) := by
  rcases le_or_lt b a with hba | hab
  · rw [slice_nil_of_le ys hba, slice_nil_of_le xs hba]
  · have htake : ys.take a = xs.take a := by
      refine List.ext_get? fun n => ?_
      rcases Nat.lt_or_ge n a with hn | hn
      · rw [List.get?_take hn, List.get?_take hn]
        exact ho n (Or.inl hn)
      · rw [List.get?_eq_none.2, List.get?_eq_none.2]
        · exact le_trans (List.length_take_le a xs) hn
        · exact le_trans (List.length_take_le a ys) hn
    have hdrop : ys.drop b = xs.drop b := by
      refine List.ext_get? fun n => ?_
      rw [List.get?_drop, List.get?_drop]
      exact ho (b + n) (Or.inr (Nat.le_add_right b n))
    have edec : ∀ zs : List α, zs.take a ++ (slice zs a b ++ zs.drop b) = zs := by
      intro zs
      have h1 : slice zs a b ++ zs.drop b = zs.drop a := by
        unfold slice
        have h2 : (zs.drop a).drop (b - a) = zs.drop b := by
          rw [List.drop_drop, Nat.add_sub_cancel' (Nat.le_of_lt hab)]
        rw [← h2, List.take_append_drop]
      rw [h1, List.take_append_drop]
    have hperm2 : List.Perm (ys.take a ++ (slice ys a b ++ ys.drop b))
        (xs.take a ++ (slice xs a b ++ xs.drop b)) := by
      rw [edec ys, edec xs]
      exact hp
    rw [htake, hdrop] at hperm2
    exact ((List.perm_append_right_iff _).1 ((List.perm_append_left_iff _).1 hperm2))

theorem aget_mem_slice {α : Type} [Inhabited α] {xs : List α} {a b k : Nat}
    (h1 : a ≤ k) (h2 : k < b) (h3 : k < xs.length) :
    aget xs k ∈ slice xs a b := by
  refine List.get?_mem (n := k - a) ?_
  rw [slice_get?_lt xs (by omega), (by omega : a + (k - a) = k)]
  exact get?_of_lt_length h3

theorem of_mem_slice {α : Type} [Inhabited α] {x : α} {xs : List α} {a b : Nat}
    (h : x ∈ slice xs a b) :
    ∃ k, a ≤ k ∧ k < b ∧ k < xs.length ∧ aget xs k = x := by
  obtain ⟨n, hn⟩ := List.mem_iff_get?.1 h
  rcases Nat.lt_or_ge n (b - a) with hnb | hnb
  · rw [slice_get?_lt xs hnb] at hn
    exact ⟨a + n, Nat.le_add_right a n, by omega,
      (List.get?_eq_some.1 hn).1, aget_of_get? hn⟩
  · exfalso
    have : (slice xs a b).length ≤ n := by
      unfold slice
      exact le_trans (List.length_take_le _ _) hnb
    rw [List.get?_eq_none.2 this] at hn
    exact Option.noConfusion hn

theorem transfer_range_prop {α : Type} [Inhabited α] {xs ys : List α} {a b : Nat}
    (hp : List.Perm ys xs) (ho : UnchangedOutside xs ys a b) (P : α → Prop)
    (hP : ∀ k, a ≤ k → k < b → k < xs.length → P (aget xs k)) :
    ∀ k, a ≤ k → k < b → k < ys.length → P (aget ys k) := by
  intro k h1 h2 h3
  have hm : aget ys k ∈ slice xs a b :=
    (slice_perm hp ho).mem_iff.1 (aget_mem_slice h1 h2 h3)
  obtain ⟨k', hk1, hk2, hk3, hk4⟩ := of_mem_slice hm
  rw [← hk4]
  exact hP k' hk1 hk2 hk3

end StenellaProofs

namespace StenellaProofs

open Stenella GoSort

theorem lessAsym {α : Type} {less : α → α → Bool} (hirr : LessIrrefl less)
    (htr : LessTrans less) {x y : α} (h : less x y = true) : less y x = false := by
  cases hyx : less y x with
  | false => rfl
  | true =>
    have h2 := htr x y x h hyx
    rw [hirr x] at h2
    exact h2.symm

theorem sortedRange_of_adj {α : Type} [Inhabited α] {less : α → α → Bool}
    (hntr : LessNegTrans less) {xs : List α} {a b : Nat}
    (hadj : ∀ k, a < k → k < b → less (aget xs k) (aget xs (k-1)) = false) :
    SortedRange less xs a b := by
  have key : ∀ d i j, a ≤ i → j = i + d + 1 → j < b →
      less (aget xs j) (aget xs i) = false := by
    intro d
    induction d with
    | zero =>
      intro i j ha hj hb
      have h := hadj j (by omega) hb
      rwa [(by omega : j - 1 = i)] at h
    | succ d ih =>
      intro i j ha hj hb
      have h1 := hadj j (by omega) hb
      rw [(by omega : j - 1 = i + d + 1)] at h1
      exact hntr _ _ _ h1 (ih i (i + d + 1) ha rfl (by omega))
  intro i j h1 h2 h3
  exact key (j - i - 1) i j h1 (by omega) h3

theorem insertInner_spec {α : Type} [Inhabited α] {less : α → α → Bool}
    (hirr : LessIrrefl less) (htr : LessTrans less) (hntr : LessNegTrans less)
    (a i : Nat) :
    ∀ (J : Nat) (xs : List α), a ≤ J → J ≤ i → i < xs.length →
    (∀ k, a < k → k < J → less (aget xs k) (aget xs (k-1)) = false) →
    (∀ k, J < k → k < i → less (aget xs (k+1)) (aget xs k) = false) →
    (J < i → less (aget xs J) (aget xs (J+1)) = true) →
    (a < J → J < i → ∀ k, J < k → k ≤ i → less (aget xs k) (aget xs (J-1)) = false) →
    (∀ k, a < k → k ≤ i →
      less (aget (insertInner less a xs J) k) (aget (insertInner less a xs J) (k-1)) = false)
    ∧ UnchangedOutside xs (insertInner less a xs J) a (i+1)
  | 0, xs, haJ, hJi, hlen, hA1, hA2, hA3, hA5 => by
    simp only [insertInner]
    refine ⟨?_, unchangedOutside_refl xs a (i+1)⟩
    intro k hak hki
    have ha0 : a = 0 := Nat.le_zero.mp haJ
    by_cases hk1 : k = 1
    · subst hk1
      have h3 := hA3 (by omega)
      rw [(by omega : (1:Nat) - 1 = 0)]
      exact lessAsym hirr htr h3
    · have h2 := hA2 (k-1) (by omega) (by omega)
      rwa [(by omega : k - 1 + 1 = k)] at h2
  | J+1, xs, haJ, hJi, hlen, hA1, hA2, hA3, hA5 => by
    simp only [insertInner]
    split
    · next hguard =>
      obtain ⟨hgJ, hgl⟩ := hguard
      have hlJ1 : J + 1 < xs.length := by omega
      have hlJ : J < xs.length := by omega
      have hfst : aget (aswap xs (J+1) J) (J+1) = aget xs J := aget_aswap_fst hlJ1 hlJ
      have hsnd : aget (aswap xs (J+1) J) J = aget xs (J+1) := aget_aswap_snd hlJ1 hlJ
      have hne : ∀ k, k ≠ J+1 → k ≠ J → aget (aswap xs (J+1) J) k = aget xs k :=
        fun k h1 h2 => aget_aswap_ne xs h1 h2
      have ih := insertInner_spec hirr htr hntr a i J (aswap xs (J+1) J)
        (by omega) (by omega) (by rw [aswap_length]; exact hlen)
        (by
          intro k hk1 hk2
          rw [hne k (by omega) (by omega), hne (k-1) (by omega) (by omega)]
          exact hA1 k hk1 (by omega))
        (by
          intro k hk1 hk2
          by_cases hkJ : k = J + 1
          · subst hkJ
            rw [hne (J+2) (by omega) (by omega), hfst]
            have h5 := hA5 (by omega) (by omega) (J+2) (by omega) (by omega)
            rwa [(by omega : J + 1 - 1 = J)] at h5
          · rw [hne (k+1) (by omega) (by omega), hne k hkJ (by omega)]
            exact hA2 k (by omega) hk2)
        (by
          intro h
          rw [hsnd, hfst]
          exact hgl)
        (by
          intro haJ' hJi' k hk1 hk2
          rw [hne (J-1) (by omega) (by omega)]
          have hJ1 : less (aget xs J) (aget xs (J-1)) = false := by
            have h := hA1 J haJ' (by omega)
            exact h
          by_cases hkJ : k = J + 1
          · subst hkJ
            rw [hfst]
            exact hJ1
          · rw [hne k hkJ (by omega)]
            have h5 := hA5 hgJ (by omega) k (by omega) hk2
            rw [(by omega : J + 1 - 1 = J)] at h5
            exact hntr _ _ _ h5 hJ1)
      refine ⟨ih.1, unchangedOutside_trans ?_ ih.2⟩
      exact aswap_unchangedOutside (by omega) (by omega) (by omega) (by omega)
    · next hguard =>
      rw [not_and_or] at hguard
      refine ⟨?_, unchangedOutside_refl xs a (i+1)⟩
      intro k hak hki
      rcases Nat.lt_trichotomy k (J+1) with hk | hk | hk
      · exact hA1 k hak hk
      · subst hk
        rcases hguard with hg | hg
        · omega
        · rw [(by omega : J + 1 - 1 = J)]
          exact Bool.eq_false_iff.mpr (fun h => hg h)
      · by_cases hk2 : k = J + 2
        · subst hk2
          have h3 := hA3 (by omega)
          rw [(by omega : J + 2 - 1 = J + 1)]
          exact lessAsym hirr htr h3
        · have h2 := hA2 (k-1) (by omega) (by omega)
          rwa [(by omega : k - 1 + 1 = k)] at h2

theorem insertionSortLoop_spec {α : Type} [Inhabited α] {less : α → α → Bool}
    (hirr : LessIrrefl less) (htr : LessTrans less) (hntr : LessNegTrans less)
    (a b : Nat) :
    ∀ (f i : Nat) (xs : List α), a + 1 ≤ i → b ≤ xs.length → b - i ≤ f →
    (∀ k, a < k → k < i → less (aget xs k) (aget xs (k-1)) = false) →
    (∀ k, a < k → k < b →
      less (aget (insertionSortLoop less a b xs i f) k)
        (aget (insertionSortLoop less a b xs i f) (k-1)) = false)
    ∧ UnchangedOutside xs (insertionSortLoop less a b xs i f) a b
  | 0, i, xs, hai, hbl, hf, hpre => by
    simp only [insertionSortLoop]
    exact ⟨fun k h1 h2 => hpre k h1 (by omega), unchangedOutside_refl xs a b⟩
  | f+1, i, xs, hai, hbl, hf, hpre => by
    simp only [insertionSortLoop]
    split
    · next hib =>
      have hspec := insertInner_spec hirr htr hntr a i i xs (by omega) (le_refl i)
        (by omega) (fun k h1 h2 => hpre k h1 h2)
        (fun k h1 h2 => absurd h1 (by omega))
        (fun h => absurd h (by omega))
        (fun h1 h2 => absurd h2 (by omega))
      have hlen2 : b ≤ (insertInner less a xs i).length :=
        le_trans hbl (le_of_eq (insertInner_perm less a i xs).length_eq.symm)
      have ih := insertionSortLoop_spec hirr htr hntr a b f (i+1) (insertInner less a xs i)
        (by omega) hlen2 (by omega)
        (fun k h1 h2 => hspec.1 k h1 (by omega))
      refine ⟨ih.1, unchangedOutside_trans ?_ ih.2⟩
      exact unchangedOutside_mono (le_refl a) (by omega) hspec.2
    · next hib =>
      exact ⟨fun k h1 h2 => hpre k h1 (by omega), unchangedOutside_refl xs a b⟩

theorem insertionSortGo_spec {α : Type} [Inhabited α] {less : α → α → Bool}
    (hirr : LessIrrefl less) (htr : LessTrans less) (hntr : LessNegTrans less)
    {xs : List α} {a b : Nat} (hbl : b ≤ xs.length) :
    SortedRange less (insertionSortGo less xs a b) a b
    ∧ UnchangedOutside xs (insertionSortGo less xs a b) a b := by
  unfold insertionSortGo
  have h := insertionSortLoop_spec hirr htr hntr a b (b - a) (a+1) xs (le_refl _) hbl
    (by omega) (fun k h1 h2 => absurd h1 (by omega))
  exact ⟨sortedRange_of_adj hntr h.1, h.2⟩

end StenellaProofs

namespace StenellaProofs

open Stenella GoSort

theorem siftChild_mem {α : Type} [Inhabited α] (less : α → α → Bool) (xs : List α)
    (first root hi : Nat) (h : 2*root + 1 < hi) :
    (siftChild less xs first root hi = 2*root+1 ∨ siftChild less xs first root hi = 2*root+2)
    ∧ siftChild less xs first root hi < hi ∧ root < siftChild less xs first root hi := by
  unfold siftChild
  split
  · next hg => exact ⟨Or.inr rfl, hg.1, by omega⟩
  · exact ⟨Or.inl rfl, h, by omega⟩

theorem siftChild_maxsel {α : Type} [Inhabited α] {less : α → α → Bool}
    (hirr : LessIrrefl less) (htr : LessTrans less) (xs : List α)
    (first root hi : Nat) (c : Nat) (hc : c = 2*root+1 ∨ c = 2*root+2) (hchi : c < hi) :
    less (aget xs (first + siftChild less xs first root hi)) (aget xs (first + c)) = false := by
  unfold siftChild
  split
  · next hg =>
    rcases hc with hc | hc
    · subst hc
      exact lessAsym hirr htr hg.2
    · subst hc
      exact hirr _
  · next hg =>
    rcases hc with hc | hc
    · subst hc
      exact hirr _
    · subst hc
      rw [not_and_or] at hg
      rcases hg with hg | hg
      · omega
      · exact Bool.eq_false_iff.mpr hg

theorem siftDownLoop_spec {α : Type} [Inhabited α] {less : α → α → Bool}
    (hirr : LessIrrefl less) (htr : LessTrans less) (hntr : LessNegTrans less)
    (first hi m : Nat) :
    ∀ (f r : Nat) (xs : List α), m ≤ r → first + hi ≤ xs.length → hi - r ≤ f →
    (∀ p c, c < hi → (c = 2*p+1 ∨ c = 2*p+2) → m ≤ p → p ≠ r →
      less (aget xs (first+p)) (aget xs (first+c)) = false) →
    (∀ p c, (r = 2*p+1 ∨ r = 2*p+2) → (c = 2*r+1 ∨ c = 2*r+2) → c < hi → m ≤ p →
      less (aget xs (first+p)) (aget xs (first+c)) = false) →
    (∀ p c, c < hi → (c = 2*p+1 ∨ c = 2*p+2) → m ≤ p →
      less (aget (siftDownLoop less first hi xs r f) (first+p))
        (aget (siftDownLoop less first hi xs r f) (first+c)) = false)
    ∧ UnchangedOutside xs (siftDownLoop less first hi xs r f) first (first+hi)
  | 0, r, xs, hm, hlen, hf, hI, hII => by
    simp only [siftDownLoop]
    refine ⟨?_, unchangedOutside_refl xs first (first+hi)⟩
    intro p c hchi hrel hmp
    by_cases hpr : p = r
    · rcases hrel with h | h <;> omega
    · exact hI p c hchi hrel hmp hpr
  | f+1, r, xs, hm, hlen, hf, hI, hII => by
    simp only [siftDownLoop]
    split
    · next hg1 =>
      split
      · next hg2 =>
        obtain ⟨hKrel, hKhi, hKr⟩ := siftChild_mem less xs first r hi hg1
        have hmax : ∀ c, (c = 2*r+1 ∨ c = 2*r+2) → c < hi →
            less (aget xs (first + siftChild less xs first r hi)) (aget xs (first + c)) = false :=
          fun c hc hchi => siftChild_maxsel hirr htr xs first r hi c hc hchi
        have hlr : first + r < xs.length := by omega
        have hlK : first + siftChild less xs first r hi < xs.length := by omega
        have hfst : aget (aswap xs (first+r) (first + siftChild less xs first r hi)) (first+r)
            = aget xs (first + siftChild less xs first r hi) := aget_aswap_fst hlr hlK
        have hsnd : aget (aswap xs (first+r) (first + siftChild less xs first r hi))
            (first + siftChild less xs first r hi) = aget xs (first+r) := aget_aswap_snd hlr hlK
        have hne : ∀ k, k ≠ first + r → k ≠ first + siftChild less xs first r hi →
            aget (aswap xs (first+r) (first + siftChild less xs first r hi)) k = aget xs k :=
          fun k h1 h2 => aget_aswap_ne xs h1 h2
        have ih := siftDownLoop_spec hirr htr hntr first hi m f
          (siftChild less xs first r hi)
          (aswap xs (first+r) (first + siftChild less xs first r hi))
          (by omega) (by rw [aswap_length]; exact hlen) (by omega)
          (by
            intro p c hchi hrel hmp hpK
            by_cases hpr : p = r
            · rw [hpr] at hrel ⊢
              by_cases hcK : c = siftChild less xs first r hi
              · rw [hcK, hfst, hsnd]
                exact lessAsym hirr htr hg2
              · rw [hfst, hne (first+c) (by omega) (by omega)]
                exact hmax c hrel hchi
            · rw [hne (first+p) (by omega) (by omega)]
              by_cases hcr : c = r
              · rw [hcr, hfst]
                exact hII p (siftChild less xs first r hi) (hcr ▸ hrel) hKrel hKhi hmp
              · have hcK : c ≠ siftChild less xs first r hi := by
                  intro hceq
                  rw [hceq] at hrel
                  rcases hKrel with h | h <;> rcases hrel with h' | h' <;> omega
                rw [hne (first+c) (by omega) (by omega)]
                exact hI p c hchi hrel hmp hpr)
          (by
            intro p c hKp hcK hchi hmp
            have hpr : p = r := by
              rcases hKp with h | h <;> rcases hKrel with h' | h' <;> omega
            have hcr : c ≠ r := by rcases hcK with h | h <;> omega
            have hcKne : c ≠ siftChild less xs first r hi := by
              rcases hcK with h | h <;> omega
            rw [hpr, hfst, hne (first+c) (by omega) (by omega)]
            exact hI (siftChild less xs first r hi) c hchi hcK (by omega) (by omega))
        refine ⟨ih.1, unchangedOutside_trans ?_ ih.2⟩
        exact aswap_unchangedOutside (by omega) (by omega) (by omega) (by omega)
      · next hg2 =>
        obtain ⟨hKrel, hKhi, hKr⟩ := siftChild_mem less xs first r hi hg1
        refine ⟨?_, unchangedOutside_refl xs first (first+hi)⟩
        intro p c hchi hrel hmp
        by_cases hpr : p = r
        · rw [hpr] at hrel ⊢
          have hle : less (aget xs (first+r)) (aget xs (first + siftChild less xs first r hi))
              = false := Bool.eq_false_iff.mpr hg2
          by_cases hcK : c = siftChild less xs first r hi
          · rw [hcK]
            exact hle
          · exact hntr _ _ _ hle (siftChild_maxsel hirr htr xs first r hi c hrel hchi)
        · exact hI p c hchi hrel hmp hpr
    · next hg1 =>
      refine ⟨?_, unchangedOutside_refl xs first (first+hi)⟩
      intro p c hchi hrel hmp
      by_cases hpr : p = r
      · rcases hrel with h | h <;> omega
      · exact hI p c hchi hrel hmp hpr

end StenellaProofs

namespace StenellaProofs

open Stenella GoSort

theorem siftDownGo_spec {α : Type} [Inhabited α] {less : α → α → Bool}
    (hirr : LessIrrefl less) (htr : LessTrans less) (hntr : LessNegTrans less)
    (first hi m : Nat) (r : Nat) (xs : List α)
    (hm : m ≤ r) (hlen : first + hi ≤ xs.length)
    (hI : ∀ p c, c < hi → (c = 2*p+1 ∨ c = 2*p+2) → m ≤ p → p ≠ r →
      less (aget xs (first+p)) (aget xs (first+c)) = false)
    (hII : ∀ p c, (r = 2*p+1 ∨ r = 2*p+2) → (c = 2*r+1 ∨ c = 2*r+2) → c < hi → m ≤ p →
      less (aget xs (first+p)) (aget xs (first+c)) = false) :
    (∀ p c, c < hi → (c = 2*p+1 ∨ c = 2*p+2) → m ≤ p →
      less (aget (siftDownGo less first xs r hi) (first+p))
        (aget (siftDownGo less first xs r hi) (first+c)) = false)
    ∧ UnchangedOutside xs (siftDownGo less first xs r hi) first (first+hi) :=
  siftDownLoop_spec hirr htr hntr first hi m (hi - r) r xs hm hlen (le_refl _) hI hII

theorem heapBuild_spec {α : Type} [Inhabited α] {less : α → α → Bool}
    (hirr : LessIrrefl less) (htr : LessTrans less) (hntr : LessNegTrans less)
    (first hi : Nat) :
    ∀ (i : Nat) (xs : List α), first + hi ≤ xs.length →
    (∀ p c, c < hi → (c = 2*p+1 ∨ c = 2*p+2) → i < p →
      less (aget xs (first+p)) (aget xs (first+c)) = false) →
    (∀ p c, c < hi → (c = 2*p+1 ∨ c = 2*p+2) →
      less (aget (heapBuild less first hi xs i) (first+p))
        (aget (heapBuild less first hi xs i) (first+c)) = false)
    ∧ UnchangedOutside xs (heapBuild less first hi xs i) first (first+hi)
  | 0, xs, hlen, hpre => by
    simp only [heapBuild]
    have h := siftDownGo_spec hirr htr hntr first hi 0 0 xs (le_refl 0) hlen
      (fun p c h1 h2 h3 h4 => hpre p c h1 h2 (by omega))
      (fun p c hKp => by exfalso; rcases hKp with h | h <;> omega)
    exact ⟨fun p c h1 h2 => h.1 p c h1 h2 (Nat.zero_le p), h.2⟩
  | i+1, xs, hlen, hpre => by
    simp only [heapBuild]
    have h := siftDownGo_spec hirr htr hntr first hi (i+1) (i+1) xs (le_refl _) hlen
      (fun p c h1 h2 h3 h4 => hpre p c h1 h2 (by omega))
      (fun p c hKp hcK hchi hmp => by exfalso; rcases hKp with h | h <;> omega)
    have hlen2 : first + hi ≤ (siftDownGo less first xs (i+1) hi).length := by
      rw [(siftDownGo_perm less first xs (i+1) hi).length_eq]
      exact hlen
    have ih := heapBuild_spec hirr htr hntr first hi i (siftDownGo less first xs (i+1) hi)
      hlen2 (fun p c h1 h2 h3 => h.1 p c h1 h2 (by omega))
    exact ⟨ih.1, unchangedOutside_trans h.2 ih.2⟩

theorem heap_root_max {α : Type} [Inhabited α] {less : α → α → Bool}
    (hirr : LessIrrefl less) (hntr : LessNegTrans less)
    (first n : Nat) (xs : List α)
    (hheap : ∀ p c, c < n → (c = 2*p+1 ∨ c = 2*p+2) →
      less (aget xs (first+p)) (aget xs (first+c)) = false) :
    ∀ j, j < n → less (aget xs (first+0)) (aget xs (first+j)) = false := by
  intro j
  induction j using Nat.strong_induction_on with
  | _ j ih =>
    intro hj
    by_cases hj0 : j = 0
    · rw [hj0]
      exact hirr _
    · have hrel : j = 2*((j-1)/2)+1 ∨ j = 2*((j-1)/2)+2 := by omega
      exact hntr _ _ _ (ih ((j-1)/2) (by omega) (by omega)) (hheap ((j-1)/2) j hj hrel)

theorem heapPop_spec {α : Type} [Inhabited α] {less : α → α → Bool}
    (hirr : LessIrrefl less) (htr : LessTrans less) (hntr : LessNegTrans less)
    (first hi : Nat) :
    ∀ (n : Nat) (xs : List α), n ≤ hi → first + hi ≤ xs.length →
    (∀ p c, c < n → (c = 2*p+1 ∨ c = 2*p+2) →
      less (aget xs (first+p)) (aget xs (first+c)) = false) →
    (∀ k, n < k → k < hi → less (aget xs (first+k)) (aget xs (first+(k-1))) = false) →
    (∀ j k, j < n → n ≤ k → k < hi → less (aget xs (first+k)) (aget xs (first+j)) = false) →
    (∀ k, 0 < k → k < hi →
      less (aget (heapPop less first xs n) (first+k))
        (aget (heapPop less first xs n) (first+(k-1))) = false)
    ∧ UnchangedOutside xs (heapPop less first xs n) first (first+hi)
  | 0, xs, hn, hlen, hheap, htail, hcross => by
    simp only [heapPop]
    exact ⟨fun k h1 h2 => htail k h1 h2, unchangedOutside_refl xs first (first+hi)⟩
  | n+1, xs, hn, hlen, hheap, htail, hcross => by
    simp only [heapPop]
    have hlf : first < xs.length := by omega
    have hln : first + n < xs.length := by omega
    have ysfst : aget (aswap xs first (first+n)) first = aget xs (first+n) :=
      aget_aswap_fst hlf hln
    have yssnd : aget (aswap xs first (first+n)) (first+n) = aget xs first :=
      aget_aswap_snd hlf hln
    have ysne : ∀ k, k ≠ first → k ≠ first + n →
        aget (aswap xs first (first+n)) k = aget xs k :=
      fun k h1 h2 => aget_aswap_ne xs h1 h2
    have hlys : first + hi ≤ (aswap xs first (first+n)).length := by
      rw [aswap_length]
      exact hlen
    have hsift := siftDownGo_spec hirr htr hntr first n 0 0 (aswap xs first (first+n))
      (le_refl 0) (by omega)
      (by
        intro p c h1 h2 h3 h4
        rw [ysne (first+p) (by omega) (by omega), ysne (first+c) (by omega) (by omega)]
        exact hheap p c (by omega) h2)
      (fun p c hKp => by exfalso; rcases hKp with h | h <;> omega)
    have zsheap := fun p c h1 h2 => hsift.1 p c h1 h2 (Nat.zero_le p)
    have hroot := heap_root_max hirr hntr first (n+1) xs hheap
    have hlzs : first + hi ≤ (siftDownGo less first (aswap xs first (first+n)) 0 n).length := by
      rw [(siftDownGo_perm less first (aswap xs first (first+n)) 0 n).length_eq]
      exact hlys
    have zsouter : ∀ q, n ≤ q → q < hi →
        aget (siftDownGo less first (aswap xs first (first+n)) 0 n) (first+q)
          = aget (aswap xs first (first+n)) (first+q) := by
      intro q h1 h2
      exact aget_congr_of_get? (hsift.2 (first+q) (Or.inr (by omega)))
    have hxs0 : aget xs (first+0) = aget xs first := by rw [Nat.add_zero]
    have htail2 : ∀ k, n < k → k < hi →
        less (aget (siftDownGo less first (aswap xs first (first+n)) 0 n) (first+k))
          (aget (siftDownGo less first (aswap xs first (first+n)) 0 n) (first+(k-1))) = false := by
      intro k h1 h2
      rw [zsouter k (by omega) h2, zsouter (k-1) (by omega) (by omega)]
      by_cases hk : k = n + 1
      · rw [hk, (by omega : n + 1 - 1 = n), yssnd,
          ysne (first+(n+1)) (by omega) (by omega)]
        have h := hcross 0 (n+1) (by omega) (by omega) (by omega)
        rwa [hxs0] at h
      · rw [ysne (first+k) (by omega) (by omega), ysne (first+(k-1)) (by omega) (by omega)]
        exact htail k (by omega) h2
    have hcross2 : ∀ j k, j < n → n ≤ k → k < hi →
        less (aget (siftDownGo less first (aswap xs first (first+n)) 0 n) (first+k))
          (aget (siftDownGo less first (aswap xs first (first+n)) 0 n) (first+j)) = false := by
      intro j k hj hk1 hk2
      have hzk : aget (siftDownGo less first (aswap xs first (first+n)) 0 n) (first+k)
          = aget (aswap xs first (first+n)) (first+k) := zsouter k hk1 hk2
      have hy : ∀ kk, first ≤ kk → kk < first + n → kk < (aswap xs first (first+n)).length →
          less (aget (aswap xs first (first+n)) (first+k))
            (aget (aswap xs first (first+n)) kk) = false := by
        intro kk hk3 hk4 hk5
        by_cases hkf : kk = first
        · rw [hkf, ysfst]
          by_cases hkn : k = n
          · rw [hkn, yssnd]
            have h := hroot n (by omega)
            rwa [hxs0] at h
          · rw [ysne (first+k) (by omega) (by omega)]
            exact hcross n k (by omega) (by omega) hk2
        · rw [ysne kk (by omega) (by omega)]
          have hkk : kk = first + (kk - first) := by omega
          rw [hkk]
          by_cases hkn : k = n
          · rw [hkn, yssnd]
            have h := hroot (kk - first) (by omega)
            rwa [hxs0] at h
          · rw [ysne (first+k) (by omega) (by omega)]
            exact hcross (kk - first) k (by omega) (by omega) hk2
      have htrans := transfer_range_prop
        (siftDownGo_perm less first (aswap xs first (first+n)) 0 n) hsift.2
        (fun v => less (aget (aswap xs first (first+n)) (first+k)) v = false)
        hy
      have h := htrans (first+j) (by omega) (by omega) (by omega)
      rwa [hzk]
    have ih := heapPop_spec hirr htr hntr first hi n
      (siftDownGo less first (aswap xs first (first+n)) 0 n)
      (by omega) hlzs zsheap htail2 hcross2
    have hu1 : UnchangedOutside xs (aswap xs first (first+n)) first (first+hi) :=
      aswap_unchangedOutside (by omega) (by omega) (by omega) (by omega)
    have hu2 : UnchangedOutside (aswap xs first (first+n))
        (siftDownGo less first (aswap xs first (first+n)) 0 n) first (first+hi) :=
      unchangedOutside_mono (le_refl first) (by omega) hsift.2
    exact ⟨ih.1, unchangedOutside_trans hu1 (unchangedOutside_trans hu2 ih.2)⟩

theorem heapSortGo_spec {α : Type} [Inhabited α] {less : α → α → Bool}
    (hirr : LessIrrefl less) (htr : LessTrans less) (hntr : LessNegTrans less)
    {xs : List α} {a b : Nat} (hab : a ≤ b) (hbl : b ≤ xs.length) :
    SortedRange less (heapSortGo less xs a b) a b
    ∧ UnchangedOutside xs (heapSortGo less xs a b) a b := by
  unfold heapSortGo
  have hlen : a + (b - a) ≤ xs.length := by omega
  have hbuild := heapBuild_spec hirr htr hntr a (b-a) ((b-a-1)/2) xs hlen
    (fun p c h1 h2 h3 => by exfalso; rcases h2 with h | h <;> omega)
  have hlen2 : a + (b - a) ≤ (heapBuild less a (b-a) xs ((b-a-1)/2)).length := by
    rw [(heapBuild_perm less a (b-a) ((b-a-1)/2) xs).length_eq]
    exact hlen
  have hpop := heapPop_spec hirr htr hntr a (b-a) (b-a)
    (heapBuild less a (b-a) xs ((b-a-1)/2)) (le_refl _) hlen2
    hbuild.1
    (fun k h1 h2 => by exfalso; omega)
    (fun j k h1 h2 h3 => by exfalso; omega)
  have hadj : ∀ k, a < k → k < b →
      less (aget (heapPop less a (heapBuild less a (b-a) xs ((b-a-1)/2)) (b-a)) k)
        (aget (heapPop less a (heapBuild less a (b-a) xs ((b-a-1)/2)) (b-a)) (k-1)) = false := by
    intro k h1 h2
    have h := hpop.1 (k - a) (by omega) (by omega)
    rwa [(by omega : a + (k - a) = k), (by omega : a + (k - a - 1) = k - 1)] at h
  have hunch : UnchangedOutside xs
      (heapPop less a (heapBuild less a (b-a) xs ((b-a-1)/2)) (b-a)) a b := by
    have h := unchangedOutside_trans hbuild.2 hpop.2
    exact unchangedOutside_mono (le_refl a) (by omega) h
  exact ⟨sortedRange_of_adj hntr hadj, hunch⟩

end StenellaProofs

namespace StenellaProofs

open Stenella GoSort

theorem scanLtLoop_spec {α : Type} [Inhabited α] (less : α → α → Bool)
    (xs : List α) (p : α) (j : Nat) :
    ∀ (f i : Nat), j + 1 - i ≤ f →
    i ≤ scanLtLoop less xs p j i f
    ∧ (i ≤ j + 1 → scanLtLoop less xs p j i f ≤ j + 1)
    ∧ (∀ k, i ≤ k → k < scanLtLoop less xs p j i f → less (aget xs k) p = true)
    ∧ (scanLtLoop less xs p j i f ≤ j → less (aget xs (scanLtLoop less xs p j i f)) p = false)
  | 0, i, hf => by
    simp only [scanLtLoop]
    refine ⟨le_refl i, fun h => by omega, fun k h1 h2 => absurd h2 (by omega), fun h => ?_⟩
    exact absurd h (by omega)
  | f+1, i, hf => by
    simp only [scanLtLoop]
    split
    · next hg =>
      have ih := scanLtLoop_spec less xs p j f (i+1) (by omega)
      refine ⟨by omega, fun h => ih.2.1 (by omega), ?_, ih.2.2.2⟩
      intro k h1 h2
      by_cases hk : k = i
      · rw [hk]
        exact hg.2
      · exact ih.2.2.1 k (by omega) h2
    · next hg =>
      rw [not_and_or] at hg
      refine ⟨le_refl i, fun h => ?_, fun k h1 h2 => absurd h2 (by omega), fun h => ?_⟩
      · omega
      · rcases hg with hg | hg
        · omega
        · exact Bool.eq_false_iff.mpr hg

theorem scanLt_spec {α : Type} [Inhabited α] (less : α → α → Bool)
    (xs : List α) (p : α) (j i : Nat) :
    i ≤ scanLt less xs p j i
    ∧ (i ≤ j + 1 → scanLt less xs p j i ≤ j + 1)
    ∧ (∀ k, i ≤ k → k < scanLt less xs p j i → less (aget xs k) p = true)
    ∧ (scanLt less xs p j i ≤ j → less (aget xs (scanLt less xs p j i)) p = false) :=
  scanLtLoop_spec less xs p j (j + 1 - i) i (le_refl _)

theorem scanGe_spec {α : Type} [Inhabited α] (less : α → α → Bool)
    (xs : List α) (p : α) (i : Nat) (hi1 : 1 ≤ i) :
    ∀ (j : Nat),
    scanGe less xs p i j ≤ j
    ∧ (i - 1 ≤ j → i - 1 ≤ scanGe less xs p i j)
    ∧ (∀ k, scanGe less xs p i j < k → k ≤ j → less (aget xs k) p = false)
    ∧ (i ≤ scanGe less xs p i j → less (aget xs (scanGe less xs p i j)) p = true)
  | 0 => by
    simp only [scanGe]
    exact ⟨le_refl 0, fun h => by omega, fun k h1 h2 => absurd h1 (by omega),
      fun h => absurd h (by omega)⟩
  | j+1 => by
    simp only [scanGe]
    split
    · next hg =>
      have ih := scanGe_spec less xs p i hi1 j
      refine ⟨by omega, fun h => ih.2.1 (by omega), ?_, ih.2.2.2⟩
      intro k h1 h2
      by_cases hk : k = j + 1
      · rw [hk]
        exact Bool.eq_false_iff.mpr hg.2
      · exact ih.2.2.1 k h1 (by omega)
    · next hg =>
      rw [not_and_or] at hg
      refine ⟨le_refl _, fun h => by omega, fun k h1 h2 => absurd (lt_of_lt_of_le h1 h2)
        (lt_irrefl _), fun h => ?_⟩
      rcases hg with hg | hg
      · omega
      · exact not_not.mp hg

theorem partitionAuxLoop_spec {α : Type} [Inhabited α] (less : α → α → Bool)
    (p : α) (a b : Nat) :
    ∀ (f : Nat) (xs : List α) (i j : Nat),
    a + 1 ≤ i → i ≤ j + 1 → j ≤ b - 1 → b ≤ xs.length → a + 2 ≤ b → j + 1 - i ≤ f →
    (∀ k, a + 1 ≤ k → k < i → less (aget xs k) p = true) →
    (∀ k, j < k → k ≤ b - 1 → less (aget xs k) p = false) →
    (∀ k, a + 1 ≤ k → k ≤ (partitionAuxLoop less p xs i j f).2 →
      less (aget (partitionAuxLoop less p xs i j f).1 k) p = true)
    ∧ (∀ k, (partitionAuxLoop less p xs i j f).2 < k → k ≤ b - 1 →
      less (aget (partitionAuxLoop less p xs i j f).1 k) p = false)
    ∧ a ≤ (partitionAuxLoop less p xs i j f).2
    ∧ (partitionAuxLoop less p xs i j f).2 ≤ b - 1
    ∧ UnchangedOutside xs (partitionAuxLoop less p xs i j f).1 (a+1) b
  | 0, xs, i, j, hai, hij, hjb, hbl, hab, hf, hLT, hGE => by
    simp only [partitionAuxLoop]
    have hsL := scanLt_spec less xs p j i
    have hsG := scanGe_spec less xs p (scanLt less xs p j i) (by omega) j
    have hii : scanLt less xs p j i = i := by
      unfold scanLt
      rw [(by omega : j + 1 - i = 0)]
      simp only [scanLtLoop]
    rw [hii] at hsG ⊢
    have hr0 := hsG.1
    have hr1 := hsG.2.1 (by omega)
    refine ⟨?_, ?_, by omega, by omega, unchangedOutside_refl _ _ _⟩
    · intro k h1 h2
      exact hLT k h1 (by omega)
    · intro k h1 h2
      rcases Nat.lt_or_ge j k with hk | hk
      · exact hGE k hk h2
      · exact hsG.2.2.1 k h1 hk
  | f+1, xs, i, j, hai, hij, hjb, hbl, hab, hf, hLT, hGE => by
    have hsL := scanLt_spec less xs p j i
    have hsG := scanGe_spec less xs p (scanLt less xs p j i) (by omega) j
    have hL0 := hsL.1
    have hL1 := hsL.2.1 (by omega)
    have hG0 := hsG.1
    have hG1 := hsG.2.1 (by omega)
    simp only [partitionAuxLoop]
    split
    · next hgt =>
      refine ⟨?_, ?_, by omega, by omega, unchangedOutside_refl _ _ _⟩
      · intro k h1 h2
        by_cases hk2 : k < i
        · exact hLT k h1 hk2
        · exact hsL.2.2.1 k (by omega) (by omega)
      · intro k h1 h2
        rcases Nat.lt_or_ge j k with hk | hk
        · exact hGE k hk h2
        · exact hsG.2.2.1 k h1 hk
    · next hgt =>
      have hle : scanLt less xs p j i ≤ scanGe less xs p (scanLt less xs p j i) j := by omega
      have hi1j : scanLt less xs p j i ≤ j := by omega
      have hvI : less (aget xs (scanLt less xs p j i)) p = false := hsL.2.2.2 hi1j
      have hvJ : less (aget xs (scanGe less xs p (scanLt less xs p j i) j)) p = true :=
        hsG.2.2.2 hle
      have hneq : scanLt less xs p j i ≠ scanGe less xs p (scanLt less xs p j i) j := by
        intro he
        rw [← he] at hvJ
        rw [hvI] at hvJ
        exact Bool.noConfusion hvJ
      have hlt : scanLt less xs p j i < scanGe less xs p (scanLt less xs p j i) j := by omega
      have hl1 : scanLt less xs p j i < xs.length := by omega
      have hl2 : scanGe less xs p (scanLt less xs p j i) j < xs.length := by omega
      have hfst := aget_aswap_fst hl1 hl2
      have hsnd := aget_aswap_snd hl1 hl2
      have hne := fun (k : Nat) (h1 : k ≠ scanLt less xs p j i)
        (h2 : k ≠ scanGe less xs p (scanLt less xs p j i) j) =>
        aget_aswap_ne xs h1 h2
      have ih := partitionAuxLoop_spec less p a b f
        (aswap xs (scanLt less xs p j i) (scanGe less xs p (scanLt less xs p j i) j))
        (scanLt less xs p j i + 1) (scanGe less xs p (scanLt less xs p j i) j - 1)
        (by omega) (by omega) (by omega) (by rw [aswap_length]; exact hbl) hab (by omega)
        (by
          intro k h1 h2
          by_cases hk : k = scanLt less xs p j i
          · rw [hk, hfst]
            exact hvJ
          · rw [hne k hk (by omega)]
            by_cases hk2 : k < i
            · exact hLT k h1 hk2
            · exact hsL.2.2.1 k (by omega) (by omega))
        (by
          intro k h1 h2
          by_cases hk : k = scanGe less xs p (scanLt less xs p j i) j
          · rw [hk, hsnd]
            exact hvI
          · rw [hne k (by omega) hk]
            rcases Nat.lt_or_ge j k with hk2 | hk2
            · exact hGE k hk2 h2
            · exact hsG.2.2.1 k (by omega) hk2)
      refine ⟨ih.1, ih.2.1, ih.2.2.1, ih.2.2.2.1, unchangedOutside_trans ?_ ih.2.2.2.2⟩
      exact aswap_unchangedOutside (by omega) (by omega) (by omega) (by omega)

end StenellaProofs

namespace StenellaProofs

open Stenella GoSort

theorem partitionAux_spec {α : Type} [Inhabited α] (less : α → α → Bool)
    (p : α) (a b : Nat) (xs : List α) (i j : Nat)
    (h1 : a + 1 ≤ i) (h2 : i ≤ j + 1) (h3 : j ≤ b - 1) (h4 : b ≤ xs.length)
    (h5 : a + 2 ≤ b)
    (hLT : ∀ k, a + 1 ≤ k → k < i → less (aget xs k) p = true)
    (hGE : ∀ k, j < k → k ≤ b - 1 → less (aget xs k) p = false) :
    (∀ k, a + 1 ≤ k → k ≤ (partitionAux less p xs i j).2 →
      less (aget (partitionAux less p xs i j).1 k) p = true)
    ∧ (∀ k, (partitionAux less p xs i j).2 < k → k ≤ b - 1 →
      less (aget (partitionAux less p xs i j).1 k) p = false)
    ∧ a ≤ (partitionAux less p xs i j).2
    ∧ (partitionAux less p xs i j).2 ≤ b - 1
    ∧ UnchangedOutside xs (partitionAux less p xs i j).1 (a+1) b := by
  unfold partitionAux
  exact partitionAuxLoop_spec less p a b (j + 1 - i) xs i j h1 h2 h3 h4 h5 (le_refl _) hLT hGE

theorem partitionCore_spec {α : Type} [Inhabited α] (less : α → α → Bool)
    (p : α) (xs0 : List α) (a b : Nat)
    (hab : a + 2 ≤ b) (hbl : b ≤ xs0.length) (hpa : aget xs0 a = p) :
    (∀ k, a ≤ k → k < (partitionCore less p xs0 a b).2.1 →
      less (aget (partitionCore less p xs0 a b).1 k) p = true)
    ∧ aget (partitionCore less p xs0 a b).1 ((partitionCore less p xs0 a b).2.1) = p
    ∧ (∀ k, (partitionCore less p xs0 a b).2.1 < k → k < b →
      less (aget (partitionCore less p xs0 a b).1 k) p = false)
    ∧ a ≤ (partitionCore less p xs0 a b).2.1
    ∧ (partitionCore less p xs0 a b).2.1 ≤ b - 1
    ∧ UnchangedOutside xs0 (partitionCore less p xs0 a b).1 a b := by
  have hsL := scanLt_spec less xs0 p (b-1) (a+1)
  have hL0 := hsL.1
  have hL1 := hsL.2.1 (by omega)
  have hsG := scanGe_spec less xs0 p (scanLt less xs0 p (b-1) (a+1)) (by omega) (b-1)
  have hG0 := hsG.1
  have hG1 := hsG.2.1 (by omega)
  simp only [partitionCore]
  split
  · next hgt =>
    dsimp only
    have hlj : scanGe less xs0 p (scanLt less xs0 p (b-1) (a+1)) (b-1) < xs0.length := by omega
    have hla : a < xs0.length := by omega
    have hfstC := aget_aswap_fst hlj hla
    have hsndC := aget_aswap_snd hlj hla
    refine ⟨?_, by rw [hfstC, hpa], ?_, by omega, by omega, ?_⟩
    · intro k h1 h2
      by_cases hk : k = a
      · rw [hk, hsndC]
        exact hsL.2.2.1 (scanGe less xs0 p (scanLt less xs0 p (b-1) (a+1)) (b-1))
          (by omega) (by omega)
      · rw [aget_aswap_ne xs0 (by omega) hk]
        exact hsL.2.2.1 k (by omega) (by omega)
    · intro k h1 h2
      rw [aget_aswap_ne xs0 (by omega) (by omega)]
      exact hsG.2.2.1 k h1 (by omega)
    · exact aswap_unchangedOutside (by omega) (by omega) (le_refl a) (by omega)
  · next hgt =>
    dsimp only
    have hle : scanLt less xs0 p (b-1) (a+1)
        ≤ scanGe less xs0 p (scanLt less xs0 p (b-1) (a+1)) (b-1) := by omega
    have hvI : less (aget xs0 (scanLt less xs0 p (b-1) (a+1))) p = false :=
      hsL.2.2.2 (by omega)
    have hvJ : less (aget xs0
        (scanGe less xs0 p (scanLt less xs0 p (b-1) (a+1)) (b-1))) p = true :=
      hsG.2.2.2 hle
    have hneq : scanLt less xs0 p (b-1) (a+1)
        ≠ scanGe less xs0 p (scanLt less xs0 p (b-1) (a+1)) (b-1) := by
      intro he
      rw [← he] at hvJ
      rw [hvI] at hvJ
      exact Bool.noConfusion hvJ
    have hl1 : scanLt less xs0 p (b-1) (a+1) < xs0.length := by omega
    have hl2 : scanGe less xs0 p (scanLt less xs0 p (b-1) (a+1)) (b-1) < xs0.length := by omega
    have hfst := aget_aswap_fst hl1 hl2
    have hsnd := aget_aswap_snd hl1 hl2
    have haux := partitionAux_spec less p a b
      (aswap xs0 (scanLt less xs0 p (b-1) (a+1))
        (scanGe less xs0 p (scanLt less xs0 p (b-1) (a+1)) (b-1)))
      (scanLt less xs0 p (b-1) (a+1) + 1)
      (scanGe less xs0 p (scanLt less xs0 p (b-1) (a+1)) (b-1) - 1)
      (by omega) (by omega) (by omega) (by rw [aswap_length]; exact hbl) hab
      (by
        intro k h1 h2
        by_cases hk : k = scanLt less xs0 p (b-1) (a+1)
        · rw [hk, hfst]
          exact hvJ
        · rw [aget_aswap_ne xs0 hk (by omega)]
          exact hsL.2.2.1 k h1 (by omega))
      (by
        intro k h1 h2
        by_cases hk : k = scanGe less xs0 p (scanLt less xs0 p (b-1) (a+1)) (b-1)
        · rw [hk, hsnd]
          exact hvI
        · rw [aget_aswap_ne xs0 (by omega) hk]
          exact hsG.2.2.1 k (by omega) (by omega))
    have hauxlen : b ≤ (partitionAux less p
        (aswap xs0 (scanLt less xs0 p (b-1) (a+1))
          (scanGe less xs0 p (scanLt less xs0 p (b-1) (a+1)) (b-1)))
        (scanLt less xs0 p (b-1) (a+1) + 1)
        (scanGe less xs0 p (scanLt less xs0 p (b-1) (a+1)) (b-1) - 1)).1.length := by
      have hp := partitionAuxLoop_perm less p
        (scanGe less xs0 p (scanLt less xs0 p (b-1) (a+1)) (b-1) - 1 + 1
          - (scanLt less xs0 p (b-1) (a+1) + 1))
        (aswap xs0 (scanLt less xs0 p (b-1) (a+1))
          (scanGe less xs0 p (scanLt less xs0 p (b-1) (a+1)) (b-1)))
        (scanLt less xs0 p (b-1) (a+1) + 1)
        (scanGe less xs0 p (scanLt less xs0 p (b-1) (a+1)) (b-1) - 1)
      unfold partitionAux
      rw [hp.length_eq, aswap_length]
      exact hbl
    have hpA : aget (partitionAux less p
        (aswap xs0 (scanLt less xs0 p (b-1) (a+1))
          (scanGe less xs0 p (scanLt less xs0 p (b-1) (a+1)) (b-1)))
        (scanLt less xs0 p (b-1) (a+1) + 1)
        (scanGe less xs0 p (scanLt less xs0 p (b-1) (a+1)) (b-1) - 1)).1 a = p := by
      have h1 := haux.2.2.2.2 a (Or.inl (by omega))
      rw [aget_congr_of_get? h1, aget_aswap_ne xs0 (by omega) (by omega), hpa]
    have hlr : (partitionAux less p
        (aswap xs0 (scanLt less xs0 p (b-1) (a+1))
          (scanGe less xs0 p (scanLt less xs0 p (b-1) (a+1)) (b-1)))
        (scanLt less xs0 p (b-1) (a+1) + 1)
        (scanGe less xs0 p (scanLt less xs0 p (b-1) (a+1)) (b-1) - 1)).2
        < (partitionAux less p
        (aswap xs0 (scanLt less xs0 p (b-1) (a+1))
          (scanGe less xs0 p (scanLt less xs0 p (b-1) (a+1)) (b-1)))
        (scanLt less xs0 p (b-1) (a+1) + 1)
        (scanGe less xs0 p (scanLt less xs0 p (b-1) (a+1)) (b-1) - 1)).1.length := by omega
    have hla2 : a < (partitionAux less p
        (aswap xs0 (scanLt less xs0 p (b-1) (a+1))
          (scanGe less xs0 p (scanLt less xs0 p (b-1) (a+1)) (b-1)))
        (scanLt less xs0 p (b-1) (a+1) + 1)
        (scanGe less xs0 p (scanLt less xs0 p (b-1) (a+1)) (b-1) - 1)).1.length := by omega
    have hfstF := aget_aswap_fst hlr hla2
    have hsndF := aget_aswap_snd hlr hla2
    refine ⟨?_, by rw [hfstF, hpA], ?_, by omega, by omega, ?_⟩
    · intro k h1 h2
      by_cases hk : k = a
      · rw [hk, hsndF]
        exact haux.1 _ (by omega) (le_refl _)
      · rw [aget_aswap_ne _ (by omega) hk]
        exact haux.1 k (by omega) (by omega)
    · intro k h1 h2
      rw [aget_aswap_ne _ (by omega) (by omega)]
      exact haux.2.1 k h1 (by omega)
    · have hu1 : UnchangedOutside xs0
          (aswap xs0 (scanLt less xs0 p (b-1) (a+1))
            (scanGe less xs0 p (scanLt less xs0 p (b-1) (a+1)) (b-1))) a b :=
        aswap_unchangedOutside (by omega) (by omega) (by omega) (by omega)
      have hu2 := unchangedOutside_mono (by omega : a ≤ a + 1) (le_refl b) haux.2.2.2.2
      have hu3 : UnchangedOutside (partitionAux less p
          (aswap xs0 (scanLt less xs0 p (b-1) (a+1))
            (scanGe less xs0 p (scanLt less xs0 p (b-1) (a+1)) (b-1)))
          (scanLt less xs0 p (b-1) (a+1) + 1)
          (scanGe less xs0 p (scanLt less xs0 p (b-1) (a+1)) (b-1) - 1)).1
          (aswap (partitionAux less p
          (aswap xs0 (scanLt less xs0 p (b-1) (a+1))
            (scanGe less xs0 p (scanLt less xs0 p (b-1) (a+1)) (b-1)))
          (scanLt less xs0 p (b-1) (a+1) + 1)
          (scanGe less xs0 p (scanLt less xs0 p (b-1) (a+1)) (b-1) - 1)).1
          (partitionAux less p
          (aswap xs0 (scanLt less xs0 p (b-1) (a+1))
            (scanGe less xs0 p (scanLt less xs0 p (b-1) (a+1)) (b-1)))
          (scanLt less xs0 p (b-1) (a+1) + 1)
          (scanGe less xs0 p (scanLt less xs0 p (b-1) (a+1)) (b-1) - 1)).2 a) a b :=
        aswap_unchangedOutside (by omega) (by omega) (le_refl a) (by omega)
      exact unchangedOutside_trans hu1 (unchangedOutside_trans hu2 hu3)

theorem partitionGo_spec {α : Type} [Inhabited α] (less : α → α → Bool)
    (xs : List α) (a b pivot : Nat)
    (hab : a + 2 ≤ b) (hbl : b ≤ xs.length) (hpa : a ≤ pivot) (hpb : pivot < b) :
    (∀ k, a ≤ k → k < (partitionGo less xs a b pivot).2.1 →
      less (aget (partitionGo less xs a b pivot).1 k) (aget xs pivot) = true)
    ∧ aget (partitionGo less xs a b pivot).1 ((partitionGo less xs a b pivot).2.1)
        = aget xs pivot
    ∧ (∀ k, (partitionGo less xs a b pivot).2.1 < k → k < b →
      less (aget (partitionGo less xs a b pivot).1 k) (aget xs pivot) = false)
    ∧ a ≤ (partitionGo less xs a b pivot).2.1
    ∧ (partitionGo less xs a b pivot).2.1 ≤ b - 1
    ∧ UnchangedOutside xs (partitionGo less xs a b pivot).1 a b := by
  have hpv : aget (aswap xs a pivot) a = aget xs pivot :=
    aget_aswap_fst (by omega) (by omega)
  have hc := partitionCore_spec less (aget (aswap xs a pivot) a) (aswap xs a pivot) a b
    hab (by rw [aswap_length]; exact hbl) rfl
  rw [hpv] at hc
  unfold partitionGo
  rw [hpv]
  have hu1 : UnchangedOutside xs (aswap xs a pivot) a b :=
    aswap_unchangedOutside (le_refl a) (by omega) hpa hpb
  exact ⟨hc.1, hc.2.1, hc.2.2.1, hc.2.2.2.1, hc.2.2.2.2.1,
    unchangedOutside_trans hu1 hc.2.2.2.2.2⟩

end StenellaProofs

namespace StenellaProofs

open Stenella GoSort

theorem scanEqILoop_spec {α : Type} [Inhabited α] (less : α → α → Bool)
    (xs : List α) (p : α) (j : Nat) :
    ∀ (f i : Nat), j + 1 - i ≤ f →
    i ≤ scanEqILoop less xs p j i f
    ∧ (i ≤ j + 1 → scanEqILoop less xs p j i f ≤ j + 1)
    ∧ (∀ k, i ≤ k → k < scanEqILoop less xs p j i f → less p (aget xs k) = false)
    ∧ (scanEqILoop less xs p j i f ≤ j →
        less p (aget xs (scanEqILoop less xs p j i f)) = true)
  | 0, i, hf => by
    simp only [scanEqILoop]
    exact ⟨le_refl i, fun h => by omega, fun k h1 h2 => absurd h2 (by omega),
      fun h => absurd h (by omega)⟩
  | f+1, i, hf => by
    simp only [scanEqILoop]
    split
    · next hg =>
      have ih := scanEqILoop_spec less xs p j f (i+1) (by omega)
      refine ⟨by omega, fun h => ih.2.1 (by omega), ?_, ih.2.2.2⟩
      intro k h1 h2
      by_cases hk : k = i
      · rw [hk]
        exact Bool.eq_false_iff.mpr hg.2
      · exact ih.2.2.1 k (by omega) h2
    · next hg =>
      rw [not_and_or] at hg
      refine ⟨le_refl i, fun h => by omega, fun k h1 h2 => absurd h2 (by omega), fun h => ?_⟩
      rcases hg with hg | hg
      · omega
      · exact not_not.mp hg

theorem scanEqI_spec {α : Type} [Inhabited α] (less : α → α → Bool)
    (xs : List α) (p : α) (j i : Nat) :
    i ≤ scanEqI less xs p j i
    ∧ (i ≤ j + 1 → scanEqI less xs p j i ≤ j + 1)
    ∧ (∀ k, i ≤ k → k < scanEqI less xs p j i → less p (aget xs k) = false)
    ∧ (scanEqI less xs p j i ≤ j → less p (aget xs (scanEqI less xs p j i)) = true) :=
  scanEqILoop_spec less xs p j (j + 1 - i) i (le_refl _)

theorem scanEqJ_spec {α : Type} [Inhabited α] (less : α → α → Bool)
    (xs : List α) (p : α) (i : Nat) (hi1 : 1 ≤ i) :
    ∀ (j : Nat),
    scanEqJ less xs p i j ≤ j
    ∧ (i - 1 ≤ j → i - 1 ≤ scanEqJ less xs p i j)
    ∧ (∀ k, scanEqJ less xs p i j < k → k ≤ j → less p (aget xs k) = true)
    ∧ (i ≤ scanEqJ less xs p i j → less p (aget xs (scanEqJ less xs p i j)) = false)
  | 0 => by
    simp only [scanEqJ]
    exact ⟨le_refl 0, fun h => by omega, fun k h1 h2 => absurd (lt_of_lt_of_le h1 h2)
      (lt_irrefl _), fun h => absurd h (by omega)⟩
  | j+1 => by
    simp only [scanEqJ]
    split
    · next hg =>
      have ih := scanEqJ_spec less xs p i hi1 j
      refine ⟨by omega, fun h => ih.2.1 (by omega), ?_, ih.2.2.2⟩
      intro k h1 h2
      by_cases hk : k = j + 1
      · rw [hk]
        exact hg.2
      · exact ih.2.2.1 k h1 (by omega)
    · next hg =>
      rw [not_and_or] at hg
      refine ⟨le_refl _, fun h => by omega, fun k h1 h2 => absurd (lt_of_lt_of_le h1 h2)
        (lt_irrefl _), fun h => ?_⟩
      rcases hg with hg | hg
      · omega
      · exact Bool.eq_false_iff.mpr hg

theorem partitionEqualAuxLoop_spec {α : Type} [Inhabited α] (less : α → α → Bool)
    (p : α) (a b : Nat) :
    ∀ (f : Nat) (xs : List α) (i j : Nat),
    a + 1 ≤ i → i ≤ j + 1 → j ≤ b - 1 → b ≤ xs.length → a + 2 ≤ b → j + 1 - i ≤ f →
    (∀ k, a + 1 ≤ k → k < i → less p (aget xs k) = false) →
    (∀ k, j < k → k ≤ b - 1 → less p (aget xs k) = true) →
    (∀ k, a + 1 ≤ k → k < (partitionEqualAuxLoop less p xs i j f).2 →
      less p (aget (partitionEqualAuxLoop less p xs i j f).1 k) = false)
    ∧ (∀ k, (partitionEqualAuxLoop less p xs i j f).2 ≤ k → k ≤ b - 1 →
      less p (aget (partitionEqualAuxLoop less p xs i j f).1 k) = true)
    ∧ a + 1 ≤ (partitionEqualAuxLoop less p xs i j f).2
    ∧ (partitionEqualAuxLoop less p xs i j f).2 ≤ b
    ∧ UnchangedOutside xs (partitionEqualAuxLoop less p xs i j f).1 (a+1) b
  | 0, xs, i, j, hai, hij, hjb, hbl, hab, hf, hLE, hGT => by
    simp only [partitionEqualAuxLoop]
    have hsI := scanEqI_spec less xs p j i
    have hii : scanEqI less xs p j i = i := by
      unfold scanEqI
      rw [(by omega : j + 1 - i = 0)]
      simp only [scanEqILoop]
    rw [hii] at hsI ⊢
    refine ⟨?_, ?_, by omega, by omega, unchangedOutside_refl _ _ _⟩
    · intro k h1 h2
      exact hLE k h1 h2
    · intro k h1 h2
      exact hGT k (by omega) h2
  | f+1, xs, i, j, hai, hij, hjb, hbl, hab, hf, hLE, hGT => by
    have hsI := scanEqI_spec less xs p j i
    have hsJ := scanEqJ_spec less xs p (scanEqI less xs p j i) (by omega) j
    have hI0 := hsI.1
    have hI1 := hsI.2.1 (by omega)
    have hJ0 := hsJ.1
    have hJ1 := hsJ.2.1 (by omega)
    simp only [partitionEqualAuxLoop]
    split
    · next hgt =>
      refine ⟨?_, ?_, by omega, by omega, unchangedOutside_refl _ _ _⟩
      · intro k h1 h2
        by_cases hk2 : k < i
        · exact hLE k h1 hk2
        · exact hsI.2.2.1 k (by omega) h2
      · intro k h1 h2
        rcases Nat.lt_or_ge j k with hk | hk
        · exact hGT k hk h2
        · exact hsJ.2.2.1 k (by omega) hk
    · next hgt =>
      have hle : scanEqI less xs p j i ≤ scanEqJ less xs p (scanEqI less xs p j i) j := by
        omega
      have hi1j : scanEqI less xs p j i ≤ j := by omega
      have hvI : less p (aget xs (scanEqI less xs p j i)) = true := hsI.2.2.2 hi1j
      have hvJ : less p (aget xs (scanEqJ less xs p (scanEqI less xs p j i) j)) = false :=
        hsJ.2.2.2 hle
      have hneq : scanEqI less xs p j i ≠ scanEqJ less xs p (scanEqI less xs p j i) j := by
        intro he
        rw [← he] at hvJ
        rw [hvI] at hvJ
        exact Bool.noConfusion hvJ
      have hlt : scanEqI less xs p j i < scanEqJ less xs p (scanEqI less xs p j i) j := by
        omega
      have hl1 : scanEqI less xs p j i < xs.length := by omega
      have hl2 : scanEqJ less xs p (scanEqI less xs p j i) j < xs.length := by omega
      have hfst := aget_aswap_fst hl1 hl2
      have hsnd := aget_aswap_snd hl1 hl2
      have ih := partitionEqualAuxLoop_spec less p a b f
        (aswap xs (scanEqI less xs p j i) (scanEqJ less xs p (scanEqI less xs p j i) j))
        (scanEqI less xs p j i + 1) (scanEqJ less xs p (scanEqI less xs p j i) j - 1)
        (by omega) (by omega) (by omega) (by rw [aswap_length]; exact hbl) hab (by omega)
        (by
          intro k h1 h2
          by_cases hk : k = scanEqI less xs p j i
          · rw [hk, hfst]
            exact hvJ
          · rw [aget_aswap_ne xs hk (by omega)]
            by_cases hk2 : k < i
            · exact hLE k h1 hk2
            · exact hsI.2.2.1 k (by omega) (by omega))
        (by
          intro k h1 h2
          by_cases hk : k = scanEqJ less xs p (scanEqI less xs p j i) j
          · rw [hk, hsnd]
            exact hvI
          · rw [aget_aswap_ne xs (by omega) hk]
            rcases Nat.lt_or_ge j k with hk2 | hk2
            · exact hGT k hk2 h2
            · exact hsJ.2.2.1 k (by omega) hk2)
      refine ⟨ih.1, ih.2.1, ih.2.2.1, ih.2.2.2.1, unchangedOutside_trans ?_ ih.2.2.2.2⟩
      exact aswap_unchangedOutside (by omega) (by omega) (by omega) (by omega)

theorem partitionEqualGo_spec {α : Type} [Inhabited α] {less : α → α → Bool}
    (hirr : LessIrrefl less) (xs : List α) (a b pivot : Nat)
    (hab : a + 2 ≤ b) (hbl : b ≤ xs.length) (hpa : a ≤ pivot) (hpb : pivot < b) :
    (∀ k, a ≤ k → k < (partitionEqualGo less xs a b pivot).2 →
      less (aget xs pivot) (aget (partitionEqualGo less xs a b pivot).1 k) = false)
    ∧ (∀ k, (partitionEqualGo less xs a b pivot).2 ≤ k → k < b →
      less (aget xs pivot) (aget (partitionEqualGo less xs a b pivot).1 k) = true)
    ∧ a + 1 ≤ (partitionEqualGo less xs a b pivot).2
    ∧ (partitionEqualGo less xs a b pivot).2 ≤ b
    ∧ UnchangedOutside xs (partitionEqualGo less xs a b pivot).1 a b := by
  have hpv : aget (aswap xs a pivot) a = aget xs pivot :=
    aget_aswap_fst (by omega) (by omega)
  have haux := partitionEqualAuxLoop_spec less (aget (aswap xs a pivot) a) a b
    (b - 1 + 1 - (a + 1)) (aswap xs a pivot) (a+1) (b-1)
    (le_refl _) (by omega) (le_refl _) (by rw [aswap_length]; exact hbl) hab (le_refl _)
    (fun k h1 h2 => absurd (lt_of_le_of_lt h1 h2) (lt_irrefl _))
    (fun k h1 h2 => absurd (lt_of_le_of_lt h2 h1) (lt_irrefl _))
  rw [hpv] at haux
  have hA : aget (partitionEqualAuxLoop less (aget xs pivot)
      (aswap xs a pivot) (a+1) (b-1) (b - 1 + 1 - (a + 1))).1 a = aget xs pivot := by
    have h1 := haux.2.2.2.2 a (Or.inl (by omega))
    rw [aget_congr_of_get? h1, hpv]
  simp only [partitionEqualGo]
  unfold partitionEqualAux
  rw [hpv]
  refine ⟨?_, fun k h1 h2 => haux.2.1 k h1 (by omega), haux.2.2.1, haux.2.2.2.1, ?_⟩
  · intro k h1 h2
    by_cases hk : k = a
    · rw [hk, hA]
      exact hirr _
    · exact haux.1 k (by omega) h2
  · exact unchangedOutside_trans
      (aswap_unchangedOutside (le_refl a) (by omega) hpa hpb)
      (unchangedOutside_mono (by omega) (le_refl b) haux.2.2.2.2)

end StenellaProofs

namespace StenellaProofs

open Stenella GoSort

theorem scanSortedLoop_spec {α : Type} [Inhabited α] (less : α → α → Bool)
    (xs : List α) (b : Nat) :
    ∀ (f i : Nat), b - i ≤ f →
    i ≤ scanSortedLoop less xs b i f
    ∧ (i ≤ b → scanSortedLoop less xs b i f ≤ b)
    ∧ (∀ k, i ≤ k → k < scanSortedLoop less xs b i f →
        less (aget xs k) (aget xs (k-1)) = false)
    ∧ (scanSortedLoop less xs b i f < b →
        less (aget xs (scanSortedLoop less xs b i f))
          (aget xs (scanSortedLoop less xs b i f - 1)) = true)
  | 0, i, hf => by
    simp only [scanSortedLoop]
    exact ⟨le_refl i, fun h => by omega, fun k h1 h2 => absurd h2 (by omega),
      fun h => absurd h (by omega)⟩
  | f+1, i, hf => by
    simp only [scanSortedLoop]
    split
    · next hg =>
      have ih := scanSortedLoop_spec less xs b f (i+1) (by omega)
      refine ⟨by omega, fun h => ih.2.1 (by omega), ?_, ih.2.2.2⟩
      intro k h1 h2
      by_cases hk : k = i
      · rw [hk]
        exact Bool.eq_false_iff.mpr hg.2
      · exact ih.2.2.1 k (by omega) h2
    · next hg =>
      rw [not_and_or] at hg
      refine ⟨le_refl i, fun h => by omega, fun k h1 h2 => absurd h2 (by omega), fun h => ?_⟩
      rcases hg with hg | hg
      · omega
      · exact not_not.mp hg

theorem scanSortedIdx_spec {α : Type} [Inhabited α] (less : α → α → Bool)
    (xs : List α) (b i : Nat) :
    i ≤ scanSortedIdx less xs b i
    ∧ (i ≤ b → scanSortedIdx less xs b i ≤ b)
    ∧ (∀ k, i ≤ k → k < scanSortedIdx less xs b i →
        less (aget xs k) (aget xs (k-1)) = false)
    ∧ (scanSortedIdx less xs b i < b →
        less (aget xs (scanSortedIdx less xs b i))
          (aget xs (scanSortedIdx less xs b i - 1)) = true) :=
  scanSortedLoop_spec less xs b (b - i) i (le_refl _)

theorem shiftLeftLoop_spec {α : Type} [Inhabited α] {less : α → α → Bool}
    (hirr : LessIrrefl less) (htr : LessTrans less) (hntr : LessNegTrans less)
    (a t : Nat) :
    ∀ (J : Nat) (xs : List α), a ≤ J → J ≤ t → t < xs.length →
    (0 < a → ∀ k, a ≤ k → k ≤ t → less (aget xs k) (aget xs (a-1)) = false) →
    (∀ k, a < k → k < J → less (aget xs k) (aget xs (k-1)) = false) →
    (∀ k, J < k → k < t → less (aget xs (k+1)) (aget xs k) = false) →
    (J < t → less (aget xs J) (aget xs (J+1)) = true) →
    (a < J → J < t → ∀ k, J < k → k ≤ t → less (aget xs k) (aget xs (J-1)) = false) →
    (∀ k, a < k → k ≤ t →
      less (aget (shiftLeftLoop less xs J) k) (aget (shiftLeftLoop less xs J) (k-1)) = false)
    ∧ UnchangedOutside xs (shiftLeftLoop less xs J) a (t+1)
  | 0, xs, haJ, hJt, hlen, hsent, hA1, hA2, hA3, hA5 => by
    simp only [shiftLeftLoop]
    refine ⟨?_, unchangedOutside_refl xs a (t+1)⟩
    intro k hak hkt
    by_cases hk1 : k = 1
    · rw [hk1, (by omega : (1:Nat) - 1 = 0)]
      exact lessAsym hirr htr (hA3 (by omega))
    · have h2 := hA2 (k-1) (by omega) (by omega)
      rwa [(by omega : k - 1 + 1 = k)] at h2
  | J+1, xs, haJ, hJt, hlen, hsent, hA1, hA2, hA3, hA5 => by
    simp only [shiftLeftLoop]
    split
    · next hgl =>
      by_cases haJ1 : a ≤ J
      · have hlJ1 : J + 1 < xs.length := by omega
        have hlJ : J < xs.length := by omega
        have hfst : aget (aswap xs (J+1) J) (J+1) = aget xs J := aget_aswap_fst hlJ1 hlJ
        have hsnd : aget (aswap xs (J+1) J) J = aget xs (J+1) := aget_aswap_snd hlJ1 hlJ
        have hne : ∀ k, k ≠ J+1 → k ≠ J → aget (aswap xs (J+1) J) k = aget xs k :=
          fun k h1 h2 => aget_aswap_ne xs h1 h2
        have ih := shiftLeftLoop_spec hirr htr hntr a t J (aswap xs (J+1) J)
          haJ1 (by omega) (by rw [aswap_length]; exact hlen)
          (by
            intro ha0 k hk1 hk2
            rw [hne (a-1) (by omega) (by omega)]
            by_cases hkJ : k = J
            · rw [hkJ, hsnd]
              exact hsent ha0 (J+1) (by omega) (by omega)
            · by_cases hkJ1 : k = J + 1
              · rw [hkJ1, hfst]
                exact hsent ha0 J (by omega) (by omega)
              · rw [hne k hkJ1 hkJ]
                exact hsent ha0 k hk1 hk2)
          (by
            intro k hk1 hk2
            rw [hne k (by omega) (by omega), hne (k-1) (by omega) (by omega)]
            exact hA1 k hk1 (by omega))
          (by
            intro k hk1 hk2
            by_cases hkJ : k = J + 1
            · rw [hkJ]
              rw [hne (J+2) (by omega) (by omega), hfst]
              have h5 := hA5 (by omega) (by omega) (J+2) (by omega) (by omega)
              rwa [(by omega : J + 1 - 1 = J)] at h5
            · rw [hne (k+1) (by omega) (by omega), hne k hkJ (by omega)]
              exact hA2 k (by omega) hk2)
          (by
            intro h
            rw [hsnd, hfst]
            exact hgl)
          (by
            intro haJ' hJi' k hk1 hk2
            rw [hne (J-1) (by omega) (by omega)]
            have hJ1 : less (aget xs J) (aget xs (J-1)) = false := hA1 J haJ' (by omega)
            by_cases hkJ : k = J + 1
            · rw [hkJ, hfst]
              exact hJ1
            · rw [hne k hkJ (by omega)]
              have h5 := hA5 (by omega) (by omega) k (by omega) hk2
              rw [(by omega : J + 1 - 1 = J)] at h5
              exact hntr _ _ _ h5 hJ1)
        refine ⟨ih.1, unchangedOutside_trans ?_ ih.2⟩
        exact aswap_unchangedOutside (by omega) (by omega) haJ1 (by omega)
      · exfalso
        have ha0 : 0 < a := by omega
        have hs := hsent ha0 (J+1) (by omega) hJt
        rw [(by omega : a - 1 = J)] at hs
        rw [hs] at hgl
        exact Bool.noConfusion hgl
    · next hgl =>
      refine ⟨?_, unchangedOutside_refl xs a (t+1)⟩
      intro k hak hkt
      rcases Nat.lt_trichotomy k (J+1) with hk | hk | hk
      · exact hA1 k hak hk
      · rw [hk, (by omega : J + 1 - 1 = J)]
        exact Bool.eq_false_iff.mpr hgl
      · by_cases hk2 : k = J + 2
        · rw [hk2, (by omega : J + 2 - 1 = J + 1)]
          exact lessAsym hirr htr (hA3 (by omega))
        · have h2 := hA2 (k-1) (by omega) (by omega)
          rwa [(by omega : k - 1 + 1 = k)] at h2

theorem shiftRightLoop_unch {α : Type} [Inhabited α] (less : α → α → Bool) (b : Nat) :
    ∀ (f j : Nat) (xs : List α), 1 ≤ j →
    UnchangedOutside xs (shiftRightLoop less b xs j f) (j-1) b
  | 0, j, xs, hj => unchangedOutside_refl xs _ b
  | f+1, j, xs, hj => by
    simp only [shiftRightLoop]
    split
    · next hjb =>
      split
      · exact unchangedOutside_refl xs _ b
      · have h1 : UnchangedOutside xs (aswap xs j (j-1)) (j-1) b :=
          aswap_unchangedOutside (by omega) (by omega) (le_refl _) (by omega)
        exact unchangedOutside_trans h1
          (unchangedOutside_mono (by omega) (le_refl b)
            (shiftRightLoop_unch less b f (j+1) (aswap xs j (j-1)) (by omega)))
    · exact unchangedOutside_refl xs _ b

end StenellaProofs

namespace StenellaProofs

open Stenella GoSort

theorem pInsertionSortLoop_spec {α : Type} [Inhabited α] {less : α → α → Bool}
    (hirr : LessIrrefl less) (htr : LessTrans less) (hntr : LessNegTrans less)
    (a b : Nat) :
    ∀ (steps i : Nat) (xs : List α), a + 1 ≤ i → i ≤ b → b ≤ xs.length →
    (0 < a → ∀ k, a ≤ k → k < b → less (aget xs k) (aget xs (a-1)) = false) →
    (∀ k, a < k → k < i → less (aget xs k) (aget xs (k-1)) = false) →
    ((pInsertionSortLoop less a b xs i steps).2 = true →
      SortedRange less (pInsertionSortLoop less a b xs i steps).1 a b)
    ∧ UnchangedOutside xs (pInsertionSortLoop less a b xs i steps).1 a b
  | 0, i, xs, hai, hib, hbl, hsent, hpre => by
    simp only [pInsertionSortLoop]
    exact ⟨fun h => Bool.noConfusion h, unchangedOutside_refl xs a b⟩
  | steps+1, i, xs, hai, hib, hbl, hsent, hpre => by
    have hscan := scanSortedIdx_spec less xs b i
    have hpre1 : ∀ k, a < k → k < scanSortedIdx less xs b i →
        less (aget xs k) (aget xs (k-1)) = false := by
      intro k h1 h2
      by_cases hk : k < i
      · exact hpre k h1 hk
      · exact hscan.2.2.1 k (by omega) h2
    have hS0 := hscan.1
    have hS1 := hscan.2.1 hib
    simp only [pInsertionSortLoop]
    split
    · next he =>
      refine ⟨fun _ => sortedRange_of_adj hntr ?_, unchangedOutside_refl xs a b⟩
      intro k h1 h2
      exact hpre1 k h1 (by omega)
    · next he =>
      split
      · exact ⟨fun h => Bool.noConfusion h, unchangedOutside_refl xs a b⟩
      · next h50 =>
        have hIb : scanSortedIdx less xs b i < b := by omega
        have hlI : scanSortedIdx less xs b i < xs.length := by omega
        have hlI1 : scanSortedIdx less xs b i - 1 < xs.length := by omega
        have x1fst : aget (aswap xs (scanSortedIdx less xs b i)
            (scanSortedIdx less xs b i - 1)) (scanSortedIdx less xs b i)
            = aget xs (scanSortedIdx less xs b i - 1) := aget_aswap_fst hlI hlI1
        have x1snd : aget (aswap xs (scanSortedIdx less xs b i)
            (scanSortedIdx less xs b i - 1)) (scanSortedIdx less xs b i - 1)
            = aget xs (scanSortedIdx less xs b i) := aget_aswap_snd hlI hlI1
        have x1ne : ∀ k, k ≠ scanSortedIdx less xs b i →
            k ≠ scanSortedIdx less xs b i - 1 →
            aget (aswap xs (scanSortedIdx less xs b i)
              (scanSortedIdx less xs b i - 1)) k = aget xs k :=
          fun k h1 h2 => aget_aswap_ne xs h1 h2
        have hu1 : UnchangedOutside xs (aswap xs (scanSortedIdx less xs b i)
            (scanSortedIdx less xs b i - 1)) a b :=
          aswap_unchangedOutside (by omega) (by omega) (by omega) (by omega)
        have hxs2 : (∀ k, a < k → k < scanSortedIdx less xs b i →
            less (aget (if scanSortedIdx less xs b i - a ≥ 2 then
                shiftLeftLoop less (aswap xs (scanSortedIdx less xs b i)
                  (scanSortedIdx less xs b i - 1)) (scanSortedIdx less xs b i - 1)
              else aswap xs (scanSortedIdx less xs b i) (scanSortedIdx less xs b i - 1)) k)
              (aget (if scanSortedIdx less xs b i - a ≥ 2 then
                shiftLeftLoop less (aswap xs (scanSortedIdx less xs b i)
                  (scanSortedIdx less xs b i - 1)) (scanSortedIdx less xs b i - 1)
              else aswap xs (scanSortedIdx less xs b i)
                (scanSortedIdx less xs b i - 1)) (k-1)) = false)
            ∧ UnchangedOutside xs (if scanSortedIdx less xs b i - a ≥ 2 then
                shiftLeftLoop less (aswap xs (scanSortedIdx less xs b i)
                  (scanSortedIdx less xs b i - 1)) (scanSortedIdx less xs b i - 1)
              else aswap xs (scanSortedIdx less xs b i)
                (scanSortedIdx less xs b i - 1)) a b
            ∧ List.Perm (if scanSortedIdx less xs b i - a ≥ 2 then
                shiftLeftLoop less (aswap xs (scanSortedIdx less xs b i)
                  (scanSortedIdx less xs b i - 1)) (scanSortedIdx less xs b i - 1)
              else aswap xs (scanSortedIdx less xs b i)
                (scanSortedIdx less xs b i - 1)) xs := by
          split
          · next hL =>
            have hsl := shiftLeftLoop_spec hirr htr hntr a (scanSortedIdx less xs b i - 1)
              (scanSortedIdx less xs b i - 1)
              (aswap xs (scanSortedIdx less xs b i) (scanSortedIdx less xs b i - 1))
              (by omega) (le_refl _) (by rw [aswap_length]; omega)
              (by
                intro ha0 k hk1 hk2
                rw [x1ne (a-1) (by omega) (by omega)]
                by_cases hkI : k = scanSortedIdx less xs b i - 1
                · rw [hkI, x1snd]
                  exact hsent ha0 (scanSortedIdx less xs b i) (by omega) (by omega)
                · rw [x1ne k (by omega) hkI]
                  exact hsent ha0 k hk1 (by omega))
              (by
                intro k hk1 hk2
                rw [x1ne k (by omega) (by omega), x1ne (k-1) (by omega) (by omega)]
                exact hpre1 k hk1 (by omega))
              (fun k hk1 hk2 => absurd hk1 (by omega))
              (fun h => absurd h (by omega))
              (fun h1 h2 => absurd h2 (by omega))
            refine ⟨?_, unchangedOutside_trans hu1
              (unchangedOutside_mono (le_refl a) (by omega) hsl.2), ?_⟩
            · intro k h1 h2
              exact hsl.1 k h1 (by omega)
            · exact (shiftLeftLoop_perm less _ _).trans (aswap_perm xs _ _)
          · next hL =>
            refine ⟨?_, hu1, aswap_perm xs _ _⟩
            intro k h1 h2
            exact absurd (by omega : scanSortedIdx less xs b i - a ≥ 2) hL
        obtain ⟨h2pre, h2unch, h2perm⟩ := hxs2
        have hxs3 : (∀ k, a < k → k < scanSortedIdx less xs b i →
            less (aget (if b - scanSortedIdx less xs b i ≥ 2 then
                shiftRightLoop less b (if scanSortedIdx less xs b i - a ≥ 2 then
                  shiftLeftLoop less (aswap xs (scanSortedIdx less xs b i)
                    (scanSortedIdx less xs b i - 1)) (scanSortedIdx less xs b i - 1)
                else aswap xs (scanSortedIdx less xs b i)
                  (scanSortedIdx less xs b i - 1))
                (scanSortedIdx less xs b i + 1) (b - (scanSortedIdx less xs b i + 1))
              else (if scanSortedIdx less xs b i - a ≥ 2 then
                shiftLeftLoop less (aswap xs (scanSortedIdx less xs b i)
                  (scanSortedIdx less xs b i - 1)) (scanSortedIdx less xs b i - 1)
              else aswap xs (scanSortedIdx less xs b i)
                (scanSortedIdx less xs b i - 1))) k)
              (aget (if b - scanSortedIdx less xs b i ≥ 2 then
                shiftRightLoop less b (if scanSortedIdx less xs b i - a ≥ 2 then
                  shiftLeftLoop less (aswap xs (scanSortedIdx less xs b i)
                    (scanSortedIdx less xs b i - 1)) (scanSortedIdx less xs b i - 1)
                else aswap xs (scanSortedIdx less xs b i)
                  (scanSortedIdx less xs b i - 1))
                (scanSortedIdx less xs b i + 1) (b - (scanSortedIdx less xs b i + 1))
              else (if scanSortedIdx less xs b i - a ≥ 2 then
                shiftLeftLoop less (aswap xs (scanSortedIdx less xs b i)
                  (scanSortedIdx less xs b i - 1)) (scanSortedIdx less xs b i - 1)
              else aswap xs (scanSortedIdx less xs b i)
                (scanSortedIdx less xs b i - 1))) (k-1)) = false)
            ∧ UnchangedOutside xs (if b - scanSortedIdx less xs b i ≥ 2 then
                shiftRightLoop less b (if scanSortedIdx less xs b i - a ≥ 2 then
                  shiftLeftLoop less (aswap xs (scanSortedIdx less xs b i)
                    (scanSortedIdx less xs b i - 1)) (scanSortedIdx less xs b i - 1)
                else aswap xs (scanSortedIdx less xs b i)
                  (scanSortedIdx less xs b i - 1))
                (scanSortedIdx less xs b i + 1) (b - (scanSortedIdx less xs b i + 1))
              else (if scanSortedIdx less xs b i - a ≥ 2 then
                shiftLeftLoop less (aswap xs (scanSortedIdx less xs b i)
                  (scanSortedIdx less xs b i - 1)) (scanSortedIdx less xs b i - 1)
              else aswap xs (scanSortedIdx less xs b i)
                (scanSortedIdx less xs b i - 1))) a b
            ∧ List.Perm (if b - scanSortedIdx less xs b i ≥ 2 then
                shiftRightLoop less b (if scanSortedIdx less xs b i - a ≥ 2 then
                  shiftLeftLoop less (aswap xs (scanSortedIdx less xs b i)
                    (scanSortedIdx less xs b i - 1)) (scanSortedIdx less xs b i - 1)
                else aswap xs (scanSortedIdx less xs b i)
                  (scanSortedIdx less xs b i - 1))
                (scanSortedIdx less xs b i + 1) (b - (scanSortedIdx less xs b i + 1))
              else (if scanSortedIdx less xs b i - a ≥ 2 then
                shiftLeftLoop less (aswap xs (scanSortedIdx less xs b i)
                  (scanSortedIdx less xs b i - 1)) (scanSortedIdx less xs b i - 1)
              else aswap xs (scanSortedIdx less xs b i)
                (scanSortedIdx less xs b i - 1))) xs := by
          split
          · next hR =>
            have hru := shiftRightLoop_unch less b (b - (scanSortedIdx less xs b i + 1))
              (scanSortedIdx less xs b i + 1)
              (if scanSortedIdx less xs b i - a ≥ 2 then
                shiftLeftLoop less (aswap xs (scanSortedIdx less xs b i)
                  (scanSortedIdx less xs b i - 1)) (scanSortedIdx less xs b i - 1)
              else aswap xs (scanSortedIdx less xs b i)
                (scanSortedIdx less xs b i - 1)) (by omega)
            rw [(by omega : scanSortedIdx less xs b i + 1 - 1
              = scanSortedIdx less xs b i)] at hru
            refine ⟨?_, ?_, ?_⟩
            · intro k h1 h2
              have e1 := aget_congr_of_get? (hru k (Or.inl h2))
              have e2 := aget_congr_of_get? (hru (k-1) (Or.inl (by omega)))
              rw [e1, e2]
              exact h2pre k h1 h2
            · exact unchangedOutside_trans h2unch
                (unchangedOutside_mono (by omega) (le_refl b) hru)
            · exact (shiftRightLoop_perm less b _ _ _).trans h2perm
          · exact ⟨h2pre, h2unch, h2perm⟩
        obtain ⟨h3pre, h3unch, h3perm⟩ := hxs3
        have h3len : b ≤ (if b - scanSortedIdx less xs b i ≥ 2 then
            shiftRightLoop less b (if scanSortedIdx less xs b i - a ≥ 2 then
              shiftLeftLoop less (aswap xs (scanSortedIdx less xs b i)
                (scanSortedIdx less xs b i - 1)) (scanSortedIdx less xs b i - 1)
            else aswap xs (scanSortedIdx less xs b i)
              (scanSortedIdx less xs b i - 1))
            (scanSortedIdx less xs b i + 1) (b - (scanSortedIdx less xs b i + 1))
          else (if scanSortedIdx less xs b i - a ≥ 2 then
            shiftLeftLoop less (aswap xs (scanSortedIdx less xs b i)
              (scanSortedIdx less xs b i - 1)) (scanSortedIdx less xs b i - 1)
          else aswap xs (scanSortedIdx less xs b i)
            (scanSortedIdx less xs b i - 1))).length := by
          rw [h3perm.length_eq]
          exact hbl
        have h3sent : 0 < a → ∀ k, a ≤ k → k < b →
            less (aget (if b - scanSortedIdx less xs b i ≥ 2 then
              shiftRightLoop less b (if scanSortedIdx less xs b i - a ≥ 2 then
                shiftLeftLoop less (aswap xs (scanSortedIdx less xs b i)
                  (scanSortedIdx less xs b i - 1)) (scanSortedIdx less xs b i - 1)
              else aswap xs (scanSortedIdx less xs b i)
                (scanSortedIdx less xs b i - 1))
              (scanSortedIdx less xs b i + 1) (b - (scanSortedIdx less xs b i + 1))
            else (if scanSortedIdx less xs b i - a ≥ 2 then
              shiftLeftLoop less (aswap xs (scanSortedIdx less xs b i)
                (scanSortedIdx less xs b i - 1)) (scanSortedIdx less xs b i - 1)
            else aswap xs (scanSortedIdx less xs b i)
              (scanSortedIdx less xs b i - 1))) k)
            (aget (if b - scanSortedIdx less xs b i ≥ 2 then
              shiftRightLoop less b (if scanSortedIdx less xs b i - a ≥ 2 then
                shiftLeftLoop less (aswap xs (scanSortedIdx less xs b i)
                  (scanSortedIdx less xs b i - 1)) (scanSortedIdx less xs b i - 1)
              else aswap xs (scanSortedIdx less xs b i)
                (scanSortedIdx less xs b i - 1))
              (scanSortedIdx less xs b i + 1) (b - (scanSortedIdx less xs b i + 1))
            else (if scanSortedIdx less xs b i - a ≥ 2 then
              shiftLeftLoop less (aswap xs (scanSortedIdx less xs b i)
                (scanSortedIdx less xs b i - 1)) (scanSortedIdx less xs b i - 1)
            else aswap xs (scanSortedIdx less xs b i)
              (scanSortedIdx less xs b i - 1))) (a-1)) = false := by
          intro ha0 k h1 h2
          have hval := aget_congr_of_get? (h3unch (a-1) (Or.inl (by omega)))
          rw [hval]
          exact transfer_range_prop h3perm h3unch
            (fun v => less v (aget xs (a-1)) = false)
            (fun k' hk1 hk2 hk3 => hsent ha0 k' hk1 hk2) k h1 h2 (by omega)
        have ih := pInsertionSortLoop_spec hirr htr hntr a b steps
          (scanSortedIdx less xs b i) _ (by omega) (by omega) h3len h3sent h3pre
        exact ⟨ih.1, unchangedOutside_trans h3unch ih.2⟩

theorem pInsertionSortGo_spec {α : Type} [Inhabited α] {less : α → α → Bool}
    (hirr : LessIrrefl less) (htr : LessTrans less) (hntr : LessNegTrans less)
    {xs : List α} {a b : Nat} (hab : a < b) (hbl : b ≤ xs.length)
    (hsent : 0 < a → ∀ k, a ≤ k → k < b → less (aget xs k) (aget xs (a-1)) = false) :
    ((pInsertionSortGo less xs a b).2 = true →
      SortedRange less (pInsertionSortGo less xs a b).1 a b)
    ∧ UnchangedOutside xs (pInsertionSortGo less xs a b).1 a b := by
  unfold pInsertionSortGo
  exact pInsertionSortLoop_spec hirr htr hntr a b 5 (a+1) xs (le_refl _) (by omega) hbl hsent
    (fun k h1 h2 => by exfalso; omega)

end StenellaProofs

namespace StenellaProofs

open Stenella GoSort

theorem bitsLenLoop_le : ∀ (f m : Nat), m ≤ f →
    (m = 0 → bitsLenLoop f m = 0) ∧ (1 ≤ m → 2 ^ bitsLenLoop f m ≤ 2 * m)
  | 0, m, hm => by
    have h0 : m = 0 := by omega
    subst h0
    exact ⟨fun _ => by simp [bitsLenLoop], fun h => by exfalso; omega⟩
  | f+1, 0, hm => ⟨fun _ => by simp [bitsLenLoop], fun h => by exfalso; omega⟩
  | f+1, m+1, hm => by
    refine ⟨fun h0 => absurd h0 (by omega), fun _ => ?_⟩
    simp only [bitsLenLoop]
    have ih := bitsLenLoop_le f ((m+1)/2) (by omega)
    by_cases hm0 : (m+1)/2 = 0
    · rw [ih.1 hm0]
      norm_num
    · have h1 := ih.2 (by omega)
      have h2 : 2 ^ (bitsLenLoop f ((m+1)/2) + 1) = 2 * 2 ^ bitsLenLoop f ((m+1)/2) := by
        rw [Nat.pow_succ]
        omega
      rw [h2]
      omega

theorem nextPowerOfTwo_le (n : Nat) (hn : 1 ≤ n) : nextPowerOfTwo n ≤ 2 * n := by
  unfold nextPowerOfTwo bitsLen
  rw [Nat.shiftLeft_eq, Nat.one_mul]
  exact (bitsLenLoop_le n n (le_refl n)).2 hn

theorem breakPatternsGo_unch {α : Type} (xs : List α) (a b : Nat) :
    UnchangedOutside xs (breakPatternsGo xs a b) a b := by
  unfold breakPatternsGo
  split
  · next h8 =>
    have hnp := nextPowerOfTwo_le (b - a) (by omega)
    have ho : ∀ r : Nat, (if r % nextPowerOfTwo (b-a) ≥ b - a
        then r % nextPowerOfTwo (b-a) - (b-a) else r % nextPowerOfTwo (b-a)) < b - a := by
      intro r
      have hm : r % nextPowerOfTwo (b-a) < nextPowerOfTwo (b-a) :=
        Nat.mod_lt _ (by
          unfold nextPowerOfTwo
          rw [Nat.shiftLeft_eq, Nat.one_mul]
          exact Nat.pos_pow_of_pos _ (by omega))
      split
      · omega
      · omega
    have h1 := ho (xsNext (b - a))
    have h2 := ho (xsNext (xsNext (b - a)))
    have h3 := ho (xsNext (xsNext (xsNext (b - a))))
    refine unchangedOutside_trans
      (aswap_unchangedOutside (by omega) (by omega) (by omega) (by omega))
      (unchangedOutside_trans
        (aswap_unchangedOutside (by omega) (by omega) (by omega) (by omega))
        (aswap_unchangedOutside (by omega) (by omega) (by omega) (by omega)))
  · exact unchangedOutside_refl xs a b

theorem reverseRangeLoop_unch {α : Type} :
    ∀ (f : Nat) (xs : List α) (i j : Nat),
    UnchangedOutside xs (reverseRangeLoop xs i j f) i (j+1)
  | 0, xs, i, j => unchangedOutside_refl xs i (j+1)
  | f+1, xs, i, j => by
    simp only [reverseRangeLoop]
    split
    · next hij =>
      have h1 : UnchangedOutside xs (aswap xs i j) i (j+1) :=
        aswap_unchangedOutside (le_refl i) (by omega) (by omega) (by omega)
      exact unchangedOutside_trans h1
        (unchangedOutside_mono (by omega) (by omega)
          (reverseRangeLoop_unch f (aswap xs i j) (i+1) (j-1)))
    · exact unchangedOutside_refl xs i (j+1)

theorem reverseRangeGo_unch {α : Type} (xs : List α) (a b : Nat) (hb : 1 ≤ b) :
    UnchangedOutside xs (reverseRangeGo xs a b) a b := by
  unfold reverseRangeGo
  have h := reverseRangeLoop_unch (b - 1 - a) xs a (b-1)
  exact unchangedOutside_mono (le_refl a) (by omega) h

theorem order2_mem {α : Type} [Inhabited α] (less : α → α → Bool) (xs : List α)
    (a b s : Nat) :
    ((order2 less xs a b s).1 = a ∨ (order2 less xs a b s).1 = b)
    ∧ ((order2 less xs a b s).2.1 = a ∨ (order2 less xs a b s).2.1 = b) := by
  unfold order2
  split
  · exact ⟨Or.inr rfl, Or.inl rfl⟩
  · exact ⟨Or.inl rfl, Or.inr rfl⟩

theorem medianGo_mem {α : Type} [Inhabited α] (less : α → α → Bool) (xs : List α)
    (a b c s : Nat) :
    (medianGo less xs a b c s).1 = a ∨ (medianGo less xs a b c s).1 = b
    ∨ (medianGo less xs a b c s).1 = c := by
  unfold medianGo
  dsimp only
  have h1 := order2_mem less xs a b s
  obtain ⟨h1a, h1b⟩ := h1
  have h2 := order2_mem less xs (order2 less xs a b s).2.1 c (order2 less xs a b s).2.2
  obtain ⟨h2a, h2b⟩ := h2
  have h3 := order2_mem less xs (order2 less xs a b s).1
    (order2 less xs (order2 less xs a b s).2.1 c (order2 less xs a b s).2.2).1
    (order2 less xs (order2 less xs a b s).2.1 c (order2 less xs a b s).2.2).2.2
  obtain ⟨h3a, h3b⟩ := h3
  rcases h3b with h | h <;> rw [h]
  · rcases h1a with h' | h' <;> rw [h']
    · exact Or.inl rfl
    · exact Or.inr (Or.inl rfl)
  · rcases h2a with h' | h' <;> rw [h']
    · rcases h1b with h'' | h'' <;> rw [h'']
      · exact Or.inl rfl
      · exact Or.inr (Or.inl rfl)
    · exact Or.inr (Or.inr rfl)

theorem medianAdjacentGo_mem {α : Type} [Inhabited α] (less : α → α → Bool) (xs : List α)
    (i s : Nat) :
    (medianAdjacentGo less xs i s).1 = i - 1 ∨ (medianAdjacentGo less xs i s).1 = i
    ∨ (medianAdjacentGo less xs i s).1 = i + 1 := by
  unfold medianAdjacentGo
  exact medianGo_mem less xs (i-1) i (i+1) s

theorem choosePivotGo_bounds {α : Type} [Inhabited α] (less : α → α → Bool) (xs : List α)
    (a b : Nat) (hab : 12 < b - a) :
    a ≤ (choosePivotGo less xs a b).1 ∧ (choosePivotGo less xs a b).1 < b := by
  have hMA : ∀ (x s : Nat), a < x → x + 1 < b →
      a ≤ (medianAdjacentGo less xs x s).1 ∧ (medianAdjacentGo less xs x s).1 < b := by
    intro x s h1 h2
    obtain h | h | h := medianAdjacentGo_mem less xs x s <;> omega
  have hMG : ∀ (x y z s : Nat), a ≤ x → x < b → a ≤ y → y < b → a ≤ z → z < b →
      a ≤ (medianGo less xs x y z s).1 ∧ (medianGo less xs x y z s).1 < b := by
    intro x y z s hx1 hx2 hy1 hy2 hz1 hz2
    obtain h | h | h := medianGo_mem less xs x y z s <;> omega
  simp only [choosePivotGo]
  rw [if_pos (show b - a ≥ 8 by omega)]
  by_cases h50 : b - a ≥ 50
  · rw [if_pos h50]
    have h1 := hMA (a + (b-a)/4*1) 0 (by omega) (by omega)
    have h2 := hMA (a + (b-a)/4*2) (medianAdjacentGo less xs (a + (b-a)/4*1) 0).2
      (by omega) (by omega)
    have h3 := hMA (a + (b-a)/4*3)
      (medianAdjacentGo less xs (a + (b-a)/4*2)
        (medianAdjacentGo less xs (a + (b-a)/4*1) 0).2).2 (by omega) (by omega)
    have h := hMG _ _ _
      (medianAdjacentGo less xs (a + (b-a)/4*3)
        (medianAdjacentGo less xs (a + (b-a)/4*2)
          (medianAdjacentGo less xs (a + (b-a)/4*1) 0).2).2).2
      h1.1 h1.2 h2.1 h2.2 h3.1 h3.2
    split
    · exact h
    · split
      · exact h
      · exact h
  · rw [if_neg h50]
    have h := hMG (a + (b-a)/4*1) (a + (b-a)/4*2) (a + (b-a)/4*3) 0
      (by omega) (by omega) (by omega) (by omega) (by omega) (by omega)
    split
    · exact h
    · split
      · exact h
      · exact h

theorem sorted_glue {α : Type} [Inhabited α] {less : α → α → Bool}
    (hirr : LessIrrefl less) (htr : LessTrans less) (hntr : LessNegTrans less)
    (p : α) (ws : List α) (a mid b : Nat)
    (h1 : a ≤ mid) (h2 : mid < b)
    (hL : SortedRange less ws a mid)
    (hR : SortedRange less ws (mid+1) b)
    (hl : ∀ k, a ≤ k → k < mid → less (aget ws k) p = true)
    (hm : aget ws mid = p)
    (hr : ∀ k, mid < k → k < b → less (aget ws k) p = false) :
    SortedRange less ws a b := by
  intro i j hi hij hjb
  rcases Nat.lt_trichotomy j mid with hj | hj | hj
  · exact hL i j hi hij hj
  · rw [hj, hm]
    have := hl i hi (by omega)
    exact lessAsym hirr htr this
  · rcases Nat.lt_trichotomy i mid with hi2 | hi2 | hi2
    · have di := hl i hi hi2
      have dj := hr j hj hjb
      cases hc : less (aget ws j) (aget ws i) with
      | false => rfl
      | true =>
        have := htr _ _ _ hc di
        rw [dj] at this
        exact Bool.noConfusion this
    · rw [← hi2] at hm
      rw [hm]
      exact hr j hj hjb
    · exact hR i j (by omega) hij hjb

end StenellaProofs

namespace StenellaProofs

open Stenella GoSort

theorem aget_eq_of_unch {α : Type} [Inhabited α] {xs ys : List α} {a b k : Nat}
    (h : UnchangedOutside xs ys a b) (hk : k < a ∨ b ≤ k) : aget ys k = aget xs k :=
  aget_congr_of_get? (h k hk)

set_option maxHeartbeats 4000000 in
theorem pdqsortLoop_sorted {α : Type} [Inhabited α] {less : α → α → Bool}
    (hirr : LessIrrefl less) (htr : LessTrans less) (hntr : LessNegTrans less) :
    ∀ (f : Nat) (xs : List α) (a b limit : Nat) (wb wp : Bool),
    b ≤ xs.length →
    (0 < a → ∀ k, a ≤ k → k < b → less (aget xs k) (aget xs (a-1)) = false) →
    SortedRange less (pdqsortLoop less xs a b limit wb wp f) a b
    ∧ UnchangedOutside xs (pdqsortLoop less xs a b limit wb wp f) a b
  | 0, xs, a, b, limit, wb, wp, hbl, hsent => by
    simp only [pdqsortLoop]
    exact insertionSortGo_spec hirr htr hntr hbl
  | f+1, xs, a, b, limit, wb, wp, hbl, hsent => by
    rw [pdqsortLoop]
    dsimp only
    split
    · exact insertionSortGo_spec hirr htr hntr hbl
    · next h12 =>
      split
      · exact heapSortGo_spec hirr htr hntr (by omega) hbl
      · next hl0 =>
        generalize hX0 : (if wb = true then xs else breakPatternsGo xs a b) = X0
        have hX0perm : List.Perm X0 xs := by
          rw [← hX0]
          split
          · exact List.Perm.refl _
          · exact breakPatternsGo_perm xs a b
        have hX0unch : UnchangedOutside xs X0 a b := by
          rw [← hX0]
          split
          · exact unchangedOutside_refl xs a b
          · exact breakPatternsGo_unch xs a b
        have hX0len : b ≤ X0.length := by
          rw [hX0perm.length_eq]
          exact hbl
        have hX0sent : 0 < a → ∀ k, a ≤ k → k < b →
            less (aget X0 k) (aget X0 (a-1)) = false := by
          intro ha0 k h1 h2
          have hb1 : aget X0 (a-1) = aget xs (a-1) :=
            aget_eq_of_unch hX0unch (Or.inl (by omega))
          rw [hb1]
          exact transfer_range_prop hX0perm hX0unch (fun v => less v (aget xs (a-1)) = false)
            (fun k' hk1 hk2 hk3 => hsent ha0 k' hk1 hk2) k h1 h2 (by omega)
        generalize (if wb = true then limit else limit - 1) = L1
        have hPVb := choosePivotGo_bounds less X0 a b (by omega)
        generalize hPV : choosePivotGo less X0 a b = PV
        rw [hPV] at hPVb
        generalize hX1 :
            (if PV.2 = SortedHint.decreasingHint then reverseRangeGo X0 a b else X0) = X1
        have hX1perm : List.Perm X1 X0 := by
          rw [← hX1]
          split
          · exact reverseRangeGo_perm X0 a b
          · exact List.Perm.refl _
        have hX1unch : UnchangedOutside X0 X1 a b := by
          rw [← hX1]
          split
          · exact reverseRangeGo_unch X0 a b (by omega)
          · exact unchangedOutside_refl X0 a b
        have hX1permXS : List.Perm X1 xs := hX1perm.trans hX0perm
        have hX1unchXS : UnchangedOutside xs X1 a b := unchangedOutside_trans hX0unch hX1unch
        have hX1len : b ≤ X1.length := by
          rw [hX1permXS.length_eq]
          exact hbl
        have hX1sent : 0 < a → ∀ k, a ≤ k → k < b →
            less (aget X1 k) (aget X1 (a-1)) = false := by
          intro ha0 k h1 h2
          have hb1 : aget X1 (a-1) = aget xs (a-1) :=
            aget_eq_of_unch hX1unchXS (Or.inl (by omega))
          rw [hb1]
          exact transfer_range_prop hX1permXS hX1unchXS
            (fun v => less v (aget xs (a-1)) = false)
            (fun k' hk1 hk2 hk3 => hsent ha0 k' hk1 hk2) k h1 h2 (by omega)
        generalize hP1 :
            (if PV.2 = SortedHint.decreasingHint then b - 1 - (PV.1 - a) else PV.1) = P1
        have hP1mem : a ≤ P1 ∧ P1 < b := by
          rw [← hP1]
          refine ⟨?_, ?_⟩ <;> split <;> omega
        generalize hH1 :
            (if PV.2 = SortedHint.decreasingHint then SortedHint.increasingHint else PV.2) = H1
        generalize hPIS :
            (if wb = true ∧ wp = true ∧ H1 = SortedHint.increasingHint then
              pInsertionSortGo less X1 a b else (X1, false)) = PIS
        have hPISunch : UnchangedOutside X1 PIS.1 a b := by
          rw [← hPIS]
          split
          · exact (pInsertionSortGo_spec hirr htr hntr (by omega) hX1len hX1sent).2
          · exact unchangedOutside_refl X1 a b
        have hPISsorted : PIS.2 = true → SortedRange less PIS.1 a b := by
          rw [← hPIS]
          split
          · exact (pInsertionSortGo_spec hirr htr hntr (by omega) hX1len hX1sent).1
          · exact fun h => Bool.noConfusion h
        have hPISperm : List.Perm PIS.1 X1 := by
          rw [← hPIS]
          split
          · exact pInsertionSortGo_perm less X1 a b
          · exact List.Perm.refl _
        have hPISpermXS : List.Perm PIS.1 xs := hPISperm.trans hX1permXS
        have hPISunchXS : UnchangedOutside xs PIS.1 a b :=
          unchangedOutside_trans hX1unchXS hPISunch
        have hPISlen : b ≤ PIS.1.length := by
          rw [hPISpermXS.length_eq]
          exact hbl
        have hPISsent : 0 < a → ∀ k, a ≤ k → k < b →
            less (aget PIS.1 k) (aget PIS.1 (a-1)) = false := by
          intro ha0 k h1 h2
          have hb1 : aget PIS.1 (a-1) = aget xs (a-1) :=
            aget_eq_of_unch hPISunchXS (Or.inl (by omega))
          rw [hb1]
          exact transfer_range_prop hPISpermXS hPISunchXS
            (fun v => less v (aget xs (a-1)) = false)
            (fun k' hk1 hk2 hk3 => hsent ha0 k' hk1 hk2) k h1 h2 (by omega)
        split
        · next ht => exact ⟨hPISsorted ht, hPISunchXS⟩
        · split
          · next hcond =>
            obtain ⟨ha0, hpl⟩ := hcond
            have hpge : less (aget PIS.1 (a-1)) (aget PIS.1 P1) = false :=
              Bool.eq_false_iff.mpr hpl
            have hpe := partitionEqualGo_spec hirr PIS.1 a b P1 (by omega) hPISlen
              hP1mem.1 hP1mem.2
            have hpeperm : List.Perm (partitionEqualGo less PIS.1 a b P1).1 PIS.1 :=
              partitionEqualGo_perm less PIS.1 a b P1
            generalize hPE : partitionEqualGo less PIS.1 a b P1 = PE
            rw [hPE] at hpe hpeperm
            obtain ⟨peL, peR, peA, peB, peU⟩ := hpe
            have hpelen : b ≤ PE.1.length := by
              rw [hpeperm.length_eq]
              exact hPISlen
            have hns : ∀ k, a ≤ k → k < b →
                less (aget PIS.1 k) (aget PIS.1 P1) = false := by
              intro k h1 h2
              exact hntr _ _ _ (hPISsent ha0 k h1 h2) hpge
            have hns2 : ∀ k, a ≤ k → k < b →
                less (aget PE.1 k) (aget PIS.1 P1) = false := by
              intro k h1 h2
              exact transfer_range_prop hpeperm peU
                (fun v => less v (aget PIS.1 P1) = false)
                (fun k' hk1 hk2 hk3 => hns k' hk1 hk2) k h1 h2 (by omega)
            have ihsent : 0 < PE.2 → ∀ k, PE.2 ≤ k → k < b →
                less (aget PE.1 k) (aget PE.1 (PE.2 - 1)) = false := by
              intro _ k h1 h2
              have hs1 : less (aget PE.1 k) (aget PIS.1 P1) = false :=
                lessAsym hirr htr (peR k h1 h2)
              have hs2 : less (aget PIS.1 P1) (aget PE.1 (PE.2 - 1)) = false :=
                peL (PE.2 - 1) (by omega) (by omega)
              exact hntr _ _ _ hs1 hs2
            have ih := pdqsortLoop_sorted hirr htr hntr f PE.1 PE.2 b L1 wb wp hpelen ihsent
            constructor
            · intro i j hi hij hjb
              by_cases hjp : j < PE.2
              · have e1 : aget (pdqsortLoop less PE.1 PE.2 b L1 wb wp f) j = aget PE.1 j :=
                  aget_eq_of_unch ih.2 (Or.inl hjp)
                have e2 : aget (pdqsortLoop less PE.1 PE.2 b L1 wb wp f) i = aget PE.1 i :=
                  aget_eq_of_unch ih.2 (Or.inl (by omega))
                rw [e1, e2]
                exact hntr _ _ _ (hns2 j (by omega) (by omega)) (peL i hi (by omega))
              · by_cases hip : i < PE.2
                · have e2 : aget (pdqsortLoop less PE.1 PE.2 b L1 wb wp f) i = aget PE.1 i :=
                    aget_eq_of_unch ih.2 (Or.inl hip)
                  rw [e2]
                  have hBj : less (aget PIS.1 P1)
                      (aget (pdqsortLoop less PE.1 PE.2 b L1 wb wp f) j) = true :=
                    transfer_range_prop (pdqsortLoop_perm less f PE.1 PE.2 b L1 wb wp) ih.2
                      (fun v => less (aget PIS.1 P1) v = true)
                      (fun k' h1 h2 h3 => peR k' h1 h2) j (by omega) hjb
                      (by rw [(pdqsortLoop_perm less f PE.1 PE.2 b L1 wb wp).length_eq]; omega)
                  have hA : less (aget PIS.1 P1) (aget PE.1 i) = false := peL i hi hip
                  cases hc : less (aget (pdqsortLoop less PE.1 PE.2 b L1 wb wp f) j)
                      (aget PE.1 i) with
                  | false => rfl
                  | true =>
                    have hcontra := htr _ _ _ hBj hc
                    rw [hA] at hcontra
                    exact Bool.noConfusion hcontra
                · exact ih.1 i j (by omega) hij hjb
            · exact unchangedOutside_trans hPISunchXS (unchangedOutside_trans peU
                (unchangedOutside_mono (by omega) (le_refl b) ih.2))
          · next hcond =>
            have hpt := partitionGo_spec less PIS.1 a b P1 (by omega) hPISlen
              hP1mem.1 hP1mem.2
            have hptperm : List.Perm (partitionGo less PIS.1 a b P1).1 PIS.1 :=
              partitionGo_perm less PIS.1 a b P1
            generalize hPT : partitionGo less PIS.1 a b P1 = PT
            rw [hPT] at hpt hptperm
            obtain ⟨ptL, ptM, ptR, ptA, ptB, ptU⟩ := hpt
            have hptpermXS : List.Perm PT.1 xs := hptperm.trans hPISpermXS
            have hptlen : b ≤ PT.1.length := by
              rw [hptperm.length_eq]
              exact hPISlen
            have hptsent : 0 < a → ∀ k, a ≤ k → k < b →
                less (aget PT.1 k) (aget PT.1 (a-1)) = false := by
              intro ha0 k h1 h2
              have hb1 : aget PT.1 (a-1) = aget xs (a-1) :=
                aget_eq_of_unch (unchangedOutside_trans hPISunchXS ptU) (Or.inl (by omega))
              rw [hb1]
              exact transfer_range_prop hptpermXS (unchangedOutside_trans hPISunchXS ptU)
                (fun v => less v (aget xs (a-1)) = false)
                (fun k' hk1 hk2 hk3 => hsent ha0 k' hk1 hk2) k h1 h2 (by omega)
            generalize (decide (min (PT.2.1 - a) (b - PT.2.1) ≥ (b - a) / 8)) = WB
            split
            · next hltb =>
              have ih1 := pdqsortLoop_sorted hirr htr hntr f PT.1 a PT.2.1 L1 true true
                (by omega) (fun ha0 k h1 h2 => hptsent ha0 k h1 (by omega))
              have hinperm : List.Perm (pdqsortLoop less PT.1 a PT.2.1 L1 true true f) PT.1 :=
                pdqsortLoop_perm less f PT.1 a PT.2.1 L1 true true
              generalize hIN : pdqsortLoop less PT.1 a PT.2.1 L1 true true f = IN
              rw [hIN] at ih1 hinperm
              have hinlen : b ≤ IN.length := by
                rw [hinperm.length_eq]
                exact hptlen
              have hINmid : aget IN PT.2.1 = aget PIS.1 P1 := by
                rw [aget_eq_of_unch ih1.2 (Or.inr (le_refl _)), ptM]
              have hINright : ∀ k, PT.2.1 < k → k < b → aget IN k = aget PT.1 k :=
                fun k h1 h2 => aget_eq_of_unch ih1.2 (Or.inr (by omega))
              have hosent : 0 < PT.2.1 + 1 → ∀ k, PT.2.1 + 1 ≤ k → k < b →
                  less (aget IN k) (aget IN (PT.2.1 + 1 - 1)) = false := by
                intro _ k h1 h2
                rw [(by omega : PT.2.1 + 1 - 1 = PT.2.1), hINmid, hINright k (by omega) h2]
                exact ptR k (by omega) h2
              have ih2 := pdqsortLoop_sorted hirr htr hntr f IN (PT.2.1 + 1) b L1 WB PT.2.2
                hinlen hosent
              constructor
              · refine sorted_glue hirr htr hntr (aget PIS.1 P1) _ a PT.2.1 b ptA (by omega)
                  ?_ ?_ ?_ ?_ ?_
                · intro i j h1 h2 h3
                  have e1 : aget (pdqsortLoop less IN (PT.2.1 + 1) b L1 WB PT.2.2 f) j
                      = aget IN j := aget_eq_of_unch ih2.2 (Or.inl (by omega))
                  have e2 : aget (pdqsortLoop less IN (PT.2.1 + 1) b L1 WB PT.2.2 f) i
                      = aget IN i := aget_eq_of_unch ih2.2 (Or.inl (by omega))
                  rw [e1, e2]
                  exact ih1.1 i j h1 h2 h3
                · exact ih2.1
                · intro k h1 h2
                  have e1 : aget (pdqsortLoop less IN (PT.2.1 + 1) b L1 WB PT.2.2 f) k
                      = aget IN k := aget_eq_of_unch ih2.2 (Or.inl (by omega))
                  rw [e1]
                  exact transfer_range_prop hinperm ih1.2
                    (fun v => less v (aget PIS.1 P1) = true)
                    (fun k' hk1 hk2 hk3 => ptL k' hk1 hk2) k h1 h2 (by omega)
                · have e1 : aget (pdqsortLoop less IN (PT.2.1 + 1) b L1 WB PT.2.2 f) PT.2.1
                      = aget IN PT.2.1 := aget_eq_of_unch ih2.2 (Or.inl (by omega))
                  rw [e1, hINmid]
                · intro k h1 h2
                  refine transfer_range_prop
                    (pdqsortLoop_perm less f IN (PT.2.1 + 1) b L1 WB PT.2.2) ih2.2
                    (fun v => less v (aget PIS.1 P1) = false)
                    (fun k' hk1 hk2 hk3 => ?_) k (by omega) h2
                    (by rw [(pdqsortLoop_perm less f IN (PT.2.1 + 1) b L1 WB
                      PT.2.2).length_eq]; omega)
                  rw [hINright k' (by omega) hk2]
                  exact ptR k' (by omega) hk2
              · have u1 : UnchangedOutside PT.1 IN a b :=
                  unchangedOutside_mono (le_refl a) (by omega) ih1.2
                have u2 : UnchangedOutside IN
                    (pdqsortLoop less IN (PT.2.1 + 1) b L1 WB PT.2.2 f) a b :=
                  unchangedOutside_mono (by omega) (le_refl b) ih2.2
                exact unchangedOutside_trans hPISunchXS (unchangedOutside_trans ptU
                  (unchangedOutside_trans u1 u2))
            · next hltb =>
              have hisent : 0 < PT.2.1 + 1 → ∀ k, PT.2.1 + 1 ≤ k → k < b →
                  less (aget PT.1 k) (aget PT.1 (PT.2.1 + 1 - 1)) = false := by
                intro _ k h1 h2
                rw [(by omega : PT.2.1 + 1 - 1 = PT.2.1), ptM]
                exact ptR k (by omega) h2
              have ih1 := pdqsortLoop_sorted hirr htr hntr f PT.1 (PT.2.1 + 1) b L1 true true
                hptlen hisent
              have hinperm : List.Perm (pdqsortLoop less PT.1 (PT.2.1 + 1) b L1 true true f)
                  PT.1 := pdqsortLoop_perm less f PT.1 (PT.2.1 + 1) b L1 true true
              generalize hIN : pdqsortLoop less PT.1 (PT.2.1 + 1) b L1 true true f = IN
              rw [hIN] at ih1 hinperm
              have hinlen : PT.2.1 ≤ IN.length := by
                rw [hinperm.length_eq]
                omega
              have hinlenb : b ≤ IN.length := by
                rw [hinperm.length_eq]
                omega
              have hINleft : ∀ k, k ≤ PT.2.1 → aget IN k = aget PT.1 k :=
                fun k h1 => aget_eq_of_unch ih1.2 (Or.inl (by omega))
              have hosent : 0 < a → ∀ k, a ≤ k → k < PT.2.1 →
                  less (aget IN k) (aget IN (a-1)) = false := by
                intro ha0 k h1 h2
                rw [hINleft k (by omega), hINleft (a-1) (by omega)]
                exact hptsent ha0 k h1 (by omega)
              have ih2 := pdqsortLoop_sorted hirr htr hntr f IN a PT.2.1 L1 WB PT.2.2
                hinlen hosent
              constructor
              · refine sorted_glue hirr htr hntr (aget PIS.1 P1) _ a PT.2.1 b ptA (by omega)
                  ?_ ?_ ?_ ?_ ?_
                · exact ih2.1
                · intro i j h1 h2 h3
                  have e1 : aget (pdqsortLoop less IN a PT.2.1 L1 WB PT.2.2 f) j
                      = aget IN j := aget_eq_of_unch ih2.2 (Or.inr (by omega))
                  have e2 : aget (pdqsortLoop less IN a PT.2.1 L1 WB PT.2.2 f) i
                      = aget IN i := aget_eq_of_unch ih2.2 (Or.inr (by omega))
                  rw [e1, e2]
                  exact ih1.1 i j h1 h2 h3
                · intro k h1 h2
                  refine transfer_range_prop
                    (pdqsortLoop_perm less f IN a PT.2.1 L1 WB PT.2.2) ih2.2
                    (fun v => less v (aget PIS.1 P1) = true)
                    (fun k' hk1 hk2 hk3 => ?_) k h1 h2
                    (by rw [(pdqsortLoop_perm less f IN a PT.2.1 L1 WB
                      PT.2.2).length_eq]; omega)
                  rw [hINleft k' (by omega)]
                  exact ptL k' hk1 hk2
                · have e1 : aget (pdqsortLoop less IN a PT.2.1 L1 WB PT.2.2 f) PT.2.1
                      = aget IN PT.2.1 := aget_eq_of_unch ih2.2 (Or.inr (le_refl _))
                  rw [e1, hINleft PT.2.1 (le_refl _), ptM]
                · intro k h1 h2
                  have e1 : aget (pdqsortLoop less IN a PT.2.1 L1 WB PT.2.2 f) k
                      = aget IN k := aget_eq_of_unch ih2.2 (Or.inr (by omega))
                  rw [e1]
                  refine transfer_range_prop hinperm ih1.2
                    (fun v => less v (aget PIS.1 P1) = false)
                    (fun k' hk1 hk2 hk3 => ptR k' (by omega) hk2) k (by omega) h2 (by omega)
              · have u1 : UnchangedOutside PT.1 IN a b :=
                  unchangedOutside_mono (by omega) (le_refl b) ih1.2
                have u2 : UnchangedOutside IN
                    (pdqsortLoop less IN a PT.2.1 L1 WB PT.2.2 f) a b :=
                  unchangedOutside_mono (le_refl a) (by omega) ih2.2
                exact unchangedOutside_trans hPISunchXS (unchangedOutside_trans ptU
                  (unchangedOutside_trans u1 u2))

theorem goSortSlice_sorted {α : Type} [Inhabited α] {less : α → α → Bool}
    (hirr : LessIrrefl less) (htr : LessTrans less) (hntr : LessNegTrans less)
    (xs : List α) : SortedRange less (goSortSlice less xs) 0 xs.length := by
  unfold goSortSlice
  exact (pdqsortLoop_sorted hirr htr hntr xs.length xs 0 xs.length (bitsLen xs.length)
    true true (le_refl _) (fun h => absurd h (by omega))).1

end StenellaProofs


namespace StenellaProofs

open Stenella

theorem addSource_snd (s : List String) (url : String) :
    (apiAddSource s url).2 = s ∨
      (trimSpace url ∉ s ∧ (apiAddSource s url).2 = s ++ [trimSpace url]) := by
  unfold apiAddSource
  by_cases he : trimSpace url = ""
  · simp [he]
  · simp only [he, if_neg, if_false]
    cases hp : urlParse (trimSpace url) with
    | none => simp
    | some u =>
      by_cases ha : u.isAbs
      · by_cases hm : trimSpace url ∈ s
        · simp [ha, hm]
        · exact Or.inr ⟨hm, by simp [ha, hm]⟩
      · simp [ha]

theorem removeSource_snd (s : List String) (url : String) :
    (apiRemoveSource s url).2 = s ∨
      (apiRemoveSource s url).2 = s.filter (fun x => x ≠ trimSpace url) := by
  unfold apiRemoveSource
  by_cases he : trimSpace url = ""
  · simp [he]
  · by_cases hm : trimSpace url ∈ s <;> simp [he, hm]

/-- Claim C9: aggregation never fails as a whole: for every source list and
every pattern of per-source fetch outcomes, `aggregateFeeds` returns a nil
error, so the feed-listing handler's internal-failure (500) branch is
unreachable — the handler always answers 200. -/
theorem claim_C9_aggregate_never_fails (fetch : String → Option (List FeedItem))
    (sources : List String) :
    (aggregateFeeds fetch sources).2 = none ∧ apiFeedsHandler fetch sources = 200 :=
  ⟨rfl, rfl⟩

/-- Claim C2: for every registry state and url string, Add fails with the
validation status 400 exactly when the url is empty after trimming or does
not parse as an absolute URL; fails with the distinct conflict status 409
exactly when the (trimmed) url is valid but already present by exact
string match; succeeds with 201 exactly when valid and not present, and
then appends the trimmed url at the end; on every failure the list is
unchanged. -/
theorem claim_C2_addSource (sources : List String) (url : String) :
    ((apiAddSource sources url).1 = 400 ↔
      trimSpace url = "" ∨ urlParse (trimSpace url) = none ∨
        ∃ u, urlParse (trimSpace url) = some u ∧ u.isAbs = false) ∧
    ((apiAddSource sources url).1 = 409 ↔
      trimSpace url ≠ "" ∧ (∃ u, urlParse (trimSpace url) = some u ∧ u.isAbs = true) ∧
        trimSpace url ∈ sources) ∧
    ((apiAddSource sources url).1 = 201 ↔
      trimSpace url ≠ "" ∧ (∃ u, urlParse (trimSpace url) = some u ∧ u.isAbs = true) ∧
        trimSpace url ∉ sources) ∧
    ((apiAddSource sources url).1 ≠ 201 → (apiAddSource sources url).2 = sources) ∧
    ((apiAddSource sources url).1 = 201 →
      (apiAddSource sources url).2 = sources ++ [trimSpace url]) := by
  unfold apiAddSource
  by_cases he : trimSpace url = ""
  · simp [he]
  · simp only [he, if_neg, if_false]
    cases hp : urlParse (trimSpace url) with
    | none => simp
    | some u =>
      by_cases ha : u.isAbs
      · by_cases hm : trimSpace url ∈ sources
        · simp [ha, hm, hp, he]
        · simp [ha, hm, hp, he]
      · simp [ha, hp]

/-- Witness for claim C2: `Add("not-a-url")` (no scheme) yields the
validation status 400 and leaves the default list unchanged. -/
theorem claim_C2_witness :
    (apiAddSource defaultFeedSources "not-a-url").1 = 400 ∧
    (apiAddSource defaultFeedSources "not-a-url").2 = defaultFeedSources := by
  have h := claim_C2_addSource defaultFeedSources "not-a-url"
  refine ⟨h.1.mpr ?_, h.2.2.2.1 ?_⟩
  · exact Or.inr (Or.inr ⟨⟨"", "", "", "not-a-url"⟩, by decide, by decide⟩)
  · rw [h.1.mpr (Or.inr (Or.inr ⟨⟨"", "", "", "not-a-url"⟩, by decide, by decide⟩))]
    decide

/-- Counterexample to claim C3 as stated: the empty url is not present in
the registry, yet Remove answers the invalid-payload validation status
400, not the claimed not-found status 404 (the list is unchanged). -/
theorem claim_C3_counterexample :
    "" ∉ defaultFeedSources ∧ (apiRemoveSource defaultFeedSources "").1 ≠ 404 ∧
    apiRemoveSource defaultFeedSources "" = (400, defaultFeedSources) := by decide

/-- Claim C3 as amended: a url that is empty after trimming is rejected
with the invalid-payload validation status 400 and the list is unchanged;
otherwise, when the trimmed url is not present, Remove fails with the
not-found status 404 and the list is unchanged; otherwise it succeeds
(200), removing the matching entries — exactly the one matching entry
when the registry state is duplicate-free, as every reachable registry
state is — and preserving the relative order of the remaining entries. -/
theorem claim_C3_remove (sources : List String) (url : String) :
    (trimSpace url = "" → apiRemoveSource sources url = (400, sources)) ∧
    (trimSpace url ≠ "" → trimSpace url ∉ sources →
      apiRemoveSource sources url = (404, sources)) ∧
    (trimSpace url ≠ "" → trimSpace url ∈ sources →
      (apiRemoveSource sources url).1 = 200 ∧
      (apiRemoveSource sources url).2 = sources.filter (fun x => decide (x ≠ trimSpace url)) ∧
      (apiRemoveSource sources url).2.Sublist sources ∧
      (sources.Nodup → (apiRemoveSource sources url).2 = sources.erase (trimSpace url))) := by
  by_cases he : trimSpace url = ""
  · exact ⟨fun _ => by simp [apiRemoveSource, he], fun hne => absurd he hne,
      fun hne => absurd he hne⟩
  · by_cases hm : trimSpace url ∈ sources
    · have h2 : (apiRemoveSource sources url).2
          = sources.filter (fun x => decide (x ≠ trimSpace url)) := by
        simp [apiRemoveSource, he, hm]
      refine ⟨fun hc => absurd hc he, fun _ hnm => absurd hm hnm, fun _ _ => ⟨?_, h2, ?_, ?_⟩⟩
      · simp [apiRemoveSource, he, hm]
      · rw [h2]; exact List.filter_sublist sources
      · intro hnd
        rw [h2, hnd.erase_eq_filter]
        exact List.filter_congr fun x _ => by by_cases hx : x = trimSpace url <;> simp [hx]
    · exact ⟨fun hc => absurd hc he, fun _ _ => by simp [apiRemoveSource, he, hm],
        fun _ hmem => absurd hmem hm⟩

/-- Witness for the amended claim C3: removing a present default source
succeeds with 200 and leaves exactly the other entry. -/
theorem claim_C3_witness :
    (apiRemoveSource defaultFeedSources "https://news.ycombinator.com/rss").1 = 200 ∧
    (apiRemoveSource defaultFeedSources "https://news.ycombinator.com/rss").2 =
      ["https://www.reddit.com/r/golang/.rss"] := by
  have h := (claim_C3_remove defaultFeedSources "https://news.ycombinator.com/rss").2.2
    (by decide) (by decide)
  exact ⟨h.1, by rw [h.2.1]; decide⟩

/-- Claim C4: every registry state reachable from the initial
two-default-URL state via the add/remove handlers has no duplicate
entries; moreover Add either leaves the list unchanged or appends the
(trimmed) url at the end, and Remove always yields a sublist of the
previous state (insertion order is preserved). -/
theorem claim_C4_registry_invariant :
    (∀ s, Reachable s → s.Nodup) ∧
    (∀ (s : List String) (url : String),
      (apiAddSource s url).2 = s ∨ (apiAddSource s url).2 = s ++ [trimSpace url]) ∧
    (∀ (s : List String) (url : String), (apiRemoveSource s url).2.Sublist s) := by
  refine ⟨?_, ?_, ?_⟩
  · intro s h
    induction h with
    | init => decide
    | add s url _ ih =>
      rcases addSource_snd s url with h1 | ⟨hnm, h1⟩
      · rw [h1]; exact ih
      · rw [h1]
        simp [List.nodup_append, ih, hnm]
    | remove s url _ ih =>
      rcases removeSource_snd s url with h1 | h1
      · rw [h1]; exact ih
      · rw [h1]; exact ih.filter _
  · intro s url
    rcases addSource_snd s url with h1 | ⟨_, h1⟩
    · exact Or.inl h1
    · exact Or.inr h1
  · intro s url
    rcases removeSource_snd s url with h1 | h1
    · rw [h1]
    · rw [h1]; exact List.filter_sublist s

/-- Witness for claim C4: the initial state itself is duplicate-free. -/
theorem claim_C4_witness : defaultFeedSources.Nodup :=
  claim_C4_registry_invariant.1 defaultFeedSources Reachable.init

/-- Claim C5: the date parser tries exactly the layouts RFC1123Z, RFC1123,
RFC822Z, RFC822, RFC3339 and the timezone-less fallback, in that order,
and returns the first successful parse with no error; it signals a parse
failure iff every layout fails, and then returns the current wall-clock
time `now`. -/
theorem claim_C5_parsePubDate (tparse : String → String → Option GoTime)
    (now : GoTime) (v : String) :
    ((parsePubDate tparse now v).2 = true ↔
      ∀ l ∈ [goRFC1123Z, goRFC1123, goRFC822Z, goRFC822, goRFC3339, fallbackLayout],
        tparse l v = none) ∧
    ((parsePubDate tparse now v).2 = true → (parsePubDate tparse now v).1 = now) ∧
    (∀ t, List.findSome? (fun l => tparse l v)
        [goRFC1123Z, goRFC1123, goRFC822Z, goRFC822, goRFC3339, fallbackLayout] = some t →
      parsePubDate tparse now v = (t, false)) := by
  rcases h1 : tparse goRFC1123Z v with _ | t1 <;>
  rcases h2 : tparse goRFC1123 v with _ | t2 <;>
  rcases h3 : tparse goRFC822Z v with _ | t3 <;>
  rcases h4 : tparse goRFC822 v with _ | t4 <;>
  rcases h5 : tparse goRFC3339 v with _ | t5 <;>
  rcases h6 : tparse fallbackLayout v with _ | t6 <;>
  simp_all [parsePubDate, firstParse, pubDateLayouts, List.findSome?]

/-- Witness for claim C5: with a parser that fails on every layout, the
result is `now` together with the failure flag. -/
theorem claim_C5_witness :
    (parsePubDate (fun _ _ => none) 7 "garbage").2 = true ∧
    (parsePubDate (fun _ _ => none) 7 "garbage").1 = 7 := by
  have h := claim_C5_parsePubDate (fun _ _ => none) 7 "garbage"
  have h2 := h.1.mpr (by intro l _; rfl)
  exact ⟨h2, h.2.1 h2⟩

theorem mapM_option_length {A B : Type} (f : A → Option B) :
    ∀ (l : List A) (out : List B), l.mapM f = some out → out.length = l.length := by
  intro l
  induction l with
  | nil => intro out h; rw [List.mapM_nil] at h; cases h; rfl
  | cons a l ih =>
    intro out h
    rw [List.mapM_cons] at h
    cases hf : f a with
    | none => rw [hf] at h; simp at h
    | some b =>
      rw [hf] at h
      cases hm : l.mapM f with
      | none => rw [hm] at h; simp at h
      | some bs =>
        rw [hm] at h
        simp at h
        rw [← h]
        simp [ih bs hm]

theorem mapM_option_get {A B : Type} (f : A → Option B) :
    ∀ (l : List A) (out : List B), l.mapM f = some out →
      ∀ i (hi : i < l.length) (hi' : i < out.length),
        f (l.get ⟨i, hi⟩) = some (out.get ⟨i, hi'⟩) := by
  intro l
  induction l with
  | nil => intro out h i hi; exact absurd hi (by simp)
  | cons a l ih =>
    intro out h i hi hi'
    rw [List.mapM_cons] at h
    cases hf : f a with
    | none => rw [hf] at h; simp at h
    | some b =>
      rw [hf] at h
      cases hm : l.mapM f with
      | none => rw [hm] at h; simp at h
      | some bs =>
        rw [hm] at h
        simp at h
        subst h
        cases i with
        | zero => simpa using hf
        | succ k =>
          exact ih bs hm k (by simpa using hi) (by simpa using hi')

/-- Claim C10: for every successfully decoded feed document (and every
completed run of the fetcher), the fetcher produces exactly one item per
channel item, in document order — the i-th output is the normalization of
the i-th channel item, whose published field falls back to `now` rather
than dropping the item when the pubDate is unparseable. -/
theorem claim_C10_one_item_per_entry (tparse : String → String → Option GoTime)
    (now : GoTime) (feedURL : String) (rss : RSS) (out : List FeedItem)
    (h : fetchFeedItems tparse now feedURL rss = some out) :
    out.length = rss.channel.items.length ∧
    ∀ i (hi : i < rss.channel.items.length) (hi' : i < out.length),
      normalizeItem tparse now (urlParse feedURL) rss.channel.title
        (rss.channel.items.get ⟨i, hi⟩) = some (out.get ⟨i, hi'⟩) := by
  unfold fetchFeedItems at h
  exact ⟨mapM_option_length _ _ _ h, fun i hi hi' => mapM_option_get _ _ _ h i hi hi'⟩

/-- Witness for claim C10: a one-item feed with an unparseable pubDate
still yields exactly one normalized item (with the fallback timestamp). -/
theorem claim_C10_witness :
    fetchFeedItems (fun _ _ => none) 5 "https://example.com/rss"
        ⟨⟨"T", [⟨" a ", "https://x/y", "d", "bad-date"⟩]⟩⟩ =
      some [⟨"a", "https://x/y", "d", 5, "T"⟩] ∧
    ([(⟨"a", "https://x/y", "d", 5, "T"⟩ : FeedItem)]).length =
      ([(⟨" a ", "https://x/y", "d", "bad-date"⟩ : Item)]).length := by
  constructor
  · decide
  · exact (claim_C10_one_item_per_entry (fun _ _ => none) 5 "https://example.com/rss"
      ⟨⟨"T", [⟨" a ", "https://x/y", "d", "bad-date"⟩]⟩⟩ [⟨"a", "https://x/y", "d", 5, "T"⟩]
      (by decide)).1

end StenellaProofs


namespace StenellaProofs

open Stenella

theorem dropWhile_head?_not {α : Type} (p : α → Bool) (l : List α) (c : α)
    (h : (l.dropWhile p).head? = some c) : p c = false := by
  induction l with
  | nil => simp at h
  | cons a l ih =>
    rw [List.dropWhile_cons] at h
    split at h
    · exact ih h
    · next hp => cases h; simpa using hp

theorem dropWhile_self_of_head? {α : Type} (p : α → Bool) (l : List α)
    (h : ∀ c, l.head? = some c → p c = false) : l.dropWhile p = l := by
  cases l with
  | nil => rfl
  | cons a l => simp [List.dropWhile_cons, h a rfl]

theorem dropWhile_dropWhile {α : Type} (p : α → Bool) (l : List α) :
    (l.dropWhile p).dropWhile p = l.dropWhile p := by
  refine dropWhile_self_of_head? p _ ?_
  intro c hc
  exact dropWhile_head?_not p l c hc

theorem trimSpace_data (s : String) :
    (trimSpace s).data
      = ((s.data.dropWhile Char.isWhitespace).reverse.dropWhile Char.isWhitespace).reverse := rfl

theorem trimSpace_idem (s : String) : trimSpace (trimSpace s) = trimSpace s := by
  have hres : (trimSpace s).data
      = ((s.data.dropWhile Char.isWhitespace).reverse.dropWhile Char.isWhitespace).reverse :=
    trimSpace_data s
  apply String.ext
  rw [trimSpace_data, hres]
  set t := s.data.dropWhile Char.isWhitespace with ht
  set r := t.reverse.dropWhile Char.isWhitespace with hr
  have h1 : r.reverse.dropWhile Char.isWhitespace = r.reverse := by
    apply dropWhile_self_of_head?
    intro c hc
    rw [List.head?_reverse] at hc
    rcases hrn : r with _ | _
    · rw [hrn] at hc; simp at hc
    · have hsuf : r <:+ t.reverse := by rw [hr]; exact List.dropWhile_suffix _
      rcases hsuf with ⟨pre, hpre⟩
      have hgl : r.getLast? = t.reverse.getLast? := by
        rw [← hpre]
        exact (List.getLast?_append_of_ne_nil pre (by rw [hrn]; simp)).symm
      rw [hgl, List.getLast?_reverse] at hc
      exact dropWhile_head?_not _ s.data _ hc
  rw [h1, List.reverse_reverse, hr]
  rw [dropWhile_dropWhile]

end StenellaProofs


namespace StenellaProofs

open Stenella

theorem trimSpace_ne_of_mem (s : String) (c : Char) (hc : c ∈ s.data)
    (hw : c.isWhitespace = false) : trimSpace s ≠ "" := by
  intro h
  have hdata : (trimSpace s).data = [] := by rw [h]
  rw [trimSpace_data] at hdata
  rw [List.reverse_eq_nil_iff] at hdata
  have hall : ∀ x ∈ (s.data.dropWhile Char.isWhitespace).reverse, x.isWhitespace :=
    List.dropWhile_eq_nil_iff.mp hdata
  have hsplit := List.takeWhile_append_dropWhile (p := Char.isWhitespace) (l := s.data)
  rw [← hsplit] at hc
  rcases List.mem_append.mp hc with h1 | h2
  · have h3 := List.mem_takeWhile_imp h1
    simp [hw] at h3
  · have h3 := hall c (List.mem_reverse.mpr h2)
    simp [hw] at h3

theorem resolveReference_scheme (u ref : GoURL) (h : ref.scheme = "") :
    (resolveReference u ref).scheme = u.scheme := by
  unfold resolveReference
  simp only [h]
  split <;> first | rfl | (split <;> rfl)

theorem urlString_colon_mem (u : GoURL) (h : u.scheme ≠ "") :
    ':' ∈ (urlString u).data := by
  unfold urlString
  rw [if_pos h, String.data_append, String.data_append]
  exact List.mem_append.mpr (Or.inl (List.mem_append.mpr (Or.inr (by decide))))

theorem resolveItemLink_trim_ne (b : GoURL) (hb : b.isAbs = true) (link s : String)
    (h : resolveItemLink (some b) link = some s) (hne : trimSpace link ≠ "") :
    trimSpace s ≠ "" := by
  unfold resolveItemLink at h
  cases hp : urlParse link with
  | none => rw [hp] at h; dsimp only at h; cases h; exact hne
  | some l =>
    rw [hp] at h
    dsimp only at h
    by_cases ha : l.isAbs
    · rw [if_pos ha] at h; cases h; exact hne
    · rw [if_neg ha] at h
      cases h
      have hls : l.scheme = "" := by
        by_contra hx
        exact ha (by simp [GoURL.isAbs, hx])
      have hsch : (resolveReference b l).scheme = b.scheme := resolveReference_scheme b l hls
      have hbne : b.scheme ≠ "" := by
        intro hx
        rw [GoURL.isAbs, hx] at hb
        simp at hb
      apply trimSpace_ne_of_mem _ ':'
      · exact urlString_colon_mem _ (by rw [hsch]; exact hbne)
      · decide

end StenellaProofs

namespace StenellaProofs

open Stenella

/-- Claim C7: in a successfully decoded feed fetched from `feedURL`, every
item whose link parses as a relative URL gets its link replaced by the
resolution of that link against the feed URL (the stored field is the
whitespace-trimmed rendering of the resolved URL). -/
theorem claim_C7_relative_link_resolution (tparse : String → String → Option GoTime)
    (now : GoTime) (feedURL : String) (rss : RSS) (out : List FeedItem)
    (h : fetchFeedItems tparse now feedURL rss = some out)
    (i : Nat) (hi : i < rss.channel.items.length) (hi' : i < out.length)
    (ref : GoURL) (hparse : urlParse (rss.channel.items.get ⟨i, hi⟩).link = some ref)
    (hrel : ref.isAbs = false) (base : GoURL) (hbase : urlParse feedURL = some base) :
    (out.get ⟨i, hi'⟩).link = trimSpace (urlString (resolveReference base ref)) := by
  unfold fetchFeedItems at h
  have hn := mapM_option_get _ _ _ h i hi hi'
  unfold normalizeItem at hn
  rw [hbase] at hn
  unfold resolveItemLink at hn
  rw [hparse] at hn
  dsimp only at hn
  rw [if_neg (by rw [hrel]; simp)] at hn
  dsimp only [Option.map] at hn
  rw [← Option.some.inj hn]

/-- Witness for claim C7: a relative link `"/foo"` from a feed at
`"https://example.com/rss"` resolves to `"https://example.com/foo"`. -/
theorem claim_C7_witness :
    (([⟨"t", "https://example.com/foo", "", 0, "S"⟩] : List FeedItem).get ⟨0, by decide⟩).link
        = trimSpace (urlString (resolveReference ⟨"https", "", "example.com", "/rss"⟩
            ⟨"", "", "", "/foo"⟩)) ∧
    trimSpace (urlString (resolveReference ⟨"https", "", "example.com", "/rss"⟩
        ⟨"", "", "", "/foo"⟩)) = "https://example.com/foo" := by
  constructor
  · exact claim_C7_relative_link_resolution (fun _ _ => none) 0 "https://example.com/rss"
      ⟨⟨"S", [⟨"t", "/foo", "", "x"⟩]⟩⟩ [⟨"t", "https://example.com/foo", "", 0, "S"⟩]
      (by decide) 0 (by decide) (by decide) ⟨"", "", "", "/foo"⟩ (by decide) (by decide)
      ⟨"https", "", "example.com", "/rss"⟩ (by decide)
  · decide

/-- Claim C8: every produced item has whitespace-trimmed title, link and
description (trimming is idempotent, so the fields are fixed points of
trimming), and the title and link are non-empty whenever the source XML
provides non-whitespace content for them. -/
theorem claim_C8_trimmed_fields (tparse : String → String → Option GoTime)
    (now : GoTime) (feedURL : String) (rss : RSS) (out : List FeedItem)
    (base : GoURL) (hbase : urlParse feedURL = some base) (habs : base.isAbs = true)
    (h : fetchFeedItems tparse now feedURL rss = some out) :
    (∀ fi ∈ out, fi.title = trimSpace fi.title ∧ fi.link = trimSpace fi.link ∧
      fi.description = trimSpace fi.description) ∧
    (∀ i (hi : i < rss.channel.items.length) (hi' : i < out.length),
      (trimSpace (rss.channel.items.get ⟨i, hi⟩).title ≠ "" → (out.get ⟨i, hi'⟩).title ≠ "") ∧
      (trimSpace (rss.channel.items.get ⟨i, hi⟩).link ≠ "" → (out.get ⟨i, hi'⟩).link ≠ "")) := by
  unfold fetchFeedItems at h
  have hlen := mapM_option_length _ _ _ h
  constructor
  · intro fi hfi
    rcases List.mem_iff_get.mp hfi with ⟨⟨i, hi'⟩, hget⟩
    have hn := mapM_option_get _ _ _ h i (by omega) hi'
    unfold normalizeItem at hn
    cases hr : resolveItemLink (urlParse feedURL) (rss.channel.items.get ⟨i, by omega⟩).link with
    | none => rw [hr] at hn; cases hn
    | some lnk =>
      rw [hr] at hn
      dsimp only [Option.map] at hn
      rw [← hget, ← Option.some.inj hn]
      exact ⟨(trimSpace_idem _).symm, (trimSpace_idem _).symm, (trimSpace_idem _).symm⟩
  · intro i hi hi'
    have hn := mapM_option_get _ _ _ h i hi hi'
    unfold normalizeItem at hn
    cases hr : resolveItemLink (urlParse feedURL) (rss.channel.items.get ⟨i, hi⟩).link with
    | none => rw [hr] at hn; cases hn
    | some lnk =>
      rw [hr] at hn
      dsimp only [Option.map] at hn
      rw [← Option.some.inj hn]
      constructor
      · intro hne
        exact hne
      · intro hne
        rw [hbase] at hr
        exact resolveItemLink_trim_ne base habs _ lnk hr hne

/-- Witness for claim C8: a one-item feed with padded title and a relative
link yields trimmed, non-empty title and link. -/
theorem claim_C8_witness :
    ((⟨"a", "https://example.com/foo", "d", 0, "S"⟩ : FeedItem).title
        = trimSpace (⟨"a", "https://example.com/foo", "d", 0, "S"⟩ : FeedItem).title) ∧
    ((⟨"a", "https://example.com/foo", "d", 0, "S"⟩ : FeedItem).title ≠ "") := by
  have h8 := claim_C8_trimmed_fields (fun _ _ => none) 0 "https://example.com/rss"
    ⟨⟨"S", [⟨" a ", "/foo", " d ", "x"⟩]⟩⟩ [⟨"a", "https://example.com/foo", "d", 0, "S"⟩]
    ⟨"https", "", "example.com", "/rss"⟩ (by decide) (by decide) (by decide)
  exact ⟨(h8.1 ⟨"a", "https://example.com/foo", "d", 0, "S"⟩ (by decide)).1,
    by decide⟩

end StenellaProofs


namespace StenellaProofs

open Stenella

set_option maxRecDepth 100000 in
theorem claim_C1_counterexample :
    (aggregateFeeds (fun _ => some ceItems) ["https://a/rss"]).1
      ≠ specStableSortByPublishedDesc ceItems := by
  simp [aggregateFeeds, ceItems, GoSort.goSortSlice, GoSort.pdqsortLoop,
    GoSort.insertionSortGo, GoSort.insertionSortLoop, GoSort.insertInner,
    GoSort.heapSortGo, GoSort.heapBuild, GoSort.heapPop, GoSort.siftDownGo,
    GoSort.siftDownLoop, GoSort.siftChild,
    GoSort.scanLt, GoSort.scanLtLoop, GoSort.scanGe, GoSort.partitionAux,
    GoSort.partitionAuxLoop, GoSort.partitionCore, GoSort.partitionGo,
    GoSort.scanEqI, GoSort.scanEqILoop, GoSort.scanEqJ, GoSort.partitionEqualAux,
    GoSort.partitionEqualAuxLoop, GoSort.partitionEqualGo,
    GoSort.scanSortedIdx, GoSort.scanSortedLoop, GoSort.shiftLeftLoop, GoSort.shiftRightLoop,
    GoSort.pInsertionSortLoop, GoSort.pInsertionSortGo, GoSort.breakPatternsGo,
    GoSort.xsNext, GoSort.bitsLen, GoSort.bitsLenLoop, GoSort.nextPowerOfTwo,
    GoSort.order2, GoSort.medianGo,
    GoSort.medianAdjacentGo, GoSort.choosePivotGo, GoSort.reverseRangeLoop,
    GoSort.reverseRangeGo, GoSort.aswap, GoSort.aget, feedLess,
    specStableSortByPublishedDesc, List.insertionSort, List.orderedInsert]

end StenellaProofs


namespace StenellaProofs

open Stenella GoSort

theorem feedLess_irrefl : LessIrrefl feedLess := by
  intro x
  simp [feedLess]

theorem feedLess_trans : LessTrans feedLess := by
  intro x y z h1 h2
  simp only [feedLess, decide_eq_true_eq] at h1 h2 ⊢
  exact lt_trans h2 h1

theorem feedLess_negTrans : LessNegTrans feedLess := by
  intro x y z h1 h2
  simp only [feedLess, decide_eq_false_iff_not] at h1 h2 ⊢
  exact not_lt.mpr (le_trans (not_lt.mp h1) (not_lt.mp h2))

theorem aggregate_foldl_eq (fetch : String → Option (List FeedItem)) :
    ∀ (sources : List String) (acc : List FeedItem),
    sources.foldl
      (fun acc src =>
        match fetch src with
        | none => acc
        | some itms => acc ++ itms) acc
      = acc ++ (sources.filterMap fetch).join
  | [], acc => by simp
  | src :: rest, acc => by
    rw [List.foldl_cons, List.filterMap_cons]
    cases h : fetch src with
    | none =>
      dsimp only
      exact aggregate_foldl_eq fetch rest acc
    | some itms =>
      dsimp only
      rw [aggregate_foldl_eq fetch rest (acc ++ itms)]
      simp [List.append_assoc]

theorem aggregate_all_eq (fetch : String → Option (List FeedItem))
    (sources : List String) :
    (aggregateFeeds fetch sources).1
      = GoSort.goSortSlice feedLess ((sources.filterMap fetch).join) := by
  simp only [aggregateFeeds]
  rw [aggregate_foldl_eq fetch sources []]
  rw [List.nil_append]

/-- Claim C6: aggregation excludes the failing sources only: for every
source list and every pattern of per-source fetch outcomes, the output is
a permutation of the concatenation of the successfully fetched item lists
(in source order), and in particular every item of every successfully
fetched source appears in the output — there is no all-or-nothing
failure. -/
theorem claim_C6_partial_results (fetch : String → Option (List FeedItem))
    (sources : List String) :
    List.Perm (aggregateFeeds fetch sources).1 ((sources.filterMap fetch).join) ∧
    ∀ src, src ∈ sources → ∀ items, fetch src = some items →
      ∀ it, it ∈ items → it ∈ (aggregateFeeds fetch sources).1 := by
  have hall := aggregate_all_eq fetch sources
  have hperm : List.Perm (aggregateFeeds fetch sources).1
      ((sources.filterMap fetch).join) := by
    rw [hall]
    exact goSortSlice_perm feedLess _
  refine ⟨hperm, ?_⟩
  intro src hsrc items hfetch it hit
  have h1 : items ∈ sources.filterMap fetch := List.mem_filterMap.mpr ⟨src, hsrc, hfetch⟩
  have h2 : it ∈ (sources.filterMap fetch).join := List.mem_join.mpr ⟨items, h1, hit⟩
  exact hperm.mem_iff.mpr h2

/-- Claim C1 as amended: the aggregator's output is a permutation of the
concatenation of the successfully fetched items, sorted by published
timestamp in descending order (newest first).  The comparison is NOT
stable: Go's `sort.Slice` is a pattern-defeating quicksort, and the
counterexample exhibits equal-timestamp items whose relative order
changes. -/
theorem claim_C1_amended (fetch : String → Option (List FeedItem))
    (sources : List String) :
    List.Perm (aggregateFeeds fetch sources).1 ((sources.filterMap fetch).join) ∧
    SortedRange feedLess (aggregateFeeds fetch sources).1 0
      (aggregateFeeds fetch sources).1.length ∧
    ∀ i j, i < j → j < (aggregateFeeds fetch sources).1.length →
      (GoSort.aget (aggregateFeeds fetch sources).1 j).published
        ≤ (GoSort.aget (aggregateFeeds fetch sources).1 i).published := by
  have hall := aggregate_all_eq fetch sources
  have hperm : List.Perm (aggregateFeeds fetch sources).1
      ((sources.filterMap fetch).join) := by
    rw [hall]
    exact goSortSlice_perm feedLess _
  have hs := goSortSlice_sorted feedLess_irrefl feedLess_trans feedLess_negTrans
    ((sources.filterMap fetch).join)
  have hsr : SortedRange feedLess (aggregateFeeds fetch sources).1 0
      (aggregateFeeds fetch sources).1.length := by
    rw [hall, (goSortSlice_perm feedLess ((sources.filterMap fetch).join)).length_eq]
    exact hs
  refine ⟨hperm, hsr, ?_⟩
  intro i j hij hjl
  have h := hsr i j (Nat.zero_le i) hij hjl
  simp only [feedLess, decide_eq_false_iff_not] at h
  exact not_lt.mp h

end StenellaProofs
